import Mathlib

/-!
Verification of the lazy-evaluation expression engine of the `lazy` repository.

The production core (`Lazy.ArrayTraits`, `Lazy.Expression`) is not present in
the source tree; only its test suite is.  Following the spec (sections 3, 4.1
and 4.2) and the behaviour pinned down by the tests, we build a shallow
embedding of the engine: nested array values, parameter handles, expression
construction with broadcast validation, and the evaluation protocol (full
evaluation, coordinate evaluation, strided evaluation, indexing).

Conventions of the model:
* machine values are `Int`s, array-like objects are finite nested lists;
* the callable of an expression is a Lean function from the list of
  fully-dereferenced argument values to (return value, new argument values);
  the engine writes the new value back only through output (mutable
  reference) handles;
* failure (shape mismatch at construction, range errors, non-divisible
  stride) is `Option.none`.
-/

/-- Modelled from the spec: a runtime value of the trait layer, either a
scalar or an array-like object (nested lists model native arrays and the
sequence containers uniformly). -/
inductive Obj where
  | int : Int → Obj
  | arr : List Obj → Obj
deriving Repr

/-- Induction principle for `Obj` exposing list membership. -/
theorem Obj.inductionOn {P : Obj → Prop} (hint : ∀ v, P (.int v))
    (harr : ∀ l, (∀ x ∈ l, P x) → P (.arr l)) : ∀ o, P o
  | .int v => hint v
  | .arr l => harr l (fun x hx =>
      have : sizeOf x < sizeOf (Obj.arr l) := by
        have := List.sizeOf_lt_of_mem hx
        simp only [Obj.arr.sizeOf_spec]
        omega
      Obj.inductionOn hint harr x)
termination_by o => sizeOf o

/-- Modelled from the spec (§4.1 `rank`): nesting depth of array-like
structure; 0 for scalars.  On ragged data the first element decides, which is
the uniform-shape reading the construction-time validation enforces. -/
def Obj.rank : Obj → Nat
  | .int _ => 0
  | .arr [] => 1
  | .arr (x :: _) => 1 + x.rank

/-- Modelled from the spec (§4.1 `extent`): a scalar broadcasts as a
singleton, an array-like object reports its outermost element count. -/
def Obj.size : Obj → Nat
  | .int _ => 1
  | .arr l => l.length

/-- Modelled from the spec (§4.1 `at`): scalars pass through unchanged
(rank-0 broadcast); array-like objects yield the i-th outermost element.
Out-of-bounds access is a caller error in the source; the model returns a
default value there (the engine never produces such an access). -/
def Obj.get : Obj → Nat → Obj
  | .int v, _ => .int v
  | .arr l, i => l.getD i (.int 0)

/-- Writing an element back at an outermost index (the model of mutation
through a reference chain). -/
def Obj.setAt : Obj → Nat → Obj → Obj
  | .int v, _, _ => .int v
  | .arr l, i, v => .arr (l.set i v)

/-- The (uniform) shape of an object, outermost extent first. -/
def Obj.shape : Obj → List Nat
  | .int _ => []
  | .arr [] => [0]
  | .arr (x :: xs) => (xs.length + 1) :: x.shape

/-- `o.hasShape s`: the object is uniformly shaped with dimension extents
`s`.  Shape inference in the source works on the static container types, so
the engine only ever sees uniformly shaped arguments. -/
def Obj.hasShape : Obj → List Nat → Bool
  | .int _, s => s.isEmpty
  | .arr [], s => s == [0]
  | .arr (_ :: _), [] => false
  | .arr (x :: xs), n :: s => xs.length + 1 == n && (x :: xs).all (fun y => y.hasShape s)

/-- Well-formed: uniformly shaped. -/
def Obj.wf (o : Obj) : Bool := o.hasShape o.shape

theorem Obj.hasShape_rank {o : Obj} {s : List Nat} (h : o.hasShape s = true) :
    o.rank = s.length := by
  induction o using Obj.inductionOn generalizing s with
  | hint v => cases s <;> simp_all [Obj.hasShape, Obj.rank]
  | harr l ih =>
    cases s with
    | nil => cases l <;> simp [Obj.hasShape] at h
    | cons n s =>
      cases l with
      | nil =>
        simp only [Obj.hasShape, beq_iff_eq, List.cons.injEq] at h
        simp [Obj.rank, h.2]
      | cons x xs =>
        simp only [Obj.hasShape, Bool.and_eq_true, List.all_eq_true] at h
        have hx : x.hasShape s = true := h.2 x (by simp)
        simp [Obj.rank, ih x (by simp) hx]
        omega

theorem Obj.hasShape_size {o : Obj} {n : Nat} {s : List Nat}
    (h : o.hasShape (n :: s) = true) : o.size = n := by
  cases o with
  | int v => simp [Obj.hasShape] at h
  | arr l =>
    cases l with
    | nil =>
      simp only [Obj.hasShape, beq_iff_eq, List.cons.injEq] at h
      simp [Obj.size, h.1]
    | cons x xs =>
      simp only [Obj.hasShape, Bool.and_eq_true, beq_iff_eq] at h
      simpa [Obj.size] using h.1

theorem Obj.hasShape_get {o : Obj} {n : Nat} {s : List Nat} {i : Nat}
    (h : o.hasShape (n :: s) = true) (hi : i < n) :
    (o.get i).hasShape s = true := by
  cases o with
  | int v => simp [Obj.hasShape] at h
  | arr l =>
    cases l with
    | nil =>
      simp only [Obj.hasShape, beq_iff_eq, List.cons.injEq] at h
      obtain ⟨h1, -⟩ := h
      omega
    | cons x xs =>
      simp only [Obj.hasShape, Bool.and_eq_true, beq_iff_eq, List.all_eq_true] at h
      have hlen : i < (x :: xs).length := by simp; omega
      have hm : (x :: xs).getD i (.int 0) ∈ x :: xs := by
        rw [List.getD_eq_getElem _ _ hlen]
        exact List.getElem_mem hlen
      simpa [Obj.get] using h.2 _ hm

theorem Obj.hasShape_setAt {o v : Obj} {n : Nat} {s : List Nat} {i : Nat}
    (h : o.hasShape (n :: s) = true) (hv : v.hasShape s = true) :
    (o.setAt i v).hasShape (n :: s) = true := by
  cases o with
  | int w => simp [Obj.hasShape] at h
  | arr l =>
    cases l with
    | nil => simpa [Obj.setAt] using h
    | cons x xs =>
      simp only [Obj.hasShape, Bool.and_eq_true, beq_iff_eq, List.all_eq_true] at h
      have hlen : ((x :: xs).set i v).length = (x :: xs).length := by simp
      rcases hset : (x :: xs).set i v with _ | ⟨y, ys⟩
      · rw [hset] at hlen; simp at hlen
      · simp only [Obj.setAt, hset, Obj.hasShape, Bool.and_eq_true, beq_iff_eq,
          List.all_eq_true]
        constructor
        · rw [hset] at hlen; simp at hlen ⊢; omega
        · intro z hz
          rw [← hset] at hz
          rcases List.mem_or_eq_of_mem_set hz with hmem | rfl
          · exact h.2 z hmem
          · exact hv

theorem Obj.get_setAt_self {o v : Obj} {n : Nat} {s : List Nat} {i : Nat}
    (h : o.hasShape (n :: s) = true) (hi : i < n) :
    (o.setAt i v).get i = v := by
  cases o with
  | int w => simp [Obj.hasShape] at h
  | arr l =>
    have hn : Obj.size (.arr l) = n := Obj.hasShape_size h
    have hlen : i < l.length := by simp [Obj.size] at hn; omega
    simp [Obj.setAt, Obj.get, List.getD_eq_getElem?_getD, List.getElem?_set_self',
      hlen]

theorem Obj.setAt_setAt {o v w : Obj} {i : Nat} :
    (o.setAt i v).setAt i w = o.setAt i w := by
  cases o <;> simp [Obj.setAt, List.set_set]

theorem Obj.setAt_get_self {o : Obj} {n : Nat} {s : List Nat} {i : Nat}
    (h : o.hasShape (n :: s) = true) (hi : i < n) :
    o.setAt i (o.get i) = o := by
  cases o with
  | int w => simp [Obj.hasShape] at h
  | arr l =>
    have hn : Obj.size (.arr l) = n := Obj.hasShape_size h
    have hlen : i < l.length := by simp [Obj.size] at hn; omega
    simp only [Obj.setAt, Obj.get, Obj.arr.injEq]
    rw [List.getD_eq_getElem _ _ hlen]
    apply List.ext_getElem
    · simp
    · intro m h1 h2
      by_cases hm : m = i
      · subst hm; simp [List.getElem_set]
      · simp only [List.getElem_set]
        rw [if_neg (fun hc => hm hc.symm)]

theorem Obj.size_setAt {o v : Obj} {i : Nat} : (o.setAt i v).size = o.size := by
  cases o <;> simp [Obj.setAt, Obj.size]

/-- Modelled from the spec (§3 Parameter Handle): one bound argument of an
expression.  `val` is the current value of the referent, `pr` the rank of the
callable's parameter type for this argument (0 for a scalar parameter, §4.2
step 1/2), `out` whether the parameter is a mutable reference the callable
writes through (the ownership taxonomy collapses to this one observable bit
in a value model). -/
structure Handle where
  val : Obj
  pr : Nat
  out : Bool
deriving Repr

/-- The number of dimensions the engine descends for this handle: argument
rank minus parameter rank (test `obj_rank_v/Expression`). -/
def Handle.eff (h : Handle) : Nat := h.val.rank - h.pr

/-- Modelled from the spec (§3 Expression): a callable plus the ordered
handle sequence.  The callable receives the fully dereferenced argument
values and yields its return value together with the post-call values of all
arguments (writes through mutable references). -/
structure Expr where
  f : List Obj → Obj × List Obj
  hs : List Handle

/-- Modelled from the spec (§4.2 step 3): expression rank = maximum handle
rank. -/
def Expr.rank (E : Expr) : Nat := E.hs.foldr (fun h m => max h.eff m) 0

/-- Whether a handle is indexed when the expression peels the dimension with
`rrem` dimensions remaining: its current rank must reach that dimension
(lower-rank handles are reused unchanged, §3 rank-broadcast) and must still
be above the parameter rank (a partially-unwrapped argument stops early and
is passed whole, test `expression with invocable whose inputs are partially
unwrapped arrays`). -/
def Handle.consume (h : Handle) (rrem : Nat) : Bool :=
  decide (rrem ≤ h.val.rank) && decide (h.pr < h.val.rank)

/-- The index actually bound into a handle's outermost dimension: a
singleton extent broadcasts by repeating its only element (§2, §3). -/
def Handle.cidx (h : Handle) (i : Nat) : Nat := if h.val.size = 1 then 0 else i

/-- Peel one dimension off a handle (`at` of the trait layer applied by the
engine, §4.1/§4.2). -/
def Handle.index (h : Handle) (rrem i : Nat) : Handle :=
  if h.consume rrem then { h with val := h.val.get (h.cidx i) } else h

/-- Modelled from the spec (§4.2 `operator[]`): the sub-expression with index
`i` bound into each handle's outermost dimension. -/
def Expr.sub (E : Expr) (i : Nat) : Expr :=
  { E with hs := E.hs.map (fun h => h.index E.rank i) }

/-- Modelled from the spec (§4.2 `size()`): outermost extent of the
expression, 0 for a rank-0 expression.  Only handles that actually cover the
outermost dimension contribute (§3 shape). -/
def Expr.size (E : Expr) : Nat :=
  if E.rank = 0 then 0
  else E.hs.foldr (fun h m => if h.consume E.rank then max h.val.size m else m) 0

/-- Write the handles of an evaluated sub-expression back into the parent:
an indexed handle has its element at the bound index replaced, an unindexed
(broadcast) handle is replaced wholesale. -/
def Handle.unindex (h : Handle) (rrem i : Nat) (s : Handle) : Handle :=
  if h.consume rrem then { h with val := h.val.setAt (h.cidx i) s.val } else s

/-- Write an evaluated sub-expression state back into the parent at index
`i` (the model of mutation flowing through the reference chain). -/
def Expr.wb (E : Expr) (i : Nat) (S : Expr) : Expr :=
  { E with hs := (E.hs.zip S.hs).map (fun p => p.1.unindex E.rank i p.2) }

/-- The fully dereferenced argument values handed to the callable at a
leaf. -/
def Expr.leafVals (E : Expr) : List Obj := E.hs.map (·.val)

/-- Invoke the callable at a (rank-0) leaf: the callable runs on the
dereferenced values and its writes land in the output handles. -/
def Expr.evalLeaf (E : Expr) : Obj × Expr :=
  let r := E.f E.leafVals
  (r.1, { E with hs := (E.hs.zip r.2).map (fun p => if p.1.out then { p.1 with val := p.2 } else p.1) })

/-- Modelled from the spec (§4.2 `eval_at`, recursion of §4.2 `operator[]`):
descend one dimension per coordinate, evaluate the leaf, propagate writes
back out.  Returns the callable's value and the post-call expression
state. -/
def Expr.evalAtAux : List Nat → Expr → Obj × Expr
  | [], E => E.evalLeaf
  | i :: c, E =>
    let s := Expr.evalAtAux c (E.sub i)
    (s.1, E.wb i s.2)

/-- Modelled from the spec (§4.2 `eval()`): iterate the outermost dimension,
recurse; at rank 0 evaluate once, unconditionally.  The rank fuels the
recursion exactly as the compile-time rank does in the source. -/
def Expr.evalAux : Nat → Expr → Expr
  | 0, E => (E.evalLeaf).2
  | r + 1, E =>
    (List.range E.size).foldl (fun acc i => acc.wb i (Expr.evalAux r (acc.sub i))) E

/-- Full evaluation. -/
def Expr.eval (E : Expr) : Expr := Expr.evalAux E.rank E

/-- The dimension extents of the expression, by descent along index 0. -/
def Expr.dimsAux : Nat → Expr → List Nat
  | 0, _ => []
  | r + 1, E => E.size :: Expr.dimsAux r (E.sub 0)

/-- The expression's shape. -/
def Expr.dims (E : Expr) : List Nat := Expr.dimsAux E.rank E

/-- In-bounds coordinate tuples. -/
def inBounds : List Nat → List Nat → Bool
  | [], [] => true
  | i :: c, n :: d => decide (i < n) && inBounds c d
  | _, _ => false

/-- Modelled from the spec (§4.2 `eval_at`): fails with a range error when
the coordinate count does not equal the rank or an index is out of bounds
for its dimension. -/
def Expr.evalAt (E : Expr) (c : List Nat) : Option (Obj × Expr) :=
  if inBounds c E.dims then some (Expr.evalAtAux c E) else none

/-- The indices visited along the innermost dimension by stride-`N`
evaluation: `0, N, 2N, …`. -/
def stridedIdx (S N : Nat) : List Nat := (List.range (S / N)).map (· * N)

/-- Strided descent: all outer dimensions fully, the innermost stepping by
`N` (§4.2 `eval<N>`). -/
def Expr.evalNAux : Nat → Nat → Expr → Expr
  | 0, _, E => (E.evalLeaf).2
  | 1, N, E =>
    (stridedIdx E.size N).foldl (fun acc i => acc.wb i (Expr.evalAux 0 (acc.sub i))) E
  | r + 2, N, E =>
    (List.range E.size).foldl (fun acc i => acc.wb i (Expr.evalNAux (r + 1) N (acc.sub i))) E

/-- The innermost-dimension extent. -/
def Expr.innermost (E : Expr) : Nat := E.dims.getLastD 1

/-- Modelled from the spec (§4.2 `eval<N>`): the innermost extent must be
evenly divisible by `N`, otherwise the call fails with a range/shape error
and touches nothing. -/
def Expr.evalN (N : Nat) (E : Expr) : Option Expr :=
  if E.innermost % N = 0 then some (Expr.evalNAux E.rank N E) else none

/-- Modelled from the spec (§4.2 `operator[]`): indexing a rank-≥2
expression returns the lazy sub-expression; indexing into the last dimension
evaluates immediately and yields the callable's result together with its
side effects. -/
def Expr.indexOp (E : Expr) (i : Nat) : Expr ⊕ (Obj × Expr) :=
  if 1 < E.rank then .inl (E.sub i)
  else
    let s := (E.sub i).evalLeaf
    .inr (s.1, E.wb i s.2)

/-- Shape/parameter-rank pairs used by construction-time validation. -/
def Handle.sh (h : Handle) : List Nat × Nat := (h.val.shape, h.pr)

/-- Whether a (shape, parameter-rank) pair covers the dimension with `rrem`
dimensions remaining (the shape-level image of `Handle.consume`). -/
def activeDim (rrem : Nat) (p : List Nat × Nat) : Bool :=
  decide (rrem ≤ p.1.length) && decide (p.2 < p.1.length)

/-- Peel one dimension off a pair when it is covered. -/
def stepDim (rrem : Nat) (p : List Nat × Nat) : List Nat × Nat :=
  if activeDim rrem p then (p.1.tail, p.2) else p

/-- The extent a pair offers at the current dimension. -/
def extOf (p : List Nat × Nat) : Nat := p.1.headD 1

/-- The expression's extent at the current dimension: the maximum among the
covering handles (§3 shape). -/
def dimMax (rrem : Nat) (ps : List (List Nat × Nat)) : Nat :=
  ps.foldr (fun p m => if activeDim rrem p then max (extOf p) m else m) 0

/-- Modelled from the spec (§3 invariant, §4.2 step 4): dimension-by-
dimension broadcast validation — every covering handle's extent must equal
the dimension's extent or be 1. -/
def checkDims : Nat → List (List Nat × Nat) → Bool
  | 0, _ => true
  | r + 1, ps =>
    ps.all (fun p => !(activeDim (r + 1) p) ||
      (extOf p == dimMax (r + 1) ps || extOf p == 1)) &&
    checkDims r (ps.map (stepDim (r + 1)))

/-- Modelled from the spec (§4.2 construction): normalize the arguments into
handles, infer shape, validate broadcast-compatibility; any incompatible
extent is a construction-time failure. -/
def mkExpr (f : List Obj → Obj × List Obj) (hs : List Handle) : Option Expr :=
  let E : Expr := ⟨f, hs⟩
  if hs.all (fun h => h.val.wf) && checkDims E.rank (hs.map Handle.sh)
  then some E else none

/-! ### Shape-level characterization of the engine -/

theorem foldrMax_ge {l : List Nat} {x : Nat} (hx : x ∈ l) :
    x ≤ l.foldr max 0 := by
  induction l with
  | nil => cases hx
  | cons a l ih =>
    rcases hx with _ | hx
    · simp [List.foldr]
    · exact le_trans (ih ‹x ∈ l›) (by simp [List.foldr])

theorem foldrMax_le {l : List Nat} {b : Nat} (h : ∀ x ∈ l, x ≤ b) :
    l.foldr max 0 ≤ b := by
  induction l with
  | nil => simp
  | cons a l ih => simp_all

theorem foldrMax_attained {l : List Nat} :
    l.foldr max 0 = 0 ∨ l.foldr max 0 ∈ l := by
  induction l with
  | nil => simp
  | cons a l ih =>
    simp only [List.foldr]
    rcases Nat.le_total a (l.foldr max 0) with h | h
    · rcases ih with h0 | hm
      · left; rw [max_eq_right h, h0]
      · right; rw [max_eq_right h]; exact List.mem_cons_of_mem _ hm
    · right; rw [max_eq_left h]; exact List.mem_cons_self _ _

theorem Obj.hasShape_shape_eq {o : Obj} {s : List Nat} (h : o.hasShape s = true) :
    o.shape = s := by
  induction o using Obj.inductionOn generalizing s with
  | hint v => cases s <;> simp_all [Obj.hasShape, Obj.shape]
  | harr l ih =>
    cases l with
    | nil =>
      simp only [Obj.hasShape, beq_iff_eq] at h
      simp [Obj.shape, h]
    | cons x xs =>
      cases s with
      | nil => simp [Obj.hasShape] at h
      | cons n s =>
        simp only [Obj.hasShape, Bool.and_eq_true, beq_iff_eq, List.all_eq_true] at h
        have hx := ih x (by simp) (h.2 x (by simp))
        simp [Obj.shape, hx, h.1]

theorem Obj.wf_hasShape {o : Obj} (h : o.wf = true) : o.hasShape o.shape = true := h

theorem Obj.hasShape_wf {o : Obj} {s : List Nat} (h : o.hasShape s = true) :
    o.wf = true := by
  have := Obj.hasShape_shape_eq h
  unfold Obj.wf
  rw [this]
  exact h

theorem Obj.wf_rank_shape {o : Obj} (h : o.wf = true) :
    o.rank = o.shape.length := Obj.hasShape_rank h

/-- The handle skeleton: everything the engine's control flow depends on. -/
def Handle.skel (h : Handle) : (List Nat × Nat) × Bool := ((h.val.shape, h.pr), h.out)

/-- The expression skeleton. -/
def Expr.skel (E : Expr) : List ((List Nat × Nat) × Bool) := E.hs.map Handle.skel

/-- All handle values uniformly shaped. -/
def Expr.hwf (E : Expr) : Prop := ∀ h ∈ E.hs, h.val.wf = true

theorem Handle.eff_of_wf {h : Handle} (hw : h.val.wf = true) :
    h.eff = h.val.shape.length - h.pr := by
  unfold Handle.eff
  rw [Obj.wf_rank_shape hw]

theorem Handle.consume_eq_active {h : Handle} (hw : h.val.wf = true) (r : Nat) :
    h.consume r = activeDim r h.sh := by
  unfold Handle.consume activeDim Handle.sh
  rw [Obj.wf_rank_shape hw]

theorem Handle.size_eq_extOf {h : Handle} (hw : h.val.wf = true)
    (hr : 1 ≤ h.val.rank) : h.val.size = extOf h.sh := by
  have hs := Obj.wf_hasShape hw
  have hlen : h.val.shape.length = h.val.rank := (Obj.wf_rank_shape hw).symm
  rcases hsh : h.val.shape with _ | ⟨n, s⟩
  · rw [hsh] at hlen; simp at hlen; omega
  · rw [hsh] at hs
    unfold Handle.sh extOf
    rw [hsh]
    simpa using Obj.hasShape_size hs

/-- Effective rank of a (shape, parameter-rank) pair. -/
def effOf (p : List Nat × Nat) : Nat := p.1.length - p.2

/-- Expression rank computed from shapes alone. -/
def ranksOf (ps : List (List Nat × Nat)) : Nat := (ps.map effOf).foldr max 0

theorem foldr_congr_mem {α β : Type _} {l : List α} {f g : α → β → β} {b : β}
    (h : ∀ a ∈ l, ∀ y, f a y = g a y) : l.foldr f b = l.foldr g b := by
  induction l with
  | nil => rfl
  | cons a l ih =>
    simp only [List.foldr]
    rw [ih (fun x hx => h x (List.mem_cons_of_mem _ hx)), h a (by simp)]

theorem Expr.rank_eq_ranksOf {E : Expr} (hw : E.hwf) :
    E.rank = ranksOf (E.hs.map Handle.sh) := by
  unfold Expr.rank ranksOf
  rw [List.map_map, List.foldr_map]
  exact foldr_congr_mem (fun h hm y => by
    simp [Handle.eff_of_wf (hw h hm), effOf, Handle.sh])

theorem Expr.size_eq_dimMax {E : Expr} (hw : E.hwf) (hr : E.rank ≠ 0) :
    E.size = dimMax E.rank (E.hs.map Handle.sh) := by
  unfold Expr.size dimMax
  rw [if_neg hr, List.foldr_map]
  refine foldr_congr_mem (fun h hm m => ?_)
  rw [Handle.consume_eq_active (hw h hm)]
  by_cases hc : activeDim E.rank h.sh = true
  · have hrank : 1 ≤ h.val.rank := by
      simp only [activeDim, Handle.sh, Bool.and_eq_true, decide_eq_true_eq] at hc
      rw [Obj.wf_rank_shape (hw h hm)]
      omega
    rw [hc, Handle.size_eq_extOf (hw h hm) hrank]
  · simp only [Bool.not_eq_true] at hc
    rw [hc]
    simp

theorem Handle.index_pr {h : Handle} {R i : Nat} : (h.index R i).pr = h.pr := by
  unfold Handle.index
  split <;> rfl

theorem Handle.index_out {h : Handle} {R i : Nat} : (h.index R i).out = h.out := by
  unfold Handle.index
  split <;> rfl

theorem Handle.shape_cons_of_consume {h : Handle} {R : Nat}
    (hw : h.val.wf = true) (hc : h.consume R = true) :
    ∃ n s, h.val.shape = n :: s ∧ h.val.size = n := by
  have hrk : 0 < h.val.rank := by
    unfold Handle.consume at hc
    simp only [Bool.and_eq_true, decide_eq_true_eq] at hc
    omega
  rw [Obj.wf_rank_shape hw] at hrk
  rcases hsh : h.val.shape with _ | ⟨n, s⟩
  · rw [hsh] at hrk; simp at hrk
  · refine ⟨n, s, rfl, ?_⟩
    have := Obj.wf_hasShape hw
    rw [hsh] at this
    exact Obj.hasShape_size this

theorem Handle.index_skel {h : Handle} {R i : Nat} (hw : h.val.wf = true)
    (hin : h.consume R = true → h.cidx i < h.val.size) :
    (h.index R i).skel = (stepDim R h.sh, h.out) ∧ (h.index R i).val.wf = true := by
  by_cases hc : h.consume R = true
  · obtain ⟨n, s, hsh, hsz⟩ := Handle.shape_cons_of_consume hw hc
    have hshape := Obj.wf_hasShape hw
    rw [hsh] at hshape
    have hbound : h.cidx i < n := by rw [← hsz]; exact hin hc
    have hget : (h.val.get (h.cidx i)).hasShape s = true := Obj.hasShape_get hshape hbound
    have hgetsh : (h.val.get (h.cidx i)).shape = s := Obj.hasShape_shape_eq hget
    have hact : activeDim R h.sh = true := by rw [← Handle.consume_eq_active hw]; exact hc
    constructor
    · unfold Handle.index Handle.skel stepDim
      rw [if_pos hc, if_pos hact]
      simp [Handle.sh, hgetsh, hsh]
    · unfold Handle.index
      rw [if_pos hc]
      exact Obj.hasShape_wf hget
  · have hact : activeDim R h.sh = false := by
      rw [← Handle.consume_eq_active hw]
      exact Bool.not_eq_true _ ▸ (by simpa using hc)
    constructor
    · unfold Handle.index Handle.skel stepDim
      rw [if_neg hc, hact]
      simp [Handle.sh]
    · unfold Handle.index
      rw [if_neg hc]
      exact hw

theorem Handle.sh_eq_skel (h : Handle) : h.sh = h.skel.1 := rfl

theorem Expr.map_sh_eq_skel (E : Expr) :
    E.hs.map Handle.sh = E.skel.map (·.1) := by
  unfold Expr.skel
  rw [List.map_map]
  rfl

/-- Construction-validated, uniformly shaped expression state. -/
structure Expr.WFC (E : Expr) : Prop where
  hw : E.hwf
  valid : checkDims E.rank (E.hs.map Handle.sh) = true

theorem Expr.compat_of_valid {E : Expr} (W : E.WFC) (hr : E.rank ≠ 0)
    {h : Handle} (hm : h ∈ E.hs) (hc : h.consume E.rank = true) :
    h.val.size = E.size ∨ h.val.size = 1 := by
  have hval := W.valid
  rcases hrk : E.rank with _ | r
  · exact absurd hrk hr
  · rw [hrk] at hval
    unfold checkDims at hval
    simp only [Bool.and_eq_true, List.all_eq_true] at hval
    have hmem : h.sh ∈ E.hs.map Handle.sh := List.mem_map_of_mem _ hm
    have := hval.1 _ hmem
    have hact : activeDim (r + 1) h.sh = true := by
      rw [← Handle.consume_eq_active (W.hw h hm), ← hrk]
      exact hc
    simp only [hact, Bool.not_true, Bool.false_or, Bool.or_eq_true, beq_iff_eq] at this
    have hrank1 : 1 ≤ h.val.rank := by
      unfold Handle.consume at hc
      simp only [Bool.and_eq_true, decide_eq_true_eq] at hc
      omega
    have hsz := Handle.size_eq_extOf (W.hw h hm) hrank1
    have hdim : E.size = dimMax E.rank (E.hs.map Handle.sh) := Expr.size_eq_dimMax W.hw hr
    rcases this with h1 | h1
    · left; rw [hsz, h1, hdim, hrk]
    · right; rw [hsz, h1]

theorem Expr.cidx_lt_of_consume {E : Expr} (W : E.WFC) (hr : E.rank ≠ 0)
    {h : Handle} (hm : h ∈ E.hs) {i : Nat} (hi : i < E.size)
    (hc : h.consume E.rank = true) : h.cidx i < h.val.size := by
  rcases Expr.compat_of_valid W hr hm hc with hsz | hsz
  · unfold Handle.cidx
    split
    · omega
    · omega
  · unfold Handle.cidx
    rw [hsz]
    simp

theorem Expr.sub_skel {E : Expr} (W : E.WFC) (hr : E.rank ≠ 0) {i : Nat}
    (hi : i < E.size) :
    (E.sub i).skel = E.skel.map (fun q => (stepDim E.rank q.1, q.2)) ∧ (E.sub i).hwf := by
  constructor
  · unfold Expr.sub Expr.skel
    simp only [List.map_map]
    apply List.map_congr_left
    intro h hm
    have := (Handle.index_skel (R := E.rank) (i := i) (W.hw h hm)
      (fun hc => Expr.cidx_lt_of_consume W hr hm hi hc)).1
    simp only [Function.comp_apply, this]
    rfl
  · intro h hm
    unfold Expr.sub at hm
    simp only [List.mem_map] at hm
    obtain ⟨g, hg, rfl⟩ := hm
    exact (Handle.index_skel (W.hw g hg)
      (fun hc => Expr.cidx_lt_of_consume W hr hg hi hc)).2

theorem ranksOf_ge {ps : List (List Nat × Nat)} {p : List Nat × Nat}
    (h : p ∈ ps) : effOf p ≤ ranksOf ps :=
  foldrMax_ge (List.mem_map_of_mem _ h)

theorem ranksOf_le {ps : List (List Nat × Nat)} {b : Nat}
    (h : ∀ p ∈ ps, effOf p ≤ b) : ranksOf ps ≤ b := by
  apply foldrMax_le
  intro x hx
  simp only [List.mem_map] at hx
  obtain ⟨p, hp, rfl⟩ := hx
  exact h p hp

theorem ranksOf_attained {ps : List (List Nat × Nat)} :
    ranksOf ps = 0 ∨ ∃ p ∈ ps, effOf p = ranksOf ps := by
  rcases foldrMax_attained (l := ps.map effOf) with h0 | hm
  · exact Or.inl h0
  · right
    simp only [List.mem_map] at hm
    obtain ⟨p, hp, hpe⟩ := hm
    exact ⟨p, hp, hpe⟩

theorem ranksOf_step {ps : List (List Nat × Nat)} {R : Nat}
    (hR : ranksOf ps = R) (h1 : 1 ≤ R) :
    ranksOf (ps.map (stepDim R)) = R - 1 := by
  apply Nat.le_antisymm
  · apply ranksOf_le
    intro q hq
    simp only [List.mem_map] at hq
    obtain ⟨p, hp, rfl⟩ := hq
    have hle : effOf p ≤ R := hR ▸ ranksOf_ge hp
    unfold stepDim
    by_cases ha : activeDim R p = true
    · rw [if_pos ha]
      simp only [activeDim, Bool.and_eq_true, decide_eq_true_eq] at ha
      unfold effOf at hle ⊢
      simp only [List.length_tail]
      omega
    · rw [if_neg ha]
      simp only [activeDim, Bool.and_eq_true, decide_eq_true_eq, not_and_or, not_le,
        Nat.not_lt] at ha
      unfold effOf at hle ⊢
      omega
  · rcases @ranksOf_attained ps with h0 | ⟨p, hp, hpe⟩
    · omega
    · rw [hR] at hpe
      have hact : activeDim R p = true := by
        simp only [activeDim, Bool.and_eq_true, decide_eq_true_eq]
        unfold effOf at hpe
        omega
      have : effOf (stepDim R p) = R - 1 := by
        unfold stepDim
        rw [if_pos hact]
        simp only [activeDim, Bool.and_eq_true, decide_eq_true_eq] at hact
        unfold effOf at hpe ⊢
        simp only [List.length_tail]
        omega
      exact this ▸ ranksOf_ge (List.mem_map_of_mem _ hp)

theorem Expr.sub_sh {E : Expr} (W : E.WFC) (hr : E.rank ≠ 0) {i : Nat}
    (hi : i < E.size) :
    (E.sub i).hs.map Handle.sh = (E.hs.map Handle.sh).map (stepDim E.rank) := by
  have := (Expr.sub_skel W hr hi).1
  rw [Expr.map_sh_eq_skel, Expr.map_sh_eq_skel, this, List.map_map, List.map_map]
  rfl

theorem Expr.rank_sub {E : Expr} (W : E.WFC) (hr : E.rank ≠ 0) {i : Nat}
    (hi : i < E.size) : (E.sub i).rank = E.rank - 1 := by
  rw [Expr.rank_eq_ranksOf (Expr.sub_skel W hr hi).2, Expr.sub_sh W hr hi]
  exact ranksOf_step (Expr.rank_eq_ranksOf W.hw).symm (by omega)

theorem Expr.sub_wfc {E : Expr} (W : E.WFC) (hr : E.rank ≠ 0) {i : Nat}
    (hi : i < E.size) : (E.sub i).WFC := by
  refine ⟨(Expr.sub_skel W hr hi).2, ?_⟩
  rw [Expr.sub_sh W hr hi, Expr.rank_sub W hr hi]
  have hval := W.valid
  rcases hrk : E.rank with _ | r
  · exact absurd hrk hr
  · rw [hrk] at hval
    unfold checkDims at hval
    simp only [Bool.and_eq_true] at hval
    simpa [hrk] using hval.2

theorem Handle.skel_parts {h g : Handle} (hsk : h.skel = g.skel) :
    h.val.shape = g.val.shape ∧ h.pr = g.pr ∧ h.out = g.out := by
  unfold Handle.skel at hsk
  simp only [Prod.mk.injEq] at hsk
  exact ⟨hsk.1.1, hsk.1.2, hsk.2⟩

theorem Handle.consume_skel_eq {h g : Handle} (hw : h.val.wf = true)
    (hg : g.val.wf = true) (hsk : h.skel = g.skel) (r : Nat) :
    h.consume r = g.consume r := by
  obtain ⟨hsh, hpr, -⟩ := Handle.skel_parts hsk
  unfold Handle.consume
  rw [Obj.wf_rank_shape hw, Obj.wf_rank_shape hg, hsh, hpr]

theorem Obj.rank_zero_int {o : Obj} (h : o.rank = 0) : ∃ v, o = .int v := by
  cases o with
  | int v => exact ⟨v, rfl⟩
  | arr l => cases l <;> simp [Obj.rank] at h

theorem Handle.size_skel_eq {h g : Handle} (hw : h.val.wf = true)
    (hg : g.val.wf = true) (hsk : h.skel = g.skel) :
    h.val.size = g.val.size := by
  obtain ⟨hsh, -, -⟩ := Handle.skel_parts hsk
  have h1 := Obj.wf_hasShape hw
  have h2 := Obj.wf_hasShape hg
  rcases hshape : h.val.shape with _ | ⟨n, s⟩
  · rw [hshape] at h1
    rw [hsh] at hshape
    rw [hshape] at h2
    obtain ⟨v1, hv1⟩ := Obj.rank_zero_int (o := h.val)
      (by rw [Obj.wf_rank_shape hw, hsh, hshape]; rfl)
    obtain ⟨v2, hv2⟩ := Obj.rank_zero_int (o := g.val)
      (by rw [Obj.wf_rank_shape hg, hshape]; rfl)
    rw [hv1, hv2]
    rfl
  · rw [hshape] at h1
    rw [hsh] at hshape
    rw [hshape] at h2
    rw [Obj.hasShape_size h1, Obj.hasShape_size h2]

theorem Expr.rank_of_skel {E F : Expr} (hE : E.hwf) (hF : F.hwf)
    (h : F.skel = E.skel) : F.rank = E.rank := by
  rw [Expr.rank_eq_ranksOf hE, Expr.rank_eq_ranksOf hF,
    Expr.map_sh_eq_skel, Expr.map_sh_eq_skel, h]

theorem Expr.size_of_skel {E F : Expr} (hE : E.hwf) (hF : F.hwf)
    (h : F.skel = E.skel) : F.size = E.size := by
  have hrk := Expr.rank_of_skel hE hF h
  by_cases hr : E.rank = 0
  · unfold Expr.size
    rw [hrk, hr]
    simp
  · rw [Expr.size_eq_dimMax hE hr, Expr.size_eq_dimMax hF (hrk ▸ hr),
      Expr.map_sh_eq_skel, Expr.map_sh_eq_skel, h, hrk]

theorem Expr.wfc_of_skel {E F : Expr} (W : E.WFC) (hF : F.hwf)
    (h : F.skel = E.skel) : F.WFC := by
  refine ⟨hF, ?_⟩
  rw [Expr.rank_of_skel W.hw hF h, Expr.map_sh_eq_skel, h, ← Expr.map_sh_eq_skel]
  exact W.valid

theorem Handle.unindex_skel {h s : Handle} {R i : Nat}
    (hw : h.val.wf = true) (hsw : s.val.wf = true)
    (hsk : s.skel = (h.index R i).skel)
    (hin : h.consume R = true → h.cidx i < h.val.size) :
    (h.unindex R i s).skel = h.skel ∧ (h.unindex R i s).val.wf = true := by
  by_cases hc : h.consume R = true
  · obtain ⟨n, s', hsh, hsz⟩ := Handle.shape_cons_of_consume hw hc
    have hshape := Obj.wf_hasShape hw
    rw [hsh] at hshape
    have hbound : h.cidx i < n := by rw [← hsz]; exact hin hc
    have hidx : (h.index R i).val = h.val.get (h.cidx i) := by
      unfold Handle.index
      rw [if_pos hc]
    have hgsh : (h.index R i).val.shape = s' := by
      rw [hidx]
      exact Obj.hasShape_shape_eq (Obj.hasShape_get hshape hbound)
    obtain ⟨hssh, -, -⟩ := Handle.skel_parts hsk
    have hposs : s.val.hasShape s' = true := by
      have := Obj.wf_hasShape hsw
      rw [hssh, hgsh] at this
      exact this
    have hset : (h.val.setAt (h.cidx i) s.val).hasShape (n :: s') = true :=
      Obj.hasShape_setAt hshape hposs
    constructor
    · unfold Handle.unindex
      rw [if_pos hc]
      simp [Handle.skel, Obj.hasShape_shape_eq hset, hsh]
    · unfold Handle.unindex
      rw [if_pos hc]
      exact Obj.hasShape_wf hset
  · have hidx : h.index R i = h := by
      unfold Handle.index
      rw [if_neg hc]
    rw [hidx] at hsk
    constructor
    · unfold Handle.unindex
      rw [if_neg hc, hsk]
    · unfold Handle.unindex
      rw [if_neg hc]
      exact hsw

theorem Handle.eta {h : Handle} : Handle.mk h.val h.pr h.out = h := rfl

theorem Handle.unindex_index_self {h s : Handle} {R i : Nat}
    (hw : h.val.wf = true) (hsw : s.val.wf = true)
    (hsk : s.skel = (h.index R i).skel)
    (hin : h.consume R = true → h.cidx i < h.val.size) :
    (h.unindex R i s).index R i = s := by
  have husk := Handle.unindex_skel hw hsw hsk hin
  by_cases hc : h.consume R = true
  · obtain ⟨n, s', hsh, hsz⟩ := Handle.shape_cons_of_consume hw hc
    have hshape := Obj.wf_hasShape hw
    rw [hsh] at hshape
    have hbound : h.cidx i < n := by rw [← hsz]; exact hin hc
    have huc : (h.unindex R i s).consume R = true := by
      rw [Handle.consume_skel_eq husk.2 hw husk.1]
      exact hc
    have hval : (h.unindex R i s).val = h.val.setAt (h.cidx i) s.val := by
      unfold Handle.unindex
      rw [if_pos hc]
    have hcidx : (h.unindex R i s).cidx i = h.cidx i := by
      unfold Handle.cidx
      rw [hval, Obj.size_setAt]
    have hprs : s.pr = h.pr := by
      have := (Handle.skel_parts hsk).2.1
      rw [this, Handle.index_pr]
    have houts : s.out = h.out := by
      have := (Handle.skel_parts hsk).2.2
      rw [this, Handle.index_out]
    have hpr2 : (h.unindex R i s).pr = h.pr := by
      unfold Handle.unindex
      rw [if_pos hc]
    have hout2 : (h.unindex R i s).out = h.out := by
      unfold Handle.unindex
      rw [if_pos hc]
    unfold Handle.index
    rw [if_pos huc, hcidx, hval, Obj.get_setAt_self hshape hbound, hpr2, hout2,
      ← hprs, ← houts]
  · have hidx : h.index R i = h := by
      unfold Handle.index
      rw [if_neg hc]
    rw [hidx] at hsk
    have hun : h.unindex R i s = s := by
      unfold Handle.unindex
      rw [if_neg hc]
    have hsc : s.consume R = false := by
      rw [Handle.consume_skel_eq hsw hw hsk]
      simpa using hc
    rw [hun]
    unfold Handle.index
    rw [hsc]
    simp

theorem Handle.cidx_congr {h g : Handle} (hsz : h.val.size = g.val.size) (i : Nat) :
    h.cidx i = g.cidx i := by
  unfold Handle.cidx
  rw [hsz]

theorem Handle.unindex_unindex {h s t : Handle} {R i : Nat}
    (hw : h.val.wf = true) (hsw : s.val.wf = true)
    (hsk : s.skel = (h.index R i).skel)
    (hin : h.consume R = true → h.cidx i < h.val.size) :
    (h.unindex R i s).unindex R i t = h.unindex R i t := by
  have husk := Handle.unindex_skel hw hsw hsk hin
  by_cases hc : h.consume R = true
  · have huc : (h.unindex R i s).consume R = true := by
      rw [Handle.consume_skel_eq husk.2 hw husk.1]
      exact hc
    have hu : h.unindex R i s = { h with val := h.val.setAt (h.cidx i) s.val } := by
      unfold Handle.unindex
      rw [if_pos hc]
    rw [hu] at huc
    conv =>
      lhs
      rw [hu]
    unfold Handle.unindex
    rw [if_pos huc, if_pos hc]
    have hcx : Handle.cidx { h with val := h.val.setAt (h.cidx i) s.val } i = h.cidx i :=
      Handle.cidx_congr (by simp [Obj.size_setAt]) i
    simp only [hcx, Obj.setAt_setAt]
  · have hidx : h.index R i = h := by
      unfold Handle.index
      rw [if_neg hc]
    rw [hidx] at hsk
    have hu : h.unindex R i s = s := by
      unfold Handle.unindex
      rw [if_neg hc]
    have hsc : ¬s.consume R = true := by
      rw [Handle.consume_skel_eq hsw hw hsk]
      exact hc
    rw [hu]
    unfold Handle.unindex
    rw [if_neg hsc, if_neg hc]

/-! ### List-level write-back lemmas -/

theorem wbList_skel : ∀ (hs ss : List Handle) (R i : Nat),
    (∀ h ∈ hs, h.val.wf = true) →
    (∀ h ∈ ss, h.val.wf = true) →
    ss.map Handle.skel = hs.map (fun h => (h.index R i).skel) →
    (∀ h ∈ hs, h.consume R = true → h.cidx i < h.val.size) →
    ((hs.zip ss).map (fun p => p.1.unindex R i p.2)).map Handle.skel = hs.map Handle.skel ∧
    ∀ g ∈ (hs.zip ss).map (fun p => p.1.unindex R i p.2), g.val.wf = true
  | [], ss, R, i => by
    intro _ _ _ _
    simp
  | h :: hs, [], R, i => by
    intro _ _ hmap _
    simp at hmap
  | h :: hs, s :: ss, R, i => by
    intro hwhs hwss hmap hin
    simp only [List.map_cons, List.cons.injEq] at hmap
    have hd := Handle.unindex_skel (hwhs h (by simp)) (hwss s (by simp))
      (by rw [hmap.1]) (hin h (by simp))
    have tl := wbList_skel hs ss R i (fun x hx => hwhs x (by simp [hx]))
      (fun x hx => hwss x (by simp [hx])) hmap.2 (fun x hx => hin x (by simp [hx]))
    constructor
    · simp only [List.zip_cons_cons, List.map_cons, hd.1, tl.1]
    · intro g hg
      simp only [List.zip_cons_cons, List.map_cons, List.mem_cons] at hg
      rcases hg with rfl | hg
      · exact hd.2
      · exact tl.2 g hg

theorem wbList_index : ∀ (hs ss : List Handle) (R i : Nat),
    (∀ h ∈ hs, h.val.wf = true) →
    (∀ h ∈ ss, h.val.wf = true) →
    ss.map Handle.skel = hs.map (fun h => (h.index R i).skel) →
    (∀ h ∈ hs, h.consume R = true → h.cidx i < h.val.size) →
    ((hs.zip ss).map (fun p => p.1.unindex R i p.2)).map (fun h => h.index R i) = ss
  | [], ss, R, i => by
    intro _ _ hmap _
    simp only [List.map_eq_nil_iff, List.map] at hmap
    simp [hmap]
  | h :: hs, [], R, i => by
    intro _ _ hmap _
    simp at hmap
  | h :: hs, s :: ss, R, i => by
    intro hwhs hwss hmap hin
    simp only [List.map_cons, List.cons.injEq] at hmap
    have hd := Handle.unindex_index_self (hwhs h (by simp)) (hwss s (by simp))
      (by rw [hmap.1]) (hin h (by simp))
    have tl := wbList_index hs ss R i (fun x hx => hwhs x (by simp [hx]))
      (fun x hx => hwss x (by simp [hx])) hmap.2 (fun x hx => hin x (by simp [hx]))
    simp only [List.zip_cons_cons, List.map_cons, hd, tl]

theorem wbList_wb : ∀ (hs ss ts : List Handle) (R i : Nat),
    (∀ h ∈ hs, h.val.wf = true) →
    (∀ h ∈ ss, h.val.wf = true) →
    ss.map Handle.skel = hs.map (fun h => (h.index R i).skel) →
    (∀ h ∈ hs, h.consume R = true → h.cidx i < h.val.size) →
    ((((hs.zip ss).map (fun p => p.1.unindex R i p.2)).zip ts).map
        (fun p => p.1.unindex R i p.2)) =
      (hs.zip ts).map (fun p => p.1.unindex R i p.2)
  | [], ss, ts, R, i => by
    intro _ _ _ _
    simp
  | h :: hs, [], ts, R, i => by
    intro _ _ hmap _
    simp at hmap
  | h :: hs, s :: ss, [], R, i => by
    intro _ _ _ _
    simp
  | h :: hs, s :: ss, t :: ts, R, i => by
    intro hwhs hwss hmap hin
    simp only [List.map_cons, List.cons.injEq] at hmap
    have hd := Handle.unindex_unindex (t := t) (hwhs h (by simp)) (hwss s (by simp))
      (by rw [hmap.1]) (hin h (by simp))
    have tl := wbList_wb hs ss ts R i (fun x hx => hwhs x (by simp [hx]))
      (fun x hx => hwss x (by simp [hx])) hmap.2 (fun x hx => hin x (by simp [hx]))
    simp only [List.zip_cons_cons, List.map_cons, hd, tl]

/-! ### Leaf shapes, callable contract, well-formedness bundle -/

/-- The residual shape each handle presents to the callable at a leaf: its
own shape with the dimensions the engine descends stripped off. -/
def Expr.leafShapes (E : Expr) : List (List Nat) :=
  E.hs.map (fun h => h.val.shape.drop h.eff)

theorem Expr.eff_le_rank {E : Expr} {h : Handle} (hm : h ∈ E.hs) :
    h.eff ≤ E.rank := by
  unfold Expr.rank
  have : E.hs.foldr (fun h m => max h.eff m) 0 = (E.hs.map Handle.eff).foldr max 0 := by
    rw [List.foldr_map]
  rw [this]
  exact foldrMax_ge (List.mem_map_of_mem _ hm)

theorem Expr.leafShapes_rank0 {E : Expr} (hr : E.rank = 0) :
    E.leafShapes = E.hs.map (fun h => h.val.shape) := by
  unfold Expr.leafShapes
  apply List.map_congr_left
  intro h hm
  have : h.eff = 0 := by
    have := Expr.eff_le_rank hm
    omega
  rw [this]
  rfl

theorem Expr.leafShapes_of_skel {E F : Expr} (hE : E.hwf) (hF : F.hwf)
    (h : F.skel = E.skel) : F.leafShapes = E.leafShapes := by
  unfold Expr.leafShapes
  have hmap : F.hs.map (fun h => (h.val.shape.drop h.eff)) =
      F.skel.map (fun q => q.1.1.drop (q.1.1.length - q.1.2)) := by
    rw [Expr.skel, List.map_map]
    apply List.map_congr_left
    intro g hg
    simp only [Function.comp_apply, Handle.skel]
    rw [Handle.eff_of_wf (hF g hg)]
  have hmapE : E.hs.map (fun h => (h.val.shape.drop h.eff)) =
      E.skel.map (fun q => q.1.1.drop (q.1.1.length - q.1.2)) := by
    rw [Expr.skel, List.map_map]
    apply List.map_congr_left
    intro g hg
    simp only [Function.comp_apply, Handle.skel]
    rw [Handle.eff_of_wf (hE g hg)]
  rw [hmap, hmapE, h]

theorem Expr.leafShapes_sub {E : Expr} (W : E.WFC) (hr : E.rank ≠ 0) {i : Nat}
    (hi : i < E.size) : (E.sub i).leafShapes = E.leafShapes := by
  unfold Expr.leafShapes Expr.sub
  simp only [List.map_map]
  apply List.map_congr_left
  intro h hm
  simp only [Function.comp_apply]
  by_cases hc : h.consume E.rank = true
  · obtain ⟨n, s', hsh, hsz⟩ := Handle.shape_cons_of_consume (W.hw h hm) hc
    have hshape := Obj.wf_hasShape (W.hw h hm)
    rw [hsh] at hshape
    have hbound : h.cidx i < n := by
      rw [← hsz]
      exact Expr.cidx_lt_of_consume W hr hm hi hc
    have hidx : (h.index E.rank i).val = h.val.get (h.cidx i) := by
      unfold Handle.index
      rw [if_pos hc]
    have hgsh : (h.index E.rank i).val.shape = s' := by
      rw [hidx]
      exact Obj.hasShape_shape_eq (Obj.hasShape_get hshape hbound)
    have heff : h.eff = (h.val.shape.length - h.pr) := Handle.eff_of_wf (W.hw h hm)
    have hpr : h.pr < h.val.rank := by
      unfold Handle.consume at hc
      simp only [Bool.and_eq_true, decide_eq_true_eq] at hc
      exact hc.2
    rw [Obj.wf_rank_shape (W.hw h hm)] at hpr
    have heff2 : (h.index E.rank i).eff = h.eff - 1 := by
      unfold Handle.eff
      rw [hidx, Obj.hasShape_rank (Obj.hasShape_get hshape hbound), Handle.index_pr,
        Obj.wf_rank_shape (W.hw h hm), hsh]
      simp only [List.length_cons]
      omega
    have heffpos : 1 ≤ h.eff := by
      rw [heff, hsh] at *
      simp only [List.length_cons] at *
      omega
    obtain ⟨k, hk⟩ : ∃ k, h.eff = k + 1 := ⟨h.eff - 1, by omega⟩
    rw [hgsh, heff2, hsh, hk]
    simp [List.drop_succ_cons]
  · unfold Handle.index
    rw [if_neg hc]

/-- The callable contract used throughout: on well-formed inputs of the
expression's leaf shapes, the callable's post-call argument values keep
those shapes (a reference parameter cannot be rebound to a differently
shaped object in the source). -/
def fContract (f : List Obj → Obj × List Obj) (L : List (List Nat)) : Prop :=
  ∀ vs : List Obj, vs.map Obj.shape = L → (∀ v ∈ vs, v.wf = true) →
    ((f vs).2).map Obj.shape = L ∧ ∀ v ∈ (f vs).2, v.wf = true

/-- The full well-formedness bundle: construction-validated shapes, positive
extents, recorded leaf shapes, callable contract. -/
structure Expr.GOOD (E : Expr) (L : List (List Nat)) : Prop where
  wfc : E.WFC
  pos : ∀ d ∈ E.dims, 0 < d
  leaf : E.leafShapes = L
  contract : fContract E.f L

theorem Expr.sub_f (E : Expr) (i : Nat) : (E.sub i).f = E.f := rfl

theorem Expr.wb_f (E : Expr) (i : Nat) (S : Expr) : (E.wb i S).f = E.f := rfl

theorem Expr.evalLeaf_f (E : Expr) : (E.evalLeaf).2.f = E.f := rfl

theorem Expr.ext_fh {E F : Expr} (hf : E.f = F.f) (hh : E.hs = F.hs) : E = F := by
  cases E
  cases F
  simp_all

theorem Expr.dimsAux_congr : ∀ (r : Nat) (F G : Expr), F.WFC → G.WFC →
    F.skel = G.skel → F.rank = r → (∀ d ∈ Expr.dimsAux r F, 0 < d) →
    Expr.dimsAux r F = Expr.dimsAux r G
  | 0, F, G => by
    intro _ _ _ _ _
    rfl
  | r + 1, F, G => by
    intro WF WG hsk hrk hpos
    have hsz : F.size = G.size := Expr.size_of_skel WG.hw WF.hw hsk
    have hrkG : G.rank = r + 1 := by
      rw [← Expr.rank_of_skel WG.hw WF.hw hsk]
      exact hrk
    have hFpos : 0 < F.size := hpos F.size (by unfold Expr.dimsAux; simp)
    have hF0 : (F.sub 0).skel = (G.sub 0).skel := by
      rw [(Expr.sub_skel WF (by omega) hFpos).1,
        (Expr.sub_skel WG (by omega) (hsz ▸ hFpos)).1, hsk, hrk, hrkG]
    have hWF0 := Expr.sub_wfc WF (by omega) hFpos
    have hWG0 := Expr.sub_wfc WG (by omega) (hsz ▸ hFpos)
    have hrk0 : (F.sub 0).rank = r := by
      rw [Expr.rank_sub WF (by omega) hFpos]
      omega
    have hpos0 : ∀ d ∈ Expr.dimsAux r (F.sub 0), 0 < d := by
      intro d hd
      exact hpos d (by unfold Expr.dimsAux; simp [hd])
    unfold Expr.dimsAux
    rw [hsz, Expr.dimsAux_congr r (F.sub 0) (G.sub 0) hWF0 hWG0 hF0 hrk0 hpos0]

theorem Expr.dims_of_skel {E F : Expr} (WE : E.WFC) (WF : F.WFC)
    (hsk : F.skel = E.skel) (hpos : ∀ d ∈ E.dims, 0 < d) : F.dims = E.dims := by
  unfold Expr.dims
  have hrk : F.rank = E.rank := Expr.rank_of_skel WE.hw WF.hw hsk
  rw [hrk]
  exact (Expr.dimsAux_congr E.rank E F WE WF hsk.symm rfl hpos).symm

theorem Expr.dims_cons {E : Expr} {r : Nat} (hrk : E.rank = r + 1) :
    E.dims = E.size :: Expr.dimsAux r (E.sub 0) := by
  unfold Expr.dims
  rw [hrk]
  rfl

theorem Expr.dims_sub {E : Expr} (W : E.WFC) (hr : E.rank ≠ 0) {i : Nat}
    (hi : i < E.size) (hpos : ∀ d ∈ E.dims, 0 < d) :
    (E.sub i).dims = E.dims.tail := by
  have h0 : 0 < E.size := by omega
  obtain ⟨r, hrk⟩ : ∃ r, E.rank = r + 1 := ⟨E.rank - 1, by omega⟩
  have hcons := Expr.dims_cons (E := E) hrk
  have hpost : ∀ d ∈ Expr.dimsAux r (E.sub 0), 0 < d := by
    intro d hd
    exact hpos d (by rw [hcons]; exact List.mem_cons_of_mem _ hd)
  have hcongr := Expr.dimsAux_congr r (E.sub 0) (E.sub i) (Expr.sub_wfc W hr h0)
    (Expr.sub_wfc W hr hi)
    (by rw [(Expr.sub_skel W hr h0).1, (Expr.sub_skel W hr hi).1])
    (by rw [Expr.rank_sub W hr h0]; omega) hpost
  unfold Expr.dims
  rw [Expr.rank_sub W hr hi, hrk]
  show Expr.dimsAux r (E.sub i) = (Expr.dimsAux (r + 1) E).tail
  rw [show Expr.dimsAux (r + 1) E = E.size :: Expr.dimsAux r (E.sub 0) from rfl,
    List.tail_cons, ← hcongr]

/-- `S` is a same-skeleton evolution of `E.sub i` (the states produced by
evaluating inside the sub-expression). -/
def Expr.subCompat (E S : Expr) (i : Nat) : Prop :=
  S.f = E.f ∧ S.hwf ∧ S.skel = (E.sub i).skel

theorem Expr.sub_skel_map {E : Expr} {i : Nat} :
    (E.sub i).skel = E.hs.map (fun h => (h.index E.rank i).skel) := by
  unfold Expr.sub Expr.skel
  rw [List.map_map]
  rfl

theorem Expr.wb_skel {E S : Expr} {i : Nat} (W : E.WFC) (hr : E.rank ≠ 0)
    (hi : i < E.size) (hC : E.subCompat S i) :
    (E.wb i S).skel = E.skel ∧ (E.wb i S).hwf := by
  have hmap : S.hs.map Handle.skel = E.hs.map (fun h => (h.index E.rank i).skel) := by
    rw [← Expr.sub_skel_map]
    exact hC.2.2
  have := wbList_skel E.hs S.hs E.rank i W.hw hC.2.1 hmap
    (fun h hm hc => Expr.cidx_lt_of_consume W hr hm hi hc)
  exact ⟨this.1, this.2⟩

theorem Expr.wb_wfc {E S : Expr} {i : Nat} (W : E.WFC) (hr : E.rank ≠ 0)
    (hi : i < E.size) (hC : E.subCompat S i) : (E.wb i S).WFC :=
  Expr.wfc_of_skel W (Expr.wb_skel W hr hi hC).2 (Expr.wb_skel W hr hi hC).1

theorem Expr.wb_sub {E S : Expr} {i : Nat} (W : E.WFC) (hr : E.rank ≠ 0)
    (hi : i < E.size) (hC : E.subCompat S i) : (E.wb i S).sub i = S := by
  have hmap : S.hs.map Handle.skel = E.hs.map (fun h => (h.index E.rank i).skel) := by
    rw [← Expr.sub_skel_map]
    exact hC.2.2
  have hrkwb : (E.wb i S).rank = E.rank :=
    Expr.rank_of_skel W.hw (Expr.wb_skel W hr hi hC).2 (Expr.wb_skel W hr hi hC).1
  apply Expr.ext_fh
  · rw [Expr.sub_f, Expr.wb_f, hC.1]
  · show ((E.wb i S).hs).map (fun h => h.index (E.wb i S).rank i) = S.hs
    rw [hrkwb]
    exact wbList_index E.hs S.hs E.rank i W.hw hC.2.1 hmap
      (fun h hm hc => Expr.cidx_lt_of_consume W hr hm hi hc)

theorem Expr.wb_wb {E S T : Expr} {i : Nat} (W : E.WFC) (hr : E.rank ≠ 0)
    (hi : i < E.size) (hC : E.subCompat S i) :
    (E.wb i S).wb i T = E.wb i T := by
  have hmap : S.hs.map Handle.skel = E.hs.map (fun h => (h.index E.rank i).skel) := by
    rw [← Expr.sub_skel_map]
    exact hC.2.2
  have hrkwb : (E.wb i S).rank = E.rank :=
    Expr.rank_of_skel W.hw (Expr.wb_skel W hr hi hC).2 (Expr.wb_skel W hr hi hC).1
  apply Expr.ext_fh
  · rfl
  · show (((E.wb i S).hs).zip T.hs).map (fun p => p.1.unindex (E.wb i S).rank i p.2) =
      (E.hs.zip T.hs).map (fun p => p.1.unindex E.rank i p.2)
    rw [hrkwb]
    exact wbList_wb E.hs S.hs T.hs E.rank i W.hw hC.2.1 hmap
      (fun h hm hc => Expr.cidx_lt_of_consume W hr hm hi hc)

theorem Handle.unindex_index_id {h : Handle} {R i : Nat}
    (hw : h.val.wf = true)
    (hin : h.consume R = true → h.cidx i < h.val.size) :
    h.unindex R i (h.index R i) = h := by
  by_cases hc : h.consume R = true
  · obtain ⟨n, s', hsh, hsz⟩ := Handle.shape_cons_of_consume hw hc
    have hshape := Obj.wf_hasShape hw
    rw [hsh] at hshape
    have hbound : h.cidx i < n := by rw [← hsz]; exact hin hc
    unfold Handle.unindex Handle.index
    rw [if_pos hc, if_pos hc]
    show ({ h with val := h.val.setAt (h.cidx i) (h.val.get (h.cidx i)) } : Handle) = h
    rw [Obj.setAt_get_self hshape hbound]
  · unfold Handle.unindex Handle.index
    rw [if_neg hc, if_neg hc]

theorem Expr.wb_sub_id {E : Expr} {i : Nat} (W : E.WFC) (hr : E.rank ≠ 0)
    (hi : i < E.size) : E.wb i (E.sub i) = E := by
  apply Expr.ext_fh
  · rfl
  · show ((E.hs.zip (E.hs.map (fun h => h.index E.rank i))).map
      (fun p => p.1.unindex E.rank i p.2)) = E.hs
    have : ∀ hs : List Handle, (∀ h ∈ hs, h.val.wf = true) →
        (∀ h ∈ hs, h.consume E.rank = true → h.cidx i < h.val.size) →
        ((hs.zip (hs.map (fun h => h.index E.rank i))).map
          (fun p => p.1.unindex E.rank i p.2)) = hs := by
      intro hs
      induction hs with
      | nil => intro _ _; rfl
      | cons h hs ih =>
        intro hwf hin
        simp only [List.map_cons, List.zip_cons_cons, List.cons.injEq]
        exact ⟨Handle.unindex_index_id (hwf h (by simp)) (hin h (by simp)),
          ih (fun x hx => hwf x (by simp [hx])) (fun x hx => hin x (by simp [hx]))⟩
    exact this E.hs W.hw (fun h hm hc => Expr.cidx_lt_of_consume W hr hm hi hc)

theorem leafWb_skel : ∀ (hs : List Handle) (ws : List Obj),
    (∀ h ∈ hs, h.val.wf = true) → (∀ w ∈ ws, w.wf = true) →
    ws.map Obj.shape = hs.map (fun h => h.val.shape) →
    ((hs.zip ws).map (fun p => if p.1.out then { p.1 with val := p.2 } else p.1)).map
        Handle.skel = hs.map Handle.skel ∧
    ∀ g ∈ (hs.zip ws).map (fun p => if p.1.out then { p.1 with val := p.2 } else p.1),
      g.val.wf = true
  | [], ws => by
    intro _ _ _
    simp
  | h :: hs, [] => by
    intro _ _ hmap
    simp at hmap
  | h :: hs, w :: ws => by
    intro hwh hww hmap
    simp only [List.map_cons, List.cons.injEq] at hmap
    have tl := leafWb_skel hs ws (fun x hx => hwh x (by simp [hx]))
      (fun x hx => hww x (by simp [hx])) hmap.2
    have hd : Handle.skel (if h.out then { h with val := w } else h) = h.skel ∧
        (if h.out then { h with val := w } else h).val.wf = true := by
      by_cases ho : h.out = true
      · rw [if_pos ho]
        constructor
        · unfold Handle.skel
          simp [hmap.1]
        · exact hww w (by simp)
      · rw [if_neg ho]
        exact ⟨rfl, hwh h (by simp)⟩
    constructor
    · simp only [List.zip_cons_cons, List.map_cons, hd.1, tl.1]
    · intro g hg
      simp only [List.zip_cons_cons, List.map_cons, List.mem_cons] at hg
      rcases hg with rfl | hg
      · exact hd.2
      · exact tl.2 g hg

theorem Expr.evalLeaf_pres {E : Expr} {L : List (List Nat)} (G : E.GOOD L)
    (hr : E.rank = 0) :
    (E.evalLeaf).2.skel = E.skel ∧ (E.evalLeaf).2.hwf := by
  have hvs : E.leafVals.map Obj.shape = E.hs.map (fun h => h.val.shape) := by
    unfold Expr.leafVals
    rw [List.map_map]
    rfl
  have hvsL : E.leafVals.map Obj.shape = L := by
    rw [hvs, ← Expr.leafShapes_rank0 hr, G.leaf]
  have hvw : ∀ v ∈ E.leafVals, v.wf = true := by
    intro v hv
    unfold Expr.leafVals at hv
    simp only [List.mem_map] at hv
    obtain ⟨h, hm, rfl⟩ := hv
    exact G.wfc.hw h hm
  have hcontract := G.contract E.leafVals hvsL hvw
  have hws : ((E.f E.leafVals).2).map Obj.shape = E.hs.map (fun h => h.val.shape) := by
    rw [hcontract.1, ← G.leaf, Expr.leafShapes_rank0 hr]
  have := leafWb_skel E.hs (E.f E.leafVals).2 G.wfc.hw hcontract.2 hws
  exact ⟨this.1, this.2⟩

theorem Expr.GOOD.ofSkel {E F : Expr} {L : List (List Nat)} (G : E.GOOD L)
    (hF : F.hwf) (hsk : F.skel = E.skel) (hf : F.f = E.f) : F.GOOD L := by
  have WF : F.WFC := Expr.wfc_of_skel G.wfc hF hsk
  refine ⟨WF, ?_, ?_, ?_⟩
  · rw [Expr.dims_of_skel G.wfc WF hsk G.pos]
    exact G.pos
  · rw [Expr.leafShapes_of_skel G.wfc.hw hF hsk]
    exact G.leaf
  · rw [hf]
    exact G.contract

theorem Expr.GOOD.sub {E : Expr} {L : List (List Nat)} (G : E.GOOD L)
    (hr : E.rank ≠ 0) {i : Nat} (hi : i < E.size) : (E.sub i).GOOD L := by
  refine ⟨Expr.sub_wfc G.wfc hr hi, ?_, ?_, G.contract⟩
  · rw [Expr.dims_sub G.wfc hr hi G.pos]
    intro d hd
    exact G.pos d (List.mem_of_mem_tail hd)
  · rw [Expr.leafShapes_sub G.wfc hr hi]
    exact G.leaf

theorem Expr.GOOD.wb {E S : Expr} {L : List (List Nat)} (G : E.GOOD L)
    (hr : E.rank ≠ 0) {i : Nat} (hi : i < E.size) (hC : E.subCompat S i) :
    (E.wb i S).GOOD L :=
  G.ofSkel (Expr.wb_skel G.wfc hr hi hC).2 (Expr.wb_skel G.wfc hr hi hC).1 rfl

theorem Expr.GOOD.evalLeaf {E : Expr} {L : List (List Nat)} (G : E.GOOD L)
    (hr : E.rank = 0) : ((E.evalLeaf).2).GOOD L :=
  G.ofSkel (Expr.evalLeaf_pres G hr).2 (Expr.evalLeaf_pres G hr).1 rfl

theorem Expr.dims_length (E : Expr) : E.dims.length = E.rank := by
  suffices h : ∀ r F, (Expr.dimsAux r F).length = r from h E.rank E
  intro r
  induction r with
  | zero => intro F; rfl
  | succ r ih =>
    intro F
    unfold Expr.dimsAux
    simp [ih]

theorem inBounds_nil_iff {d : List Nat} : inBounds [] d = true ↔ d = [] := by
  cases d <;> simp [inBounds]

theorem inBounds_cons_iff {i : Nat} {c : List Nat} {n : Nat} {ds : List Nat} :
    inBounds (i :: c) (n :: ds) = true ↔ i < n ∧ inBounds c ds = true := by
  simp [inBounds]

theorem Expr.dims_head {E : Expr} (hr : E.rank ≠ 0) :
    ∃ ds, E.dims = E.size :: ds := by
  obtain ⟨r, hrk⟩ : ∃ r, E.rank = r + 1 := ⟨E.rank - 1, by omega⟩
  exact ⟨_, Expr.dims_cons hrk⟩

/-- Evaluating one coordinate preserves the callable, well-formedness and the
skeleton of the expression state. -/
theorem Expr.evalAtAux_pres : ∀ (c : List Nat) (E : Expr) (L : List (List Nat)),
    E.GOOD L → inBounds c E.dims = true →
    (Expr.evalAtAux c E).2.f = E.f ∧ (Expr.evalAtAux c E).2.hwf ∧
    (Expr.evalAtAux c E).2.skel = E.skel
  | [], E, L => by
    intro G hb
    have hdims : E.dims = [] := inBounds_nil_iff.mp hb
    have hr : E.rank = 0 := by
      rw [← Expr.dims_length E, hdims]
      rfl
    exact ⟨rfl, (Expr.evalLeaf_pres G hr).2, (Expr.evalLeaf_pres G hr).1⟩
  | i :: c, E, L => by
    intro G hb
    have hr : E.rank ≠ 0 := by
      intro h0
      have := Expr.dims_length E
      rw [h0] at this
      rcases hd : E.dims with _ | ⟨n, ds⟩
      · rw [hd] at hb; simp [inBounds] at hb
      · rw [hd] at this; simp at this
    obtain ⟨ds, hdims⟩ := Expr.dims_head hr
    rw [hdims] at hb
    obtain ⟨hi, hbc⟩ := inBounds_cons_iff.mp hb
    have Gsub := G.sub hr hi
    have hbsub : inBounds c (E.sub i).dims = true := by
      rw [Expr.dims_sub G.wfc hr hi G.pos, hdims]
      exact hbc
    have IH := Expr.evalAtAux_pres c (E.sub i) L Gsub hbsub
    have hC : E.subCompat (Expr.evalAtAux c (E.sub i)).2 i :=
      ⟨IH.1, IH.2.1, IH.2.2⟩
    have hwb := Expr.wb_skel G.wfc hr hi hC
    exact ⟨rfl, hwb.2, hwb.1⟩

/-- Iterated coordinate evaluation. -/
def Expr.foldAt (E : Expr) (cs : List (List Nat)) : Expr :=
  cs.foldl (fun acc c => (Expr.evalAtAux c acc).2) E

theorem foldl_inv {α : Type _} (P : Expr → Prop) :
    ∀ (l : List α) (g : Expr → α → Expr) (s : Expr),
    P s → (∀ t a, P t → a ∈ l → P (g t a)) → P (l.foldl g s)
  | [], g, s => by
    intro hs _
    exact hs
  | a :: l, g, s => by
    intro hs hstep
    exact foldl_inv P l g (g s a) (hstep s a hs (by simp))
      (fun t b ht hb => hstep t b ht (by simp [hb]))

theorem foldl_congr_P {α : Type _} (P : Expr → Prop) :
    ∀ (l : List α) (g1 g2 : Expr → α → Expr) (s : Expr),
    P s → (∀ t a, P t → a ∈ l → g1 t a = g2 t a ∧ P (g1 t a)) →
    l.foldl g1 s = l.foldl g2 s
  | [], g1, g2, s => by
    intro _ _
    rfl
  | a :: l, g1, g2, s => by
    intro hs hstep
    have hd := hstep s a hs (by simp)
    simp only [List.foldl]
    rw [← hd.1]
    exact foldl_congr_P P l g1 g2 (g1 s a) hd.2
      (fun t b ht hb => hstep t b ht (by simp [hb]))

theorem Expr.foldAt_pres {E : Expr} {L : List (List Nat)} {cs : List (List Nat)}
    (G : E.GOOD L) (hb : ∀ c ∈ cs, inBounds c E.dims = true) :
    (E.foldAt cs).f = E.f ∧ (E.foldAt cs).hwf ∧ (E.foldAt cs).skel = E.skel := by
  have := foldl_inv (fun t => t.f = E.f ∧ t.hwf ∧ t.skel = E.skel ∧ t.GOOD L) cs
    (fun acc c => (Expr.evalAtAux c acc).2) E ⟨rfl, G.wfc.hw, rfl, G⟩ ?_
  · exact ⟨this.1, this.2.1, this.2.2.1⟩
  · intro t c ht hc
    have hbt : inBounds c t.dims = true := by
      rw [Expr.dims_of_skel G.wfc ht.2.2.2.wfc ht.2.2.1 G.pos]
      exact hb c hc
    have hp := Expr.evalAtAux_pres c t L ht.2.2.2 hbt
    refine ⟨by rw [hp.1, ht.1], hp.2.1, by rw [hp.2.2, ht.2.2.1], ?_⟩
    exact ht.2.2.2.ofSkel hp.2.1 hp.2.2 hp.1

/-- Descent over explicit per-dimension index lists (full evaluation uses
the complete ranges, strided evaluation a strided innermost list). -/
def Expr.evalOver : List (List Nat) → Expr → Expr
  | [], E => (E.evalLeaf).2
  | L :: Ls, E => L.foldl (fun acc i => acc.wb i (Expr.evalOver Ls (acc.sub i))) E

/-- All coordinate tuples of the given per-dimension index lists, row-major
(outermost varies slowest). -/
def coordsOf : List (List Nat) → List (List Nat)
  | [] => [[]]
  | L :: Ls => L.flatMap (fun i => (coordsOf Ls).map (i :: ·))

/-- Per-dimension index lists within the dimension extents. -/
def listsInBounds : List (List Nat) → List Nat → Prop
  | [], [] => True
  | L :: Ls, n :: ds => (∀ i ∈ L, i < n) ∧ listsInBounds Ls ds
  | _, _ => False

theorem coordsOf_inBounds : ∀ (Ls : List (List Nat)) (ds : List Nat),
    listsInBounds Ls ds → ∀ c ∈ coordsOf Ls, inBounds c ds = true
  | [], [] => by
    intro _ c hc
    simp only [coordsOf, List.mem_singleton] at hc
    simp [hc, inBounds]
  | [], d :: ds => by
    intro h
    simp [listsInBounds] at h
  | L :: Ls, [] => by
    intro h
    simp [listsInBounds] at h
  | L :: Ls, n :: ds => by
    intro h c hc
    simp only [coordsOf, List.mem_flatMap, List.mem_map] at hc
    obtain ⟨i, hiL, c', hc', rfl⟩ := hc
    rw [inBounds_cons_iff]
    exact ⟨h.1 i hiL, coordsOf_inBounds Ls ds h.2 c' hc'⟩

/-- Splitting a coordinate fold along an append. -/
theorem Expr.foldAt_append (E : Expr) (as bs : List (List Nat)) :
    E.foldAt (as ++ bs) = (E.foldAt as).foldAt bs := by
  unfold Expr.foldAt
  rw [List.foldl_append]

/-- The key exchange: evaluating a block of coordinates that share their
outermost index equals evaluating the sub-expression at the residual
coordinates and writing the result back once. -/
theorem Expr.foldAt_factor : ∀ (cs : List (List Nat)) (E : Expr)
    (L : List (List Nat)) (i : Nat), E.GOOD L → E.rank ≠ 0 → i < E.size →
    (∀ c ∈ cs, inBounds c (E.sub i).dims = true) →
    E.foldAt (cs.map (i :: ·)) = E.wb i ((E.sub i).foldAt cs)
  | [], E, L, i => by
    intro G hr hi _
    show E = E.wb i (E.sub i)
    rw [Expr.wb_sub_id G.wfc hr hi]
  | c :: cs, E, L, i => by
    intro G hr hi hb
    have Gsub := G.sub hr hi
    have hbc : inBounds c (E.sub i).dims = true := hb c (by simp)
    have hp := Expr.evalAtAux_pres c (E.sub i) L Gsub hbc
    set S1 := (Expr.evalAtAux c (E.sub i)).2 with hS1
    have hC : E.subCompat S1 i := ⟨hp.1, hp.2.1, hp.2.2⟩
    have hstep : E.foldAt ((c :: cs).map (i :: ·)) = (E.wb i S1).foldAt (cs.map (i :: ·)) := by
      unfold Expr.foldAt
      simp only [List.map_cons, List.foldl_cons]
      rfl
    have GW : (E.wb i S1).GOOD L := G.wb hr hi hC
    have hrkW : (E.wb i S1).rank = E.rank :=
      Expr.rank_of_skel G.wfc.hw (Expr.wb_skel G.wfc hr hi hC).2
        (Expr.wb_skel G.wfc hr hi hC).1
    have hszW : (E.wb i S1).size = E.size :=
      Expr.size_of_skel G.wfc.hw (Expr.wb_skel G.wfc hr hi hC).2
        (Expr.wb_skel G.wfc hr hi hC).1
    have hsubW : (E.wb i S1).sub i = S1 := Expr.wb_sub G.wfc hr hi hC
    have hS1dims : S1.dims = (E.sub i).dims :=
      Expr.dims_of_skel Gsub.wfc (Gsub.ofSkel hp.2.1 hp.2.2 hp.1).wfc hp.2.2 Gsub.pos
    have hbW : ∀ c' ∈ cs, inBounds c' ((E.wb i S1).sub i).dims = true := by
      intro c' hc'
      rw [hsubW, hS1dims]
      exact hb c' (by simp [hc'])
    have IH := Expr.foldAt_factor cs (E.wb i S1) L i GW (by omega) (by omega) hbW
    rw [hstep, IH, hsubW, Expr.wb_wb G.wfc hr hi hC]
    rfl

theorem Expr.foldAt_flatMap {α : Type _} (E : Expr) (l : List α)
    (f : α → List (List Nat)) :
    E.foldAt (l.flatMap f) = l.foldl (fun acc a => acc.foldAt (f a)) E := by
  induction l generalizing E with
  | nil => rfl
  | cons a l ih =>
    simp only [List.flatMap_cons, List.foldl_cons]
    rw [Expr.foldAt_append, ih]

theorem Expr.evalOver_pres : ∀ (Ls : List (List Nat)) (E : Expr)
    (Lf : List (List Nat)), E.GOOD Lf → E.rank = Ls.length →
    listsInBounds Ls E.dims →
    (Expr.evalOver Ls E).f = E.f ∧ (Expr.evalOver Ls E).hwf ∧
    (Expr.evalOver Ls E).skel = E.skel
  | [], E, Lf => by
    intro G hrk _
    exact ⟨rfl, (Expr.evalLeaf_pres G hrk).2, (Expr.evalLeaf_pres G hrk).1⟩
  | L :: Ls, E, Lf => by
    intro G hrk hb
    have hr : E.rank ≠ 0 := by rw [hrk]; simp
    obtain ⟨ds, hdims⟩ := Expr.dims_head hr
    rw [hdims] at hb
    unfold listsInBounds at hb
    have hinv := foldl_inv
      (fun t => t.f = E.f ∧ t.hwf ∧ t.skel = E.skel ∧ t.GOOD Lf) L
      (fun acc i => acc.wb i (Expr.evalOver Ls (acc.sub i))) E
      ⟨rfl, G.wfc.hw, rfl, G⟩ ?_
    · exact ⟨hinv.1, hinv.2.1, hinv.2.2.1⟩
    · intro t i ht hiL
      have Gt := ht.2.2.2
      have hrt : t.rank = E.rank := Expr.rank_of_skel G.wfc.hw ht.2.1 ht.2.2.1
      have hszt : t.size = E.size := Expr.size_of_skel G.wfc.hw ht.2.1 ht.2.2.1
      have hrt0 : t.rank ≠ 0 := by omega
      have hit : i < t.size := by rw [hszt]; exact hb.1 i hiL
      have Gts := Gt.sub hrt0 hit
      have htd : t.dims = E.dims := Expr.dims_of_skel G.wfc Gt.wfc ht.2.2.1 G.pos
      have hrts : (t.sub i).rank = Ls.length := by
        rw [Expr.rank_sub Gt.wfc hrt0 hit, hrt, hrk]
        rfl
      have hbts : listsInBounds Ls (t.sub i).dims := by
        rw [Expr.dims_sub Gt.wfc hrt0 hit Gt.pos, htd, hdims]
        exact hb.2
      have IH := Expr.evalOver_pres Ls (t.sub i) Lf Gts hrts hbts
      have hC : t.subCompat (Expr.evalOver Ls (t.sub i)) i := ⟨IH.1, IH.2.1, IH.2.2⟩
      have hwb := Expr.wb_skel Gt.wfc hrt0 hit hC
      refine ⟨by rw [Expr.wb_f, ht.1], hwb.2, by rw [hwb.1, ht.2.2.1], ?_⟩
      exact Gt.wb hrt0 hit hC

/-- The central equivalence: the engine's recursive descent over explicit
per-dimension index lists visits exactly the row-major coordinate tuples,
one `eval_at`-style leaf evaluation each. -/
theorem Expr.evalOver_eq_foldAt : ∀ (Ls : List (List Nat)) (E : Expr)
    (Lf : List (List Nat)), E.GOOD Lf → E.rank = Ls.length →
    listsInBounds Ls E.dims → Expr.evalOver Ls E = E.foldAt (coordsOf Ls)
  | [], E, Lf => by
    intro _ _ _
    rfl
  | L :: Ls, E, Lf => by
    intro G hrk hb
    have hr : E.rank ≠ 0 := by rw [hrk]; simp
    obtain ⟨ds, hdims⟩ := Expr.dims_head hr
    rw [hdims] at hb
    unfold listsInBounds at hb
    show Expr.evalOver (L :: Ls) E = E.foldAt (coordsOf (L :: Ls))
    unfold coordsOf
    rw [Expr.foldAt_flatMap]
    unfold Expr.evalOver
    apply foldl_congr_P (fun t => t.f = E.f ∧ t.hwf ∧ t.skel = E.skel ∧ t.GOOD Lf)
      L _ _ E ⟨rfl, G.wfc.hw, rfl, G⟩
    intro t i ht hiL
    have Gt := ht.2.2.2
    have hrt : t.rank = E.rank := Expr.rank_of_skel G.wfc.hw ht.2.1 ht.2.2.1
    have hszt : t.size = E.size := Expr.size_of_skel G.wfc.hw ht.2.1 ht.2.2.1
    have hrt0 : t.rank ≠ 0 := by omega
    have hit : i < t.size := by rw [hszt]; exact hb.1 i hiL
    have Gts := Gt.sub hrt0 hit
    have htd : t.dims = E.dims := Expr.dims_of_skel G.wfc Gt.wfc ht.2.2.1 G.pos
    have hrts : (t.sub i).rank = Ls.length := by
      rw [Expr.rank_sub Gt.wfc hrt0 hit, hrt, hrk]
      rfl
    have htsd : (t.sub i).dims = ds := by
      rw [Expr.dims_sub Gt.wfc hrt0 hit Gt.pos, htd, hdims]
      rfl
    have hbts : listsInBounds Ls (t.sub i).dims := by
      rw [htsd]
      exact hb.2
    have IH := Expr.evalOver_eq_foldAt Ls (t.sub i) Lf Gts hrts hbts
    have hP := Expr.evalOver_pres Ls (t.sub i) Lf Gts hrts hbts
    have hC : t.subCompat (Expr.evalOver Ls (t.sub i)) i := ⟨hP.1, hP.2.1, hP.2.2⟩
    have hbcoords : ∀ c ∈ coordsOf Ls, inBounds c (t.sub i).dims = true := by
      intro c hc
      exact coordsOf_inBounds Ls (t.sub i).dims hbts c hc
    constructor
    · rw [IH]
      exact (Expr.foldAt_factor (coordsOf Ls) t Lf i Gt hrt0 hit hbcoords).symm
    · have hwb := Expr.wb_skel Gt.wfc hrt0 hit hC
      exact ⟨by rw [Expr.wb_f, ht.1], hwb.2, by rw [hwb.1, ht.2.2.1],
        Gt.wb hrt0 hit hC⟩

theorem rangesInBounds : ∀ ds : List Nat, listsInBounds (ds.map List.range) ds
  | [] => trivial
  | d :: ds => ⟨fun i hi => List.mem_range.mp hi, rangesInBounds ds⟩

theorem Expr.dims_nil_of_rank0 {E : Expr} (hr : E.rank = 0) : E.dims = [] := by
  have := Expr.dims_length E
  rw [hr] at this
  exact List.length_eq_zero.mp this

/-- Full evaluation is the descent over the complete index ranges. -/
theorem Expr.evalAux_eq_evalOver : ∀ (r : Nat) (E : Expr) (Lf : List (List Nat)),
    E.GOOD Lf → E.rank = r →
    Expr.evalAux r E = Expr.evalOver (E.dims.map List.range) E
  | 0, E, Lf => by
    intro _ hrk
    rw [Expr.dims_nil_of_rank0 hrk]
    rfl
  | r + 1, E, Lf => by
    intro G hrk
    have hr : E.rank ≠ 0 := by omega
    have hdims := Expr.dims_cons hrk
    have hds : (Expr.dimsAux r (E.sub 0)).length = r := by
      have := Expr.dims_length E
      rw [hdims, hrk] at this
      simp at this
      omega
    rw [hdims]
    show (List.range E.size).foldl
        (fun acc i => acc.wb i (Expr.evalAux r (acc.sub i))) E =
      Expr.evalOver (List.range E.size :: (Expr.dimsAux r (E.sub 0)).map List.range) E
    unfold Expr.evalOver
    apply foldl_congr_P (fun t => t.f = E.f ∧ t.hwf ∧ t.skel = E.skel ∧ t.GOOD Lf)
      (List.range E.size) _ _ E ⟨rfl, G.wfc.hw, rfl, G⟩
    intro t i ht hiL
    have Gt := ht.2.2.2
    have hrt : t.rank = E.rank := Expr.rank_of_skel G.wfc.hw ht.2.1 ht.2.2.1
    have hszt : t.size = E.size := Expr.size_of_skel G.wfc.hw ht.2.1 ht.2.2.1
    have hrt0 : t.rank ≠ 0 := by omega
    have hit : i < t.size := by rw [hszt]; exact List.mem_range.mp hiL
    have Gts := Gt.sub hrt0 hit
    have htd : t.dims = E.dims := Expr.dims_of_skel G.wfc Gt.wfc ht.2.2.1 G.pos
    have hrts : (t.sub i).rank = r := by
      rw [Expr.rank_sub Gt.wfc hrt0 hit, hrt, hrk]
      omega
    have htsd : (t.sub i).dims = Expr.dimsAux r (E.sub 0) := by
      rw [Expr.dims_sub Gt.wfc hrt0 hit Gt.pos, htd, hdims]
      rfl
    have IH := Expr.evalAux_eq_evalOver r (t.sub i) Lf Gts hrts
    have hbts : listsInBounds ((Expr.dimsAux r (E.sub 0)).map List.range)
        (t.sub i).dims := by
      rw [htsd]
      exact rangesInBounds _
    have hP := Expr.evalOver_pres _ (t.sub i) Lf Gts (by simp [hrts, hds]) hbts
    have hC : t.subCompat
        (Expr.evalOver ((Expr.dimsAux r (E.sub 0)).map List.range) (t.sub i)) i :=
      ⟨hP.1, hP.2.1, hP.2.2⟩
    have hbody : Expr.evalAux r (t.sub i) =
        Expr.evalOver ((Expr.dimsAux r (E.sub 0)).map List.range) (t.sub i) := by
      rw [IH, htsd]
    have hwb := Expr.wb_skel Gt.wfc hrt0 hit hC
    constructor
    · rw [hbody]
    · rw [hbody]
      exact ⟨by rw [Expr.wb_f, ht.1], hwb.2, by rw [hwb.1, ht.2.2.1],
        Gt.wb hrt0 hit hC⟩

/-- Per-dimension index lists of strided evaluation: all outer ranges in
full, the innermost stepping by `N`. -/
def stridedLists (N : Nat) : List Nat → List (List Nat)
  | [] => []
  | [s] => [stridedIdx s N]
  | d :: ds => List.range d :: stridedLists N ds

theorem stridedIdx_lt {S N i : Nat} (hi : i ∈ stridedIdx S N) : i < S := by
  unfold stridedIdx at hi
  simp only [List.mem_map, List.mem_range] at hi
  obtain ⟨k, hk, rfl⟩ := hi
  rcases Nat.eq_zero_or_pos N with rfl | hN
  · simp at hk
  · have h1 : k + 1 ≤ S / N := hk
    have h2 : (k + 1) * N ≤ (S / N) * N := Nat.mul_le_mul_right N h1
    have h3 : (S / N) * N ≤ S := Nat.div_mul_le_self S N
    have := Nat.mul_le_mul_right N h1
    nlinarith

theorem stridedLists_bounds (N : Nat) : ∀ ds : List Nat,
    listsInBounds (stridedLists N ds) ds
  | [] => trivial
  | [s] => ⟨fun i hi => stridedIdx_lt hi, trivial⟩
  | d :: d2 :: ds => ⟨fun i hi => List.mem_range.mp hi, stridedLists_bounds N (d2 :: ds)⟩

theorem stridedLists_length (N : Nat) : ∀ ds : List Nat,
    (stridedLists N ds).length = ds.length
  | [] => rfl
  | [s] => rfl
  | d :: d2 :: ds => by
    show (stridedLists N (d2 :: ds)).length + 1 = ds.length + 1 + 1
    rw [stridedLists_length N (d2 :: ds)]
    rfl

/-- Strided evaluation is the descent over the strided index lists. -/
theorem Expr.evalNAux_eq_evalOver : ∀ (r N : Nat) (E : Expr)
    (Lf : List (List Nat)), E.GOOD Lf → E.rank = r →
    Expr.evalNAux r N E = Expr.evalOver (stridedLists N E.dims) E
  | 0, N, E, Lf => by
    intro _ hrk
    rw [Expr.dims_nil_of_rank0 hrk]
    rfl
  | 1, N, E, Lf => by
    intro G hrk
    have hdims := Expr.dims_cons hrk
    have hnil : Expr.dimsAux 0 (E.sub 0) = [] := rfl
    rw [hdims, hnil]
    rfl
  | r + 2, N, E, Lf => by
    intro G hrk
    have hr : E.rank ≠ 0 := by omega
    have hdims := Expr.dims_cons hrk
    have hds : (Expr.dimsAux (r + 1) (E.sub 0)).length = r + 1 := by
      have := Expr.dims_length E
      rw [hdims, hrk] at this
      simp at this
      omega
    obtain ⟨d2, ds2, hds2⟩ : ∃ d2 ds2, Expr.dimsAux (r + 1) (E.sub 0) = d2 :: ds2 := by
      rcases hx : Expr.dimsAux (r + 1) (E.sub 0) with _ | ⟨d2, ds2⟩
      · rw [hx] at hds; simp at hds
      · exact ⟨d2, ds2, rfl⟩
    rw [hdims, hds2]
    show (List.range E.size).foldl
        (fun acc i => acc.wb i (Expr.evalNAux (r + 1) N (acc.sub i))) E =
      Expr.evalOver (List.range E.size :: stridedLists N (d2 :: ds2)) E
    unfold Expr.evalOver
    apply foldl_congr_P (fun t => t.f = E.f ∧ t.hwf ∧ t.skel = E.skel ∧ t.GOOD Lf)
      (List.range E.size) _ _ E ⟨rfl, G.wfc.hw, rfl, G⟩
    intro t i ht hiL
    have Gt := ht.2.2.2
    have hrt : t.rank = E.rank := Expr.rank_of_skel G.wfc.hw ht.2.1 ht.2.2.1
    have hszt : t.size = E.size := Expr.size_of_skel G.wfc.hw ht.2.1 ht.2.2.1
    have hrt0 : t.rank ≠ 0 := by omega
    have hit : i < t.size := by rw [hszt]; exact List.mem_range.mp hiL
    have Gts := Gt.sub hrt0 hit
    have htd : t.dims = E.dims := Expr.dims_of_skel G.wfc Gt.wfc ht.2.2.1 G.pos
    have hrts : (t.sub i).rank = r + 1 := by
      rw [Expr.rank_sub Gt.wfc hrt0 hit, hrt, hrk]
      omega
    have htsd : (t.sub i).dims = d2 :: ds2 := by
      rw [Expr.dims_sub Gt.wfc hrt0 hit Gt.pos, htd, hdims, hds2]
      rfl
    have IH := Expr.evalNAux_eq_evalOver (r + 1) N (t.sub i) Lf Gts hrts
    have hbts : listsInBounds (stridedLists N (d2 :: ds2)) (t.sub i).dims := by
      rw [htsd]
      exact stridedLists_bounds N _
    have hP := Expr.evalOver_pres _ (t.sub i) Lf Gts
      (by rw [hrts, stridedLists_length, ← hds2, hds]) hbts
    have hC : t.subCompat (Expr.evalOver (stridedLists N (d2 :: ds2)) (t.sub i)) i :=
      ⟨hP.1, hP.2.1, hP.2.2⟩
    have hbody : Expr.evalNAux (r + 1) N (t.sub i) =
        Expr.evalOver (stridedLists N (d2 :: ds2)) (t.sub i) := by
      rw [IH, htsd]
    have hwb := Expr.wb_skel Gt.wfc hrt0 hit hC
    constructor
    · rw [hbody]
    · rw [hbody]
      exact ⟨by rw [Expr.wb_f, ht.1], hwb.2, by rw [hwb.1, ht.2.2.1],
        Gt.wb hrt0 hit hC⟩

/-! ### Direct (path-based) characterization of coordinate evaluation -/

/-- Descend a multi-index path. -/
def Obj.getPath : Obj → List Nat → Obj
  | o, [] => o
  | o, i :: p => Obj.getPath (o.get i) p

/-- Write a value at a multi-index path. -/
def Obj.setPath : Obj → List Nat → Obj → Obj
  | _, [], v => v
  | o, i :: p, v => o.setAt i (Obj.setPath (o.get i) p v)

/-- The index path a handle dereferences for the coordinate tuple `c` when
the expression still has `R` dimensions: dimensions the handle does not
cover are skipped, singleton extents are clamped to 0. -/
def Handle.path : Nat → List Nat → Handle → List Nat
  | _, [], _ => []
  | R, i :: c, h =>
    if h.consume R then h.cidx i :: Handle.path (R - 1) c (h.index R i)
    else Handle.path (R - 1) c h

theorem Obj.getPath_nil {o : Obj} : o.getPath [] = o := rfl

theorem Obj.getPath_cons {o : Obj} {j : Nat} {p : List Nat} :
    o.getPath (j :: p) = (o.get j).getPath p := rfl

theorem Obj.setPath_nil {o v : Obj} : o.setPath [] v = v := rfl

theorem Obj.setPath_cons {o v : Obj} {j : Nat} {p : List Nat} :
    o.setPath (j :: p) v = o.setAt j ((o.get j).setPath p v) := rfl

theorem Handle.path_nil {h : Handle} {R : Nat} : Handle.path R [] h = [] := rfl

theorem Handle.path_cons {h : Handle} {R i : Nat} {c : List Nat} :
    Handle.path R (i :: c) h =
      if h.consume R then h.cidx i :: Handle.path (R - 1) c (h.index R i)
      else Handle.path (R - 1) c h := rfl

theorem Handle.index_val_consume {h : Handle} {R i : Nat}
    (hc : h.consume R = true) : (h.index R i).val = h.val.get (h.cidx i) := by
  unfold Handle.index
  rw [if_pos hc]

theorem Handle.index_skip {h : Handle} {R i : Nat}
    (hc : ¬h.consume R = true) : h.index R i = h := by
  unfold Handle.index
  rw [if_neg hc]

theorem Handle.unindex_consume {h s : Handle} {R i : Nat}
    (hc : h.consume R = true) :
    h.unindex R i s = { h with val := h.val.setAt (h.cidx i) s.val } := by
  unfold Handle.unindex
  rw [if_pos hc]

theorem Handle.unindex_skip {h s : Handle} {R i : Nat}
    (hc : ¬h.consume R = true) : h.unindex R i s = s := by
  unfold Handle.unindex
  rw [if_neg hc]

theorem Handle.getPath_path_cons {h : Handle} {R i : Nat} {c : List Nat} :
    (h.index R i).val.getPath (Handle.path (R - 1) c (h.index R i)) =
    h.val.getPath (Handle.path R (i :: c) h) := by
  rw [Handle.path_cons]
  by_cases hc : h.consume R = true
  · rw [if_pos hc, Obj.getPath_cons, Handle.index_val_consume hc]
  · rw [if_neg hc, Handle.index_skip hc]

theorem Handle.unindex_setPath {h g : Handle} {R i : Nat} {c : List Nat} {w : Obj}
    (hw : h.val.wf = true)
    (hin : h.consume R = true → h.cidx i < h.val.size)
    (hg : g = h.index R i) :
    h.unindex R i (if g.out then
        { g with val := g.val.setPath (Handle.path (R - 1) c g) w } else g) =
    (if h.out then { h with val := h.val.setPath (Handle.path R (i :: c) h) w }
      else h) := by
  have hgout : g.out = h.out := by rw [hg, Handle.index_out]
  by_cases ho : h.out = true
  · rw [if_pos (hgout.trans ho), if_pos ho, Handle.path_cons]
    by_cases hc : h.consume R = true
    · rw [if_pos hc, Handle.unindex_consume hc]
      have hval : g.val = h.val.get (h.cidx i) := by
        rw [hg, Handle.index_val_consume hc]
      congr 1
      rw [Obj.setPath_cons, ← hval, hg]
    · rw [if_neg hc, Handle.unindex_skip hc, hg, Handle.index_skip hc]
  · have hgo : ¬g.out = true := by rw [hgout]; exact ho
    rw [if_neg hgo, if_neg ho, hg]
    exact Handle.unindex_index_id hw hin

theorem zip_self_zip {α β : Type _} : ∀ (l : List α) (ws : List β),
    l.zip (l.zip ws) = (l.zip ws).map (fun p => (p.1, p))
  | [], _ => rfl
  | a :: l, [] => rfl
  | a :: l, w :: ws => by
    simp only [List.zip_cons_cons, List.map_cons]
    rw [zip_self_zip l ws]

theorem Expr.sub_hs (E : Expr) (i : Nat) :
    (E.sub i).hs = E.hs.map (fun h => h.index E.rank i) := rfl

theorem Expr.wb_hs (E S : Expr) (i : Nat) :
    (E.wb i S).hs = (E.hs.zip S.hs).map (fun p => p.1.unindex E.rank i p.2) := rfl

theorem Expr.wb_mk_hs (E : Expr) (i : Nat) (f2 : List Obj → Obj × List Obj)
    (hs2 : List Handle) :
    (E.wb i (Expr.mk f2 hs2)).hs =
      (E.hs.zip hs2).map (fun p => p.1.unindex E.rank i p.2) := rfl

/-- What one coordinate evaluation does, stated directly: each handle is
dereferenced at its index path, the callable runs once on those values, and
each output handle gets the callable's corresponding result written back at
that same path; non-output handles are untouched. -/
theorem Expr.evalAtAux_char : ∀ (c : List Nat) (E : Expr) (Lf : List (List Nat)),
    E.GOOD Lf → inBounds c E.dims = true →
    Expr.evalAtAux c E =
      ((E.f (E.hs.map (fun h => h.val.getPath (Handle.path E.rank c h)))).1,
       Expr.mk E.f
         ((E.hs.zip
            (E.f (E.hs.map (fun h => h.val.getPath (Handle.path E.rank c h)))).2).map
          (fun p => if p.1.out then
            { p.1 with val := p.1.val.setPath (Handle.path E.rank c p.1) p.2 }
            else p.1)))
  | [], E, Lf => by
    intro G hb
    have hmapv : E.hs.map (fun h => h.val.getPath (Handle.path E.rank [] h)) =
        E.leafVals := by
      unfold Expr.leafVals
      apply List.map_congr_left
      intro h _
      rw [Handle.path_nil, Obj.getPath_nil]
    show E.evalLeaf = _
    unfold Expr.evalLeaf
    rw [hmapv]
    refine Prod.ext rfl ?_
    apply Expr.ext_fh rfl
    show (E.hs.zip (E.f E.leafVals).2).map _ = (E.hs.zip (E.f E.leafVals).2).map _
    apply List.map_congr_left
    intro p _
    rfl
  | i :: c, E, Lf => by
    intro G hb
    have hr : E.rank ≠ 0 := by
      intro h0
      rw [Expr.dims_nil_of_rank0 h0] at hb
      simp [inBounds] at hb
    obtain ⟨ds, hdims⟩ := Expr.dims_head hr
    rw [hdims] at hb
    obtain ⟨hi, hbc⟩ := inBounds_cons_iff.mp hb
    have Gsub := G.sub hr hi
    have hbsub : inBounds c (E.sub i).dims = true := by
      rw [Expr.dims_sub G.wfc hr hi G.pos, hdims]
      exact hbc
    have hrks : (E.sub i).rank = E.rank - 1 := Expr.rank_sub G.wfc hr hi
    have IH := Expr.evalAtAux_char c (E.sub i) Lf Gsub hbsub
    rw [hrks] at IH
    have hvs : (E.sub i).hs.map
        (fun h => h.val.getPath (Handle.path (E.rank - 1) c h)) =
        E.hs.map (fun h => h.val.getPath (Handle.path E.rank (i :: c) h)) := by
      rw [Expr.sub_hs, List.map_map]
      apply List.map_congr_left
      intro h _
      exact Handle.getPath_path_cons
    rw [Expr.sub_f, hvs] at IH
    set vs := E.hs.map (fun h => h.val.getPath (Handle.path E.rank (i :: c) h)) with hvsdef
    set ws := (E.f vs).2 with hwsdef
    have hIH1 : (Expr.evalAtAux c (E.sub i)).1 = (E.f vs).1 := congrArg Prod.fst IH
    have hIH2 : (Expr.evalAtAux c (E.sub i)).2 = Expr.mk E.f
        (((E.sub i).hs.zip ws).map (fun p => if p.1.out then
          { p.1 with val := p.1.val.setPath (Handle.path (E.rank - 1) c p.1) p.2 }
          else p.1)) := congrArg Prod.snd IH
    show ((Expr.evalAtAux c (E.sub i)).1, E.wb i (Expr.evalAtAux c (E.sub i)).2) = _
    rw [hIH1, hIH2]
    simp only [Prod.mk.injEq, true_and]
    apply Expr.ext_fh
    · rfl
    rw [Expr.wb_mk_hs, Expr.sub_hs, List.zip_map_left, List.map_map, List.zip_map_right,
      zip_self_zip, List.map_map, List.map_map]
    apply List.map_congr_left
    intro p hp
    have hmem : p.1 ∈ E.hs := (List.of_mem_zip hp).1
    simp only [Function.comp_apply, Prod.map_apply, id_eq]
    exact Handle.unindex_setPath (G.wfc.hw p.1 hmem)
      (fun hc => Expr.cidx_lt_of_consume G.wfc hr hmem hi hc) rfl

/-! ### Object-level path reasoning -/

/-- `pathOk s p`: `p` indexes one element per leading dimension of shape
`s`, in bounds. -/
def pathOk : List Nat → List Nat → Bool
  | _, [] => true
  | [], _ :: _ => false
  | n :: s, i :: p => decide (i < n) && pathOk s p

theorem Obj.getPath_shape : ∀ {p : List Nat} {o : Obj} {s : List Nat},
    o.hasShape s = true → pathOk s p = true →
    (o.getPath p).hasShape (s.drop p.length) = true
  | [], o, s => by
    intro hs _
    simpa [Obj.getPath] using hs
  | i :: p, o, s => by
    intro hs hp
    cases s with
    | nil => simp [pathOk] at hp
    | cons n s =>
      simp only [pathOk, Bool.and_eq_true, decide_eq_true_eq] at hp
      rw [Obj.getPath_cons]
      have := Obj.getPath_shape (Obj.hasShape_get hs hp.1) hp.2
      simpa using this

theorem Obj.setPath_shape : ∀ {p : List Nat} {o v : Obj} {s : List Nat},
    o.hasShape s = true → pathOk s p = true →
    v.hasShape (s.drop p.length) = true → (o.setPath p v).hasShape s = true
  | [], o, v, s => by
    intro _ _ hv
    simpa [Obj.setPath] using hv
  | i :: p, o, v, s => by
    intro hs hp hv
    cases s with
    | nil => simp [pathOk] at hp
    | cons n s =>
      simp only [pathOk, Bool.and_eq_true, decide_eq_true_eq] at hp
      rw [Obj.setPath_cons]
      exact Obj.hasShape_setAt hs
        (Obj.setPath_shape (Obj.hasShape_get hs hp.1) hp.2 (by simpa using hv))

theorem Obj.getPath_setPath_self : ∀ {p : List Nat} {o v : Obj} {s : List Nat},
    o.hasShape s = true → pathOk s p = true → (o.setPath p v).getPath p = v
  | [], o, v, s => by
    intro _ _
    rfl
  | i :: p, o, v, s => by
    intro hs hp
    cases s with
    | nil => simp [pathOk] at hp
    | cons n s =>
      simp only [pathOk, Bool.and_eq_true, decide_eq_true_eq] at hp
      rw [Obj.setPath_cons, Obj.getPath_cons, Obj.get_setAt_self hs hp.1]
      exact Obj.getPath_setPath_self (Obj.hasShape_get hs hp.1) hp.2

theorem Obj.get_setAt_ne {o v : Obj} {n : Nat} {s : List Nat} {i j : Nat}
    (hs : o.hasShape (n :: s) = true) (hne : i ≠ j) :
    (o.setAt i v).get j = o.get j := by
  cases o with
  | int w => simp [Obj.hasShape] at hs
  | arr l =>
    simp only [Obj.setAt, Obj.get]
    by_cases hj : j < l.length
    · rw [List.getD_eq_getElem _ _ (by simpa using hj), List.getD_eq_getElem _ _ hj,
        List.getElem_set, if_neg hne]
    · have h1 : (l.set i v).length ≤ j := by simp; omega
      have h2 : l.length ≤ j := by omega
      rw [List.getD_eq_default _ _ h1, List.getD_eq_default _ _ h2]

theorem Obj.getPath_setPath_ne : ∀ {p q : List Nat} {o v : Obj} {s : List Nat},
    o.hasShape s = true → pathOk s p = true → pathOk s q = true →
    p.length = q.length → p ≠ q → (o.setPath p v).getPath q = o.getPath q
  | [], [], o, v, s => by
    intro _ _ _ _ hne
    exact absurd rfl hne
  | [], j :: q, o, v, s => by
    intro _ _ _ hlen _
    simp at hlen
  | i :: p, [], o, v, s => by
    intro _ _ _ hlen _
    simp at hlen
  | i :: p, j :: q, o, v, s => by
    intro hs hp hq hlen hne
    cases s with
    | nil => simp [pathOk] at hp
    | cons n s =>
      simp only [pathOk, Bool.and_eq_true, decide_eq_true_eq] at hp hq
      rw [Obj.setPath_cons, Obj.getPath_cons, Obj.getPath_cons]
      by_cases hij : i = j
      · subst hij
        rw [Obj.get_setAt_self hs hp.1]
        have hpq : p ≠ q := by
          intro h
          exact hne (by rw [h])
        exact Obj.getPath_setPath_ne (Obj.hasShape_get hs hp.1) hp.2 hq.2
          (by simpa using hlen) hpq
      · rw [Obj.get_setAt_ne hs hij]

theorem Obj.ext_paths : ∀ (k : Nat) {x y : Obj} {s : List Nat}, k ≤ s.length →
    x.hasShape s = true → y.hasShape s = true →
    (∀ p : List Nat, p.length = k → pathOk s p = true → x.getPath p = y.getPath p) →
    x = y
  | 0, x, y, s => by
    intro _ _ _ hagree
    have := hagree [] rfl (by cases s <;> rfl)
    simpa [Obj.getPath] using this
  | k + 1, x, y, s => by
    intro hk hx hy hagree
    cases s with
    | nil => simp at hk
    | cons n s =>
      cases x with
      | int v => simp [Obj.hasShape] at hx
      | arr lx =>
        cases y with
        | int w => simp [Obj.hasShape] at hy
        | arr ly =>
          have hlx : lx.length = n := by simpa [Obj.size] using Obj.hasShape_size hx
          have hly : ly.length = n := by simpa [Obj.size] using Obj.hasShape_size hy
          congr 1
          apply List.ext_getElem (by omega)
          intro m h1 h2
          have hm : m < n := by omega
          have hgx : (Obj.arr lx).get m = lx[m] := by
            unfold Obj.get
            exact List.getD_eq_getElem _ _ h1
          have hgy : (Obj.arr ly).get m = ly[m] := by
            unfold Obj.get
            exact List.getD_eq_getElem _ _ h2
          have hex : lx[m].hasShape s = true := by
            have := Obj.hasShape_get hx hm
            rwa [hgx] at this
          have hey : ly[m].hasShape s = true := by
            have := Obj.hasShape_get hy hm
            rwa [hgy] at this
          apply Obj.ext_paths k (by simpa using hk) hex hey
          intro p hplen hpok
          have := hagree (m :: p) (by simp [hplen]) (by simp [pathOk, hm, hpok])
          rw [Obj.getPath_cons, Obj.getPath_cons, hgx, hgy] at this
          exact this

/-- A sequence of path writes (the per-handle effect of a multi-leaf
evaluation). -/
def applyOps : Obj → List (List Nat × Obj) → Obj
  | o, [] => o
  | o, op :: ops => applyOps (o.setPath op.1 op.2) ops

/-- Conditions on a write sequence over shape `s` with descent depth `k`. -/
def opsOk (s : List Nat) (k : Nat) (ops : List (List Nat × Obj)) : Prop :=
  ∀ op ∈ ops, pathOk s op.1 = true ∧ op.1.length = k ∧
    (op.2).hasShape (s.drop k) = true

theorem applyOps_shape : ∀ {ops : List (List Nat × Obj)} {o : Obj} {s : List Nat}
    {k : Nat}, o.hasShape s = true → opsOk s k ops →
    (applyOps o ops).hasShape s = true
  | [], o, s, k => by
    intro hs _
    exact hs
  | op :: ops, o, s, k => by
    intro hs hops
    obtain ⟨h1, h2, h3⟩ := hops op (by simp)
    show (applyOps (o.setPath op.1 op.2) ops).hasShape s = true
    exact applyOps_shape (Obj.setPath_shape hs h1 (h2 ▸ h3))
      (fun x hx => hops x (by simp [hx]))

theorem applyOps_frame : ∀ {ops : List (List Nat × Obj)} {o : Obj} {s : List Nat}
    {k : Nat} {q : List Nat}, o.hasShape s = true → opsOk s k ops →
    pathOk s q = true → q.length = k → (∀ op ∈ ops, op.1 ≠ q) →
    (applyOps o ops).getPath q = o.getPath q
  | [], o, s, k, q => by
    intro _ _ _ _ _
    rfl
  | op :: ops, o, s, k, q => by
    intro hs hops hq hqlen hne
    obtain ⟨h1, h2, h3⟩ := hops op (by simp)
    have := @applyOps_frame ops _ _ _ _
      (Obj.setPath_shape hs h1 (h2 ▸ h3)) (fun x hx => hops x (by simp [hx]))
      hq hqlen (fun x hx => hne x (by simp [hx]))
    rw [show applyOps o (op :: ops) = applyOps (o.setPath op.1 op.2) ops from rfl,
      this, Obj.getPath_setPath_ne hs h1 hq (by omega) (hne op (by simp))]

theorem applyOps_on : ∀ {ops : List (List Nat × Obj)} {x y : Obj} {s : List Nat}
    {k : Nat} {q : List Nat}, x.hasShape s = true → y.hasShape s = true →
    opsOk s k ops → pathOk s q = true → q.length = k →
    (∃ op ∈ ops, op.1 = q) →
    (applyOps x ops).getPath q = (applyOps y ops).getPath q
  | [], x, y, s, k, q => by
    intro _ _ _ _ _ hmem
    obtain ⟨op, hop, -⟩ := hmem
    cases hop
  | op :: ops, x, y, s, k, q => by
    intro hx hy hops hq hqlen hmem
    obtain ⟨h1, h2, h3⟩ := hops op (by simp)
    have hx2 : (x.setPath op.1 op.2).hasShape s = true :=
      Obj.setPath_shape hx h1 (h2 ▸ h3)
    have hy2 : (y.setPath op.1 op.2).hasShape s = true :=
      Obj.setPath_shape hy h1 (h2 ▸ h3)
    by_cases hrest : ∃ op2 ∈ ops, op2.1 = q
    · show (applyOps (x.setPath op.1 op.2) ops).getPath q =
        (applyOps (y.setPath op.1 op.2) ops).getPath q
      exact applyOps_on hx2 hy2 (fun z hz => hops z (by simp [hz])) hq hqlen hrest
    · have hopq : op.1 = q := by
        obtain ⟨op2, hop2, heq⟩ := hmem
        rcases List.mem_cons.mp hop2 with rfl | hop2
        · exact heq
        · exact absurd ⟨op2, hop2, heq⟩ hrest
      have hne : ∀ op2 ∈ ops, op2.1 ≠ q := by
        intro op2 hop2
        intro heq
        exact hrest ⟨op2, hop2, heq⟩
      rw [show applyOps x (op :: ops) = applyOps (x.setPath op.1 op.2) ops from rfl,
        show applyOps y (op :: ops) = applyOps (y.setPath op.1 op.2) ops from rfl,
        applyOps_frame hx2 (fun z hz => hops z (by simp [hz])) hq hqlen hne,
        applyOps_frame hy2 (fun z hz => hops z (by simp [hz])) hq hqlen hne,
        hopq, Obj.getPath_setPath_self hx (hopq ▸ h1),
        Obj.getPath_setPath_self hy (hopq ▸ h1)]

theorem applyOps_idem {ops : List (List Nat × Obj)} {o : Obj} {s : List Nat}
    {k : Nat} (hs : o.hasShape s = true) (hops : opsOk s k ops)
    (hk : k ≤ s.length) :
    applyOps (applyOps o ops) ops = applyOps o ops := by
  have hsh1 : (applyOps o ops).hasShape s = true := applyOps_shape hs hops
  have hsh2 : (applyOps (applyOps o ops) ops).hasShape s = true :=
    applyOps_shape hsh1 hops
  apply Obj.ext_paths k hk hsh2 hsh1
  intro q hqlen hqok
  by_cases hmem : ∃ op ∈ ops, op.1 = q
  · exact applyOps_on hsh1 hs hops hqok hqlen hmem
  · have hne : ∀ op ∈ ops, op.1 ≠ q := by
      intro op hop heq
      exact hmem ⟨op, hop, heq⟩
    exact applyOps_frame hsh1 hops hqok hqlen hne

/-! ### Positional access to the evaluated state -/

theorem Expr.path_ok : ∀ (c : List Nat) (E : Expr) (Lf : List (List Nat)),
    E.GOOD Lf → inBounds c E.dims = true → ∀ h ∈ E.hs,
    pathOk h.val.shape (Handle.path E.rank c h) = true ∧
    (Handle.path E.rank c h).length = h.eff
  | [], E, Lf => by
    intro G hb h hm
    have hdims : E.dims = [] := inBounds_nil_iff.mp hb
    have hr : E.rank = 0 := by
      rw [← Expr.dims_length E, hdims]
      rfl
    have heff : h.eff = 0 := by
      have := Expr.eff_le_rank hm
      omega
    rw [Handle.path_nil, heff]
    exact ⟨by cases h.val.shape <;> rfl, rfl⟩
  | i :: c, E, Lf => by
    intro G hb h hm
    have hr : E.rank ≠ 0 := by
      intro h0
      rw [Expr.dims_nil_of_rank0 h0] at hb
      simp [inBounds] at hb
    obtain ⟨ds, hdims⟩ := Expr.dims_head hr
    rw [hdims] at hb
    obtain ⟨hi, hbc⟩ := inBounds_cons_iff.mp hb
    have Gsub := G.sub hr hi
    have hbsub : inBounds c (E.sub i).dims = true := by
      rw [Expr.dims_sub G.wfc hr hi G.pos, hdims]
      exact hbc
    have hrks : (E.sub i).rank = E.rank - 1 := Expr.rank_sub G.wfc hr hi
    have hmem2 : h.index E.rank i ∈ (E.sub i).hs := by
      rw [Expr.sub_hs]
      exact List.mem_map_of_mem _ hm
    have IH := Expr.path_ok c (E.sub i) Lf Gsub hbsub (h.index E.rank i) hmem2
    rw [hrks] at IH
    rw [Handle.path_cons]
    by_cases hc : h.consume E.rank = true
    · rw [if_pos hc]
      obtain ⟨n, s', hsh, hsz⟩ := Handle.shape_cons_of_consume (G.wfc.hw h hm) hc
      have hshape := Obj.wf_hasShape (G.wfc.hw h hm)
      rw [hsh] at hshape
      have hbound : h.cidx i < n := by
        rw [← hsz]
        exact Expr.cidx_lt_of_consume G.wfc hr hm hi hc
      have hidxsh : (h.index E.rank i).val.shape = s' := by
        rw [Handle.index_val_consume hc]
        exact Obj.hasShape_shape_eq (Obj.hasShape_get hshape hbound)
      rw [hidxsh] at IH
      constructor
      · rw [hsh]
        simp only [pathOk, Bool.and_eq_true, decide_eq_true_eq]
        exact ⟨hbound, IH.1⟩
      · have hrk1 : h.val.rank = s'.length + 1 := by
          rw [Obj.wf_rank_shape (G.wfc.hw h hm), hsh]
          simp
        have hrk2 : (h.index E.rank i).val.rank = s'.length := by
          rw [Obj.wf_rank_shape (Gsub.wfc.hw _ hmem2), hidxsh]
        have hpr : h.pr < h.val.rank := by
          unfold Handle.consume at hc
          simp only [Bool.and_eq_true, decide_eq_true_eq] at hc
          exact hc.2
        simp only [List.length_cons]
        rw [IH.2]
        unfold Handle.eff
        rw [Handle.index_pr, hrk1, hrk2]
        omega
    · rw [if_neg hc]
      have hidx : h.index E.rank i = h := Handle.index_skip hc
      rw [hidx] at IH
      exact IH

/-- The dereferenced per-argument values at one coordinate. -/
def Expr.vsAt (E : Expr) (c : List Nat) : List Obj :=
  E.hs.map (fun h => h.val.getPath (Handle.path E.rank c h))

/-- The callable's post-call argument values at one coordinate. -/
def Expr.wsAt (E : Expr) (c : List Nat) : List Obj := (E.f (E.vsAt c)).2

/-- One coordinate evaluation step (state part). -/
def Expr.stepA (E : Expr) (c : List Nat) : Expr := (Expr.evalAtAux c E).2

theorem Expr.leafShapes_getElem {E : Expr} {k : Nat} {h : Handle}
    (hk : E.hs[k]? = some h) :
    E.leafShapes[k]? = some (h.val.shape.drop h.eff) := by
  unfold Expr.leafShapes
  rw [List.getElem?_map, hk]
  rfl

theorem Expr.vsAt_shapes {E : Expr} {Lf : List (List Nat)} {c : List Nat}
    (G : E.GOOD Lf) (hb : inBounds c E.dims = true) :
    (E.vsAt c).map Obj.shape = Lf ∧ ∀ v ∈ E.vsAt c, v.wf = true := by
  constructor
  · rw [← G.leaf]
    unfold Expr.vsAt Expr.leafShapes
    rw [List.map_map]
    apply List.map_congr_left
    intro h hm
    obtain ⟨hok, hlen⟩ := Expr.path_ok c E Lf G hb h hm
    have := Obj.getPath_shape (Obj.wf_hasShape (G.wfc.hw h hm)) hok
    rw [hlen] at this
    exact Obj.hasShape_shape_eq this
  · intro v hv
    unfold Expr.vsAt at hv
    simp only [List.mem_map] at hv
    obtain ⟨h, hm, rfl⟩ := hv
    obtain ⟨hok, -⟩ := Expr.path_ok c E Lf G hb h hm
    exact Obj.hasShape_wf (Obj.getPath_shape (Obj.wf_hasShape (G.wfc.hw h hm)) hok)

theorem Expr.wsAt_shapes {E : Expr} {Lf : List (List Nat)} {c : List Nat}
    (G : E.GOOD Lf) (hb : inBounds c E.dims = true) :
    (E.wsAt c).map Obj.shape = Lf ∧ ∀ v ∈ E.wsAt c, v.wf = true := by
  have hvs := Expr.vsAt_shapes G hb
  exact G.contract (E.vsAt c) hvs.1 hvs.2

theorem Expr.wsAt_length {E : Expr} {Lf : List (List Nat)} {c : List Nat}
    (G : E.GOOD Lf) (hb : inBounds c E.dims = true) :
    (E.wsAt c).length = E.hs.length := by
  have h1 := congrArg List.length (Expr.wsAt_shapes G hb).1
  have h2 := congrArg List.length G.leaf
  unfold Expr.leafShapes at h2
  simp at h1 h2
  omega

theorem zipmap_getElem {α β γ : Type _} (F : α × β → γ) :
    ∀ (l : List α) (l2 : List β) (k : Nat) (a : α), l.length = l2.length →
    l[k]? = some a →
    ∃ b, l2[k]? = some b ∧ ((l.zip l2).map F)[k]? = some (F (a, b))
  | [], l2, k, a => by
    intro _ hk
    simp at hk
  | x :: l, [], k, a => by
    intro hlen _
    simp at hlen
  | x :: l, y :: l2, 0, a => by
    intro _ hk
    simp only [List.getElem?_cons_zero, Option.some.injEq] at hk
    subst hk
    exact ⟨y, by simp, by simp⟩
  | x :: l, y :: l2, k + 1, a => by
    intro hlen hk
    simp only [List.getElem?_cons_succ] at hk
    obtain ⟨b, hb1, hb2⟩ := zipmap_getElem F l l2 k a (by simpa using hlen) hk
    refine ⟨b, by simpa using hb1, ?_⟩
    simpa [List.zip_cons_cons] using hb2

theorem Expr.skel_getElem {E F : Expr} {k : Nat} {h : Handle}
    (hsk : F.skel = E.skel) (hk : E.hs[k]? = some h) :
    ∃ g, F.hs[k]? = some g ∧ g.skel = h.skel := by
  have h1 : F.skel[k]? = some h.skel := by
    rw [hsk]
    unfold Expr.skel
    rw [List.getElem?_map, hk]
    rfl
  unfold Expr.skel at h1
  rw [List.getElem?_map] at h1
  rcases hg : F.hs[k]? with _ | g
  · rw [hg] at h1; simp at h1
  · rw [hg] at h1
    simp only [Option.map_some', Option.some.injEq] at h1
    exact ⟨g, rfl, h1⟩

theorem Expr.evalAtAux_getElem {E : Expr} {Lf : List (List Nat)} {c : List Nat}
    {k : Nat} {h : Handle} (G : E.GOOD Lf) (hb : inBounds c E.dims = true)
    (hk : E.hs[k]? = some h) :
    ∃ w, (E.wsAt c)[k]? = some w ∧
      (E.stepA c).hs[k]? = some (if h.out then
        { h with val := h.val.setPath (Handle.path E.rank c h) w } else h) := by
  have hchar := Expr.evalAtAux_char c E Lf G hb
  have hlen : E.hs.length = (E.wsAt c).length := (Expr.wsAt_length G hb).symm
  obtain ⟨w, hw, hzip⟩ := zipmap_getElem
    (fun p => if p.1.out then
      { p.1 with val := p.1.val.setPath (Handle.path E.rank c p.1) p.2 } else p.1)
    E.hs (E.wsAt c) k h hlen hk
  refine ⟨w, hw, ?_⟩
  have hstep : E.stepA c = Expr.mk E.f ((E.hs.zip (E.wsAt c)).map
      (fun p => if p.1.out then
        { p.1 with val := p.1.val.setPath (Handle.path E.rank c p.1) p.2 }
        else p.1)) := congrArg Prod.snd hchar
  rw [hstep]
  exact hzip

/-- The dereference path of a handle depends only on the skeleton, so it is
stable across evaluation (writes change values, never shapes). -/
theorem Expr.path_congr : ∀ (c : List Nat) (E F : Expr) (Lf : List (List Nat))
    (k : Nat) (h g : Handle), E.GOOD Lf → inBounds c E.dims = true →
    F.hwf → F.skel = E.skel → E.hs[k]? = some h → F.hs[k]? = some g →
    Handle.path F.rank c g = Handle.path E.rank c h
  | [], E, F, Lf, k, h, g => by
    intro _ _ _ _ _ _
    rfl
  | i :: c, E, F, Lf, k, h, g => by
    intro G hb hFw hsk hkE hkF
    have hr : E.rank ≠ 0 := by
      intro h0
      rw [Expr.dims_nil_of_rank0 h0] at hb
      simp [inBounds] at hb
    obtain ⟨ds, hdims⟩ := Expr.dims_head hr
    rw [hdims] at hb
    obtain ⟨hi, hbc⟩ := inBounds_cons_iff.mp hb
    have WF : F.WFC := Expr.wfc_of_skel G.wfc hFw hsk
    have hrkF : F.rank = E.rank := Expr.rank_of_skel G.wfc.hw hFw hsk
    have hszF : F.size = E.size := Expr.size_of_skel G.wfc.hw hFw hsk
    have hmemE : h ∈ E.hs := List.getElem?_mem hkE
    have hmemF : g ∈ F.hs := List.getElem?_mem hkF
    have hskhg : g.skel = h.skel := by
      obtain ⟨g2, hg2, hg2sk⟩ := Expr.skel_getElem hsk hkE
      rw [hkF] at hg2
      simp only [Option.some.injEq] at hg2
      rw [← hg2] at hg2sk
      exact hg2sk
    have hcons : g.consume E.rank = h.consume E.rank :=
      Handle.consume_skel_eq (hFw g hmemF) (G.wfc.hw h hmemE) hskhg E.rank
    have hcidx : ∀ j, g.cidx j = h.cidx j := fun j =>
      Handle.cidx_congr (Handle.size_skel_eq (hFw g hmemF) (G.wfc.hw h hmemE) hskhg) j
    have Gsub := G.sub hr hi
    have hbsub : inBounds c (E.sub i).dims = true := by
      rw [Expr.dims_sub G.wfc hr hi G.pos, hdims]
      exact hbc
    have hFsub : (F.sub i).hwf := (Expr.sub_skel WF (by omega) (by omega)).2
    have hFsubsk : (F.sub i).skel = (E.sub i).skel := by
      rw [(Expr.sub_skel WF (by omega) (by omega)).1,
        (Expr.sub_skel G.wfc hr hi).1, hsk, hrkF]
    have hkEsub : (E.sub i).hs[k]? = some (h.index E.rank i) := by
      rw [Expr.sub_hs, List.getElem?_map, hkE]
      rfl
    have hkFsub : (F.sub i).hs[k]? = some (g.index F.rank i) := by
      rw [Expr.sub_hs, List.getElem?_map, hkF]
      rfl
    have IH := Expr.path_congr c (E.sub i) (F.sub i) Lf k (h.index E.rank i)
      (g.index F.rank i) Gsub hbsub hFsub hFsubsk hkEsub hkFsub
    have hrkEsub : (E.sub i).rank = E.rank - 1 := Expr.rank_sub G.wfc hr hi
    have hrkFsub : (F.sub i).rank = E.rank - 1 := by
      rw [Expr.rank_sub WF (by omega) (by omega), hrkF]
    rw [hrkEsub, hrkFsub] at IH
    rw [Handle.path_cons, Handle.path_cons, hrkF, hcons]
    by_cases hc : h.consume E.rank = true
    · rw [if_pos hc, if_pos hc, hcidx]
      have hidxg : g.index E.rank i = g.index F.rank i := by rw [hrkF]
      rw [hidxg, IH]
    · rw [if_neg hc, if_neg hc]
      have hidxg : g.index F.rank i = g := Handle.index_skip (by rw [hrkF, hcons]; exact hc)
      have hidxh : h.index E.rank i = h := Handle.index_skip hc
      rw [hidxg, hidxh] at IH
      exact IH

theorem Handle.eff_skel_eq {h g : Handle} (hw : h.val.wf = true)
    (hg : g.val.wf = true) (hsk : g.skel = h.skel) : g.eff = h.eff := by
  obtain ⟨hsh, hpr, -⟩ := Handle.skel_parts hsk
  rw [Handle.eff_of_wf hw, Handle.eff_of_wf hg, hsh, hpr]

theorem Expr.stepA_pres {E : Expr} {Lf : List (List Nat)} {c : List Nat}
    (G : E.GOOD Lf) (hb : inBounds c E.dims = true) :
    (E.stepA c).f = E.f ∧ (E.stepA c).hwf ∧ (E.stepA c).skel = E.skel ∧
    (E.stepA c).GOOD Lf := by
  have := Expr.evalAtAux_pres c E Lf G hb
  exact ⟨this.1, this.2.1, this.2.2, G.ofSkel this.2.1 this.2.2 this.1⟩

/-- The write sequence a multi-coordinate evaluation applies to the `k`-th
handle: one (path, value) pair per coordinate, in order. -/
def Expr.opsAt : Expr → List (List Nat) → Nat → List (List Nat × Obj)
  | _, [], _ => []
  | E, c :: cs, k =>
    (Handle.path E.rank c (E.hs.getD k (Handle.mk (.int 0) 0 false)),
      (E.wsAt c).getD k (.int 0)) :: Expr.opsAt (E.stepA c) cs k

theorem List.getD_of_getElem {α : Type _} {l : List α} {k : Nat} {a d : α}
    (h : l[k]? = some a) : l.getD k d = a := by
  rw [List.getD_eq_getElem?_getD, h]
  rfl

/-- Closed form of iterated coordinate evaluation, per handle: a non-output
handle is untouched; an output handle receives exactly one path-write per
coordinate, in order. -/
theorem Expr.foldAt_ops : ∀ (cs : List (List Nat)) (E : Expr)
    (Lf : List (List Nat)) (k : Nat) (h : Handle), E.GOOD Lf →
    (∀ c ∈ cs, inBounds c E.dims = true) → E.hs[k]? = some h →
    (E.foldAt cs).hs[k]? = some (if h.out then
      { h with val := applyOps h.val (Expr.opsAt E cs k) } else h) ∧
    (Expr.opsAt E cs k).map Prod.fst = cs.map (fun c => Handle.path E.rank c h) ∧
    opsOk h.val.shape h.eff (Expr.opsAt E cs k)
  | [], E, Lf, k, h => by
    intro G hb hk
    refine ⟨?_, rfl, by intro op hop; cases hop⟩
    show E.hs[k]? = _
    rw [hk]
    by_cases ho : h.out = true
    · rw [if_pos ho]
      rfl
    · rw [if_neg ho]
  | c :: cs, E, Lf, k, h => by
    intro G hb hk
    have hbc : inBounds c E.dims = true := hb c (by simp)
    obtain ⟨w, hw, hk1⟩ := Expr.evalAtAux_getElem G hbc hk
    set h1 : Handle := if h.out then
      { h with val := h.val.setPath (Handle.path E.rank c h) w } else h with hh1
    have hpres := Expr.stepA_pres G hbc
    have G1 : (E.stepA c).GOOD Lf := hpres.2.2.2
    have hb1 : ∀ c' ∈ cs, inBounds c' (E.stepA c).dims = true := by
      intro c' hc'
      rw [Expr.dims_of_skel G.wfc G1.wfc hpres.2.2.1 G.pos]
      exact hb c' (by simp [hc'])
    have IH := Expr.foldAt_ops cs (E.stepA c) Lf k h1 G1 hb1 hk1
    have hsk1 : h1.skel = h.skel := by
      obtain ⟨g, hg, hgsk⟩ := Expr.skel_getElem hpres.2.2.1 hk
      rw [hk1] at hg
      simp only [Option.some.injEq] at hg
      rw [← hg] at hgsk
      exact hgsk
    have hwfh : h.val.wf = true := G.wfc.hw h (List.getElem?_mem hk)
    have hwfh1 : h1.val.wf = true := G1.wfc.hw h1 (List.getElem?_mem hk1)
    have heff1 : h1.eff = h.eff := Handle.eff_skel_eq hwfh hwfh1 hsk1
    have hsh1 : h1.val.shape = h.val.shape := (Handle.skel_parts hsk1).1
    have hout1 : h1.out = h.out := (Handle.skel_parts hsk1).2.2
    have hgetD : E.hs.getD k (Handle.mk (.int 0) 0 false) = h :=
      List.getD_of_getElem hk
    have hwD : (E.wsAt c).getD k (.int 0) = w := List.getD_of_getElem hw
    have hops : Expr.opsAt E (c :: cs) k =
        (Handle.path E.rank c h, w) :: Expr.opsAt (E.stepA c) cs k := by
      rw [show Expr.opsAt E (c :: cs) k =
        (Handle.path E.rank c (E.hs.getD k (Handle.mk (.int 0) 0 false)),
          (E.wsAt c).getD k (.int 0)) :: Expr.opsAt (E.stepA c) cs k from rfl,
        hgetD, hwD]
    have hpaths1 : cs.map (fun c' => Handle.path (E.stepA c).rank c' h1) =
        cs.map (fun c' => Handle.path E.rank c' h) := by
      apply List.map_congr_left
      intro c' hc'
      exact Expr.path_congr c' E (E.stepA c) Lf k h h1 G (hb c' (by simp [hc']))
        hpres.2.1 hpres.2.2.1 hk hk1
    have hfold : E.foldAt (c :: cs) = (E.stepA c).foldAt cs := rfl
    obtain ⟨hokc, hlenc⟩ := Expr.path_ok c E Lf G hbc h (List.getElem?_mem hk)
    have hwshape : w.hasShape (h.val.shape.drop h.eff) = true := by
      have hws := Expr.wsAt_shapes G hbc
      have hw1 : ((E.wsAt c).map Obj.shape)[k]? = some w.shape := by
        rw [List.getElem?_map, hw]
        rfl
      rw [hws.1] at hw1
      have hL : Lf[k]? = some (h.val.shape.drop h.eff) := by
        rw [← G.leaf]
        exact Expr.leafShapes_getElem hk
      rw [hL] at hw1
      simp only [Option.some.injEq] at hw1
      have hwwf : w.wf = true := hws.2 w (List.getElem?_mem hw)
      rw [hw1]
      exact Obj.wf_hasShape hwwf
    refine ⟨?_, ?_, ?_⟩
    · rw [hfold, IH.1, hops]
      by_cases ho : h.out = true
      · rw [if_pos ho]
        have ho1 : h1.out = true := by rw [hout1]; exact ho
        rw [if_pos ho1]
        have hval1 : h1.val = h.val.setPath (Handle.path E.rank c h) w := by
          rw [hh1, if_pos ho]
        congr 1
        show Handle.mk (applyOps h1.val (Expr.opsAt (E.stepA c) cs k)) h1.pr h1.out =
          Handle.mk (applyOps h.val ((Handle.path E.rank c h, w) ::
            Expr.opsAt (E.stepA c) cs k)) h.pr h.out
        rw [hval1, (Handle.skel_parts hsk1).2.1, hout1]
        rfl
      · rw [if_neg ho]
        have ho1 : ¬h1.out = true := by rw [hout1]; exact ho
        rw [if_neg ho1]
        have : h1 = h := by rw [hh1, if_neg ho]
        rw [this]
    · rw [hops]
      simp only [List.map_cons]
      rw [IH.2.1, hpaths1]
    · rw [hops]
      intro op hop
      rcases List.mem_cons.mp hop with rfl | hop2
      · exact ⟨hokc, hlenc, hwshape⟩
      · have := IH.2.2 op hop2
        rw [hsh1, heff1] at this
        exact this

/-! ### Top-level evaluation equivalences -/

/-- All coordinates of the expression, row-major. -/
def Expr.allCoords (E : Expr) : List (List Nat) := coordsOf (E.dims.map List.range)

/-- The strided coordinate set of `eval<N>`. -/
def Expr.stridedCoords (E : Expr) (N : Nat) : List (List Nat) :=
  coordsOf (stridedLists N E.dims)

theorem Expr.eval_eq_foldAt {E : Expr} {Lf : List (List Nat)} (G : E.GOOD Lf) :
    E.eval = E.foldAt E.allCoords := by
  unfold Expr.eval Expr.allCoords
  rw [Expr.evalAux_eq_evalOver E.rank E Lf G rfl]
  exact Expr.evalOver_eq_foldAt (E.dims.map List.range) E Lf G
    (by simp [Expr.dims_length]) (rangesInBounds E.dims)

theorem Expr.evalN_eq_foldAt {E : Expr} {Lf : List (List Nat)} {N : Nat}
    (G : E.GOOD Lf) (hdvd : E.innermost % N = 0) :
    E.evalN N = some (E.foldAt (E.stridedCoords N)) := by
  unfold Expr.evalN Expr.stridedCoords
  rw [if_pos hdvd, Expr.evalNAux_eq_evalOver E.rank N E Lf G rfl,
    Expr.evalOver_eq_foldAt (stridedLists N E.dims) E Lf G
      (by rw [stridedLists_length, Expr.dims_length]) (stridedLists_bounds N E.dims)]

/-- The cumulative `eval_at` iteration: every call must succeed. -/
def Expr.foldEvalAt : Expr → List (List Nat) → Option Expr
  | E, [] => some E
  | E, c :: cs =>
    match E.evalAt c with
    | none => none
    | some r => Expr.foldEvalAt r.2 cs

theorem Expr.foldEvalAt_eq : ∀ (cs : List (List Nat)) (E : Expr)
    (Lf : List (List Nat)), E.GOOD Lf → (∀ c ∈ cs, inBounds c E.dims = true) →
    E.foldEvalAt cs = some (E.foldAt cs)
  | [], E, Lf => by
    intro _ _
    rfl
  | c :: cs, E, Lf => by
    intro G hb
    have hbc : inBounds c E.dims = true := hb c (by simp)
    have hat : E.evalAt c = some (Expr.evalAtAux c E) := by
      unfold Expr.evalAt
      rw [if_pos hbc]
    show (match E.evalAt c with
      | none => none
      | some r => Expr.foldEvalAt r.2 cs) = _
    rw [hat]
    have hpres := Expr.stepA_pres G hbc
    have hb1 : ∀ c' ∈ cs, inBounds c' (E.stepA c).dims = true := by
      intro c' hc'
      rw [Expr.dims_of_skel G.wfc hpres.2.2.2.wfc hpres.2.2.1 G.pos]
      exact hb c' (by simp [hc'])
    exact Expr.foldEvalAt_eq cs (E.stepA c) Lf hpres.2.2.2 hb1

/-! ### Idempotence machinery -/

/-- The callable's result depends only on the values of non-output
arguments (the "inputs"); a callable that reads one of its outputs does not
satisfy this, and then a second evaluation may legitimately differ. -/
def Expr.readsOnlyIns (E : Expr) : Prop :=
  ∀ vs vs' : List Obj, vs.length = E.hs.length → vs'.length = E.hs.length →
    (∀ (k : Nat) (h : Handle), E.hs[k]? = some h → h.out = false →
      vs[k]? = vs'[k]?) →
    E.f vs = E.f vs'

/-- `S` agrees with `E` on everything except possibly output values. -/
def Expr.sameIns (E S : Expr) : Prop :=
  S.f = E.f ∧ S.skel = E.skel ∧ S.hwf ∧
  ∀ (k : Nat) (h g : Handle), E.hs[k]? = some h → S.hs[k]? = some g →
    h.out = false → g.val = h.val

theorem Expr.hs_length_of_skel {E S : Expr} (hsk : S.skel = E.skel) :
    S.hs.length = E.hs.length := by
  have := congrArg List.length hsk
  unfold Expr.skel at this
  simpa using this

theorem Expr.readsOnlyIns_of_skel {E S : Expr} (hf : S.f = E.f)
    (hsk : S.skel = E.skel) (hro : E.readsOnlyIns) : S.readsOnlyIns := by
  intro vs vs' hl hl' hagree
  rw [hf]
  have hlen := Expr.hs_length_of_skel hsk
  apply hro vs vs' (by omega) (by omega)
  intro k h hk ho
  obtain ⟨g, hg, hgsk⟩ := Expr.skel_getElem hsk hk
  have hgo : g.out = false := by
    have := (Handle.skel_parts hgsk).2.2
    rw [this, ho]
  exact hagree k g hg hgo

theorem Expr.vsAt_sameIns {E S : Expr} {Lf : List (List Nat)} {c : List Nat}
    (G : E.GOOD Lf) (hb : inBounds c E.dims = true) (hSI : E.sameIns S)
    {k : Nat} {h : Handle} (hk : E.hs[k]? = some h) (ho : h.out = false) :
    (S.vsAt c)[k]? = (E.vsAt c)[k]? := by
  obtain ⟨hf, hsk, hw, hvals⟩ := hSI
  obtain ⟨g, hg, -⟩ := Expr.skel_getElem hsk hk
  have hval : g.val = h.val := hvals k h g hk hg ho
  have hpath : Handle.path S.rank c g = Handle.path E.rank c h :=
    Expr.path_congr c E S Lf k h g G hb hw hsk hk hg
  unfold Expr.vsAt
  rw [List.getElem?_map, List.getElem?_map, hk, hg]
  simp only [Option.map_some']
  rw [hval, hpath]

theorem Expr.wsAt_sameIns {E S : Expr} {Lf : List (List Nat)} {c : List Nat}
    (G : E.GOOD Lf) (hb : inBounds c E.dims = true) (hSI : E.sameIns S)
    (hro : E.readsOnlyIns) : E.f (S.vsAt c) = E.f (E.vsAt c) := by
  have hlen := Expr.hs_length_of_skel hSI.2.1
  apply hro
  · unfold Expr.vsAt
    simp [hlen]
  · unfold Expr.vsAt
    simp
  · intro k h hk ho
    exact Expr.vsAt_sameIns G hb hSI hk ho

theorem Expr.sameIns_stepA {E S : Expr} {Lf : List (List Nat)} {c : List Nat}
    (G : E.GOOD Lf) (hb : inBounds c E.dims = true) (hSI : E.sameIns S)
    (hro : E.readsOnlyIns) : (E.stepA c).sameIns (S.stepA c) := by
  obtain ⟨hf, hsk, hw, hvals⟩ := hSI
  have GS : S.GOOD Lf := G.ofSkel hw hsk hf
  have hbS : inBounds c S.dims = true := by
    rw [Expr.dims_of_skel G.wfc GS.wfc hsk G.pos]
    exact hb
  have hpE := Expr.stepA_pres G hb
  have hpS := Expr.stepA_pres GS hbS
  refine ⟨by rw [hpS.1, hpE.1, hf], by rw [hpS.2.2.1, hpE.2.2.1, hsk], hpS.2.1, ?_⟩
  intro k h2 g2 hk2 hg2 ho2
  have hlen := Expr.hs_length_of_skel hsk
  rcases hk : E.hs[k]? with _ | h
  · have hlenE : (E.stepA c).hs.length = E.hs.length :=
      Expr.hs_length_of_skel hpE.2.2.1
    have : k ≥ E.hs.length := by
      by_contra hlt
      rw [List.getElem?_eq_getElem (by omega)] at hk
      cases hk
    rw [List.getElem?_eq_none (by omega)] at hk2
    cases hk2
  · obtain ⟨g, hg, hgsk⟩ := Expr.skel_getElem hsk hk
    obtain ⟨wE, hwE, hkE1⟩ := Expr.evalAtAux_getElem G hb hk
    obtain ⟨wS, hwS, hkS1⟩ := Expr.evalAtAux_getElem GS hbS hg
    rw [hkE1] at hk2
    rw [hkS1] at hg2
    simp only [Option.some.injEq] at hk2 hg2
    have hout : g.out = h.out := (Handle.skel_parts hgsk).2.2
    have hhout : h.out = false := by
      rw [← hk2] at ho2
      by_cases hht : h.out = true
      · rw [if_pos hht] at ho2
        simpa [hht] using ho2
      · simpa using hht
    have hgout : g.out = false := by rw [hout, hhout]
    have hne : ¬ (h.out = true) := by simp [hhout]
    have gne : ¬ (g.out = true) := by simp [hgout]
    rw [← hk2, ← hg2, if_neg hne, if_neg gne]
    exact hvals k h g hk hg hhout

theorem Expr.opsAt_congr : ∀ (cs : List (List Nat)) (E S : Expr)
    (Lf : List (List Nat)) (k : Nat), E.GOOD Lf →
    (∀ c ∈ cs, inBounds c E.dims = true) → E.sameIns S → E.readsOnlyIns →
    Expr.opsAt S cs k = Expr.opsAt E cs k
  | [], E, S, Lf, k => by
    intro _ _ _ _
    rfl
  | c :: cs, E, S, Lf, k => by
    intro G hb hSI hro
    obtain ⟨hf, hsk, hw, hvals⟩ := hSI
    have GS : S.GOOD Lf := G.ofSkel hw hsk hf
    have hbc : inBounds c E.dims = true := hb c (by simp)
    have hbS : inBounds c S.dims = true := by
      rw [Expr.dims_of_skel G.wfc GS.wfc hsk G.pos]
      exact hbc
    have hws : S.wsAt c = E.wsAt c := by
      unfold Expr.wsAt
      rw [hf, Expr.wsAt_sameIns G hbc ⟨hf, hsk, hw, hvals⟩ hro]
    have hlen := Expr.hs_length_of_skel hsk
    have hpath : Handle.path S.rank c (S.hs.getD k (Handle.mk (.int 0) 0 false)) =
        Handle.path E.rank c (E.hs.getD k (Handle.mk (.int 0) 0 false)) := by
      rcases hk : E.hs[k]? with _ | h
      · have hnone : k ≥ E.hs.length := by
          by_contra hlt
          rw [List.getElem?_eq_getElem (by omega)] at hk
          cases hk
        have hgD : E.hs.getD k (Handle.mk (.int 0) 0 false) =
            Handle.mk (.int 0) 0 false := by
          rw [List.getD_eq_getElem?_getD, List.getElem?_eq_none (by omega)]
          rfl
        have hgDS : S.hs.getD k (Handle.mk (.int 0) 0 false) =
            Handle.mk (.int 0) 0 false := by
          rw [List.getD_eq_getElem?_getD, List.getElem?_eq_none (by omega)]
          rfl
        rw [hgD, hgDS, Expr.rank_of_skel G.wfc.hw hw hsk]
      · obtain ⟨g, hg, -⟩ := Expr.skel_getElem hsk hk
        rw [List.getD_of_getElem hk, List.getD_of_getElem hg]
        exact Expr.path_congr c E S Lf k h g G hbc hw hsk hk hg
    have hSI2 : (E.stepA c).sameIns (S.stepA c) :=
      Expr.sameIns_stepA G hbc ⟨hf, hsk, hw, hvals⟩ hro
    have hpE := Expr.stepA_pres G hbc
    have hro2 : (E.stepA c).readsOnlyIns :=
      Expr.readsOnlyIns_of_skel hpE.1 hpE.2.2.1 hro
    have hb2 : ∀ c' ∈ cs, inBounds c' (E.stepA c).dims = true := by
      intro c' hc'
      rw [Expr.dims_of_skel G.wfc hpE.2.2.2.wfc hpE.2.2.1 G.pos]
      exact hb c' (by simp [hc'])
    have IH := Expr.opsAt_congr cs (E.stepA c) (S.stepA c) Lf k hpE.2.2.2 hb2
      hSI2 hro2
    show (Handle.path S.rank c (S.hs.getD k (Handle.mk (.int 0) 0 false)),
        (S.wsAt c).getD k (.int 0)) :: Expr.opsAt (S.stepA c) cs k = _
    rw [hpath, hws, IH]
    rfl

theorem Handle.upd_eq_mk (h : Handle) (x : Obj) :
    ({ h with val := x } : Handle) = Handle.mk x h.pr h.out := rfl

theorem Expr.sameIns_foldAt {E : Expr} {Lf cs : List (List Nat)}
    (G : E.GOOD Lf) (hb : ∀ c ∈ cs, inBounds c E.dims = true) :
    E.sameIns (E.foldAt cs) := by
  have hp := Expr.foldAt_pres G hb
  refine ⟨hp.1, hp.2.2, hp.2.1, ?_⟩
  intro k h g hk hg ho
  have hne : ¬ (h.out = true) := by simp [ho]
  have hthis := (Expr.foldAt_ops cs E Lf k h G hb hk).1
  rw [if_neg hne, hg] at hthis
  simp only [Option.some.injEq] at hthis
  rw [hthis]

/-- Iterated coordinate evaluation is idempotent: replaying the same
coordinate sequence on the already-evaluated expression changes nothing,
provided the callable reads only its non-output arguments. -/
theorem Expr.foldAt_idem {E : Expr} {Lf cs : List (List Nat)}
    (G : E.GOOD Lf) (hb : ∀ c ∈ cs, inBounds c E.dims = true)
    (hro : E.readsOnlyIns) :
    (E.foldAt cs).foldAt cs = E.foldAt cs := by
  have hp := Expr.foldAt_pres G hb
  have GF : (E.foldAt cs).GOOD Lf := G.ofSkel hp.2.1 hp.2.2 hp.1
  have hbF : ∀ c ∈ cs, inBounds c (E.foldAt cs).dims = true := by
    intro c hc
    rw [Expr.dims_of_skel G.wfc GF.wfc hp.2.2 G.pos]
    exact hb c hc
  have hpF := Expr.foldAt_pres GF hbF
  have hSI : E.sameIns (E.foldAt cs) := Expr.sameIns_foldAt G hb
  refine Expr.ext_fh hpF.1 ?_
  apply List.ext_getElem?
  intro k
  have hops : Expr.opsAt (E.foldAt cs) cs k = Expr.opsAt E cs k :=
    Expr.opsAt_congr cs E (E.foldAt cs) Lf k G hb hSI hro
  rcases hk : E.hs[k]? with _ | h
  · have hlenF : (E.foldAt cs).hs.length = E.hs.length :=
      Expr.hs_length_of_skel hp.2.2
    have hlenFF : ((E.foldAt cs).foldAt cs).hs.length = (E.foldAt cs).hs.length :=
      Expr.hs_length_of_skel hpF.2.2
    have hge : k ≥ E.hs.length := by
      by_contra hlt
      rw [List.getElem?_eq_getElem (by omega)] at hk
      cases hk
    rw [List.getElem?_eq_none (by omega), List.getElem?_eq_none (by omega)]
  · have hA := Expr.foldAt_ops cs E Lf k h G hb hk
    by_cases ho : h.out = true
    · have h1 := hA.1
      rw [if_pos ho, Handle.upd_eq_mk] at h1
      have hB := Expr.foldAt_ops cs (E.foldAt cs) Lf k
        (Handle.mk (applyOps h.val (Expr.opsAt E cs k)) h.pr h.out) GF hbF h1
      have hBout : (Handle.mk (applyOps h.val (Expr.opsAt E cs k))
          h.pr h.out).out = true := ho
      have hB1 := hB.1
      rw [if_pos hBout, Handle.upd_eq_mk] at hB1
      rw [hB1, h1]
      have hwfh : h.val.wf = true := G.wfc.hw h (List.getElem?_mem hk)
      have hsh : h.val.hasShape h.val.shape = true := Obj.wf_hasShape hwfh
      have hkle : h.eff ≤ h.val.shape.length := by
        rw [Handle.eff_of_wf hwfh]
        omega
      have hidem := applyOps_idem hsh hA.2.2 hkle
      show some (Handle.mk (applyOps (applyOps h.val (Expr.opsAt E cs k))
        (Expr.opsAt (E.foldAt cs) cs k)) h.pr h.out) = _
      rw [hops, hidem]
    · have h1 := hA.1
      rw [if_neg ho] at h1
      have hB := Expr.foldAt_ops cs (E.foldAt cs) Lf k h GF hbF h1
      have hB1 := hB.1
      rw [if_neg ho] at hB1
      rw [hB1, h1]

theorem Expr.allCoords_inBounds (E : Expr) :
    ∀ c ∈ E.allCoords, inBounds c E.dims = true :=
  coordsOf_inBounds (E.dims.map List.range) E.dims (rangesInBounds E.dims)

theorem Expr.eval_idem {E : Expr} {Lf : List (List Nat)}
    (G : E.GOOD Lf) (hro : E.readsOnlyIns) : E.eval.eval = E.eval := by
  have hb := Expr.allCoords_inBounds E
  have hp := Expr.foldAt_pres G hb
  have GF : (E.foldAt E.allCoords).GOOD Lf := G.ofSkel hp.2.1 hp.2.2 hp.1
  have hdims : (E.foldAt E.allCoords).dims = E.dims :=
    Expr.dims_of_skel G.wfc GF.wfc hp.2.2 G.pos
  have hco : (E.foldAt E.allCoords).allCoords = E.allCoords :=
    congrArg (fun ds => coordsOf (List.map List.range ds)) hdims
  rw [Expr.eval_eq_foldAt G, Expr.eval_eq_foldAt GF, hco]
  exact Expr.foldAt_idem G hb hro

/-- Modelled from the spec: copying an expression structurally copies the
handle sequence (each handle's value, parameter rank and output mode). -/
def Expr.copy (E : Expr) : Expr :=
  Expr.mk E.f (E.hs.map (fun h => Handle.mk h.val h.pr h.out))

theorem Expr.copy_eq (E : Expr) : E.copy = E := by
  refine Expr.ext_fh rfl ?_
  show E.hs.map (fun h => Handle.mk h.val h.pr h.out) = E.hs
  calc E.hs.map (fun h => Handle.mk h.val h.pr h.out)
      = E.hs.map id := by
        apply List.map_congr_left
        intro h _
        cases h
        rfl
    _ = E.hs := List.map_id E.hs

/-! ### Chained indexing (`operator[]` applied rank-many times) -/

/-- Modelled from the spec (§4.2 `operator[]`): apply `operator[]` once per
index.  A terminal (rank-0) result with indices still pending, or running
out of indices before the terminal case, has no meaning and is `none`; the
write-back wrapping expresses that the callable's side effects at the
terminal step land in the arrays the caller passed (aliasing). -/
def Expr.indexChain : Expr → List Nat → Option (Obj × Expr)
  | _, [] => none
  | E, [i] =>
    match E.indexOp i with
    | .inl _ => none
    | .inr r => some r
  | E, i :: j :: c =>
    match E.indexOp i with
    | .inl S =>
      match Expr.indexChain S (j :: c) with
      | none => none
      | some r => some (r.1, E.wb i r.2)
    | .inr _ => none

theorem Expr.indexChain_eq : ∀ (c : List Nat) (E : Expr)
    (Lf : List (List Nat)), E.GOOD Lf → E.rank = c.length → c ≠ [] →
    inBounds c E.dims = true →
    E.indexChain c = some (Expr.evalAtAux c E)
  | [], E, Lf => by
    intro _ _ hne _
    exact absurd rfl hne
  | [i], E, Lf => by
    intro G hrk _ hb
    have hr1 : E.rank = 1 := hrk
    have hop : E.indexOp i = .inr ((E.sub i).evalLeaf.1,
        E.wb i (E.sub i).evalLeaf.2) := by
      unfold Expr.indexOp
      rw [if_neg (by omega)]
    show (match E.indexOp i with
      | .inl _ => none
      | .inr r => some r) = _
    simp only [hop]
    rfl
  | i :: j :: c, E, Lf => by
    intro G hrk _ hb
    have hgt : 1 < E.rank := by
      rw [hrk]
      simp
    have hop : E.indexOp i = .inl (E.sub i) := by
      unfold Expr.indexOp
      rw [if_pos hgt]
    obtain ⟨ds, hdh⟩ := Expr.dims_head (E := E) (by omega)
    have hib : i < E.size ∧ inBounds (j :: c) E.dims.tail = true := by
      rw [hdh] at hb ⊢
      rw [inBounds_cons_iff] at hb
      exact ⟨hb.1, hb.2⟩
    have hsub : (E.sub i).GOOD Lf := G.sub (by omega) hib.1
    have hrks : (E.sub i).rank = (j :: c).length := by
      rw [Expr.rank_sub G.wfc (by omega) hib.1, hrk]
      simp
    have hbds : inBounds (j :: c) (E.sub i).dims = true := by
      rw [Expr.dims_sub G.wfc (by omega) hib.1 G.pos]
      exact hib.2
    have IH := Expr.indexChain_eq (j :: c) (E.sub i) Lf hsub hrks (by simp) hbds
    show (match E.indexOp i with
      | .inl S =>
        match Expr.indexChain S (j :: c) with
        | none => none
        | some r => some (r.1, E.wb i r.2)
      | .inr _ => none) = _
    simp only [hop, IH]
    rfl

/-! ### Pairwise characterization of broadcast validation -/

/-- The suffix of a shape that is still unconsumed when `r` dimensions
remain. -/
def suff (r : Nat) (s : List Nat) : List Nat := s.drop (s.length - r)

/-- Whether a shape covers the dimension with `r` dimensions remaining
(trailing alignment, parameter rank 0). -/
def shActive (r : Nat) (s : List Nat) : Bool :=
  decide (1 ≤ r) && decide (r ≤ s.length)

/-- The extent a shape offers at the dimension with `r` dimensions
remaining. -/
def extAt (r : Nat) (s : List Nat) : Nat := s.getD (s.length - r) 1

/-- The dimension's extent: maximum among covering shapes. -/
def dimMaxAt (r : Nat) (ss : List (List Nat)) : Nat :=
  ss.foldr (fun s m => if shActive r s then max (extAt r s) m else m) 0

/-- Validation of the single dimension with `r` dimensions remaining. -/
def levelOk (r : Nat) (ss : List (List Nat)) : Bool :=
  ss.all (fun s => !(shActive r s) ||
    (extAt r s == dimMaxAt r ss || extAt r s == 1))

theorem List.headD_drop : ∀ (s : List Nat) (k : Nat),
    (s.drop k).headD 1 = s.getD k 1
  | [], 0 => rfl
  | [], _ + 1 => rfl
  | _ :: _, 0 => rfl
  | _ :: s, k + 1 => List.headD_drop s k

theorem suff_length (r : Nat) (s : List Nat) :
    (suff r s).length = min r s.length := by
  unfold suff
  simp only [List.length_drop]
  omega

theorem activeDim_suff (r : Nat) (s : List Nat) :
    activeDim r (suff r s, 0) = shActive r s := by
  show (decide (r ≤ (suff r s).length) && decide (0 < (suff r s).length)) =
    (decide (1 ≤ r) && decide (r ≤ s.length))
  simp only [suff_length]
  by_cases h1 : r ≤ s.length
  · by_cases h2 : 1 ≤ r
    · rw [decide_eq_true (show r ≤ min r s.length by omega),
        decide_eq_true (show (0:Nat) < min r s.length by omega),
        decide_eq_true h2, decide_eq_true h1]
    · rw [decide_eq_false (show ¬ ((0:Nat) < min r s.length) by omega),
        decide_eq_false h2]
      simp
  · rw [decide_eq_false (show ¬ (r ≤ min r s.length) by omega),
      decide_eq_false h1]
    simp

theorem extOf_suff (r : Nat) (s : List Nat) :
    extOf (suff r s, 0) = extAt r s := by
  unfold extOf suff extAt
  simp only [List.headD_drop]

theorem stepDim_suff (r : Nat) (s : List Nat) :
    stepDim (r + 1) (suff (r + 1) s, 0) = (suff r s, 0) := by
  unfold stepDim
  rw [activeDim_suff]
  by_cases ha : shActive (r + 1) s = true
  · rw [if_pos ha]
    have hle : r + 1 ≤ s.length := by
      unfold shActive at ha
      simp at ha
      omega
    unfold suff
    simp only [Prod.mk.injEq, and_true]
    rw [List.tail_drop]
    congr 1
    omega
  · rw [if_neg ha]
    have hgt : s.length < r + 1 := by
      unfold shActive at ha
      simp at ha
      omega
    unfold suff
    simp only [Prod.mk.injEq, and_true]
    congr 1
    omega

theorem dimMax_suff (r : Nat) (ss : List (List Nat)) :
    dimMax r (ss.map (fun s => (suff r s, 0))) = dimMaxAt r ss := by
  unfold dimMax dimMaxAt
  rw [List.foldr_map]
  refine foldr_congr_mem (fun s _ m => ?_)
  rw [activeDim_suff, extOf_suff]

theorem all_map_congr {α β : Type _} (f : α → β) (p : β → Bool) (q : α → Bool)
    (l : List α) (h : ∀ a ∈ l, p (f a) = q a) : (l.map f).all p = l.all q := by
  induction l with
  | nil => rfl
  | cons a l ih =>
    show (p (f a) && _) = (q a && _)
    rw [h a (by simp), ih (fun a ha => h a (by simp [ha]))]

theorem levelOk_suff (r : Nat) (ss : List (List Nat)) :
    (ss.map (fun s => (suff r s, 0))).all (fun p => !(activeDim r p) ||
      (extOf p == dimMax r (ss.map (fun s => (suff r s, 0))) || extOf p == 1)) =
    levelOk r ss := by
  unfold levelOk
  refine all_map_congr _ _ _ ss (fun s _ => ?_)
  show (!(activeDim r (suff r s, 0)) ||
    (extOf (suff r s, 0) == dimMax r (ss.map (fun s => (suff r s, 0))) ||
      extOf (suff r s, 0) == 1)) = _
  rw [activeDim_suff, extOf_suff, dimMax_suff]

theorem checkDims_suff : ∀ (R : Nat) (ss : List (List Nat)),
    checkDims R (ss.map (fun s => (suff R s, 0))) = true ↔
    ∀ r, 1 ≤ r → r ≤ R → levelOk r ss = true
  | 0, ss => by
    constructor
    · intro _ r h1 h2
      omega
    · intro _
      rfl
  | R + 1, ss => by
    have hstep : (ss.map (fun s => (suff (R + 1) s, 0))).map (stepDim (R + 1)) =
        ss.map (fun s => (suff R s, 0)) := by
      rw [List.map_map]
      apply List.map_congr_left
      intro s _
      exact stepDim_suff R s
    show ((ss.map (fun s => (suff (R + 1) s, 0))).all _ &&
      checkDims R ((ss.map (fun s => (suff (R + 1) s, 0))).map (stepDim (R + 1)))) = true ↔ _
    rw [hstep, Bool.and_eq_true, levelOk_suff, checkDims_suff R ss]
    constructor
    · intro ⟨h1, h2⟩ r hr1 hr2
      rcases Nat.lt_or_ge r (R + 1) with hlt | hge
      · exact h2 r hr1 (by omega)
      · have : r = R + 1 := by omega
        rw [this]
        exact h1
    · intro h
      exact ⟨h (R + 1) (by omega) (by omega), fun r h1 h2 => h r h1 (by omega)⟩

theorem extAt_mem {r : Nat} {s : List Nat} (ha : shActive r s = true) :
    extAt r s ∈ s := by
  unfold shActive at ha
  simp only [Bool.and_eq_true, decide_eq_true_eq] at ha
  unfold extAt
  rw [List.getD_eq_getElem s 1 (show s.length - r < s.length by omega)]
  exact List.getElem_mem _

theorem dimMaxAt_ge {r : Nat} {s : List Nat} (ha : shActive r s = true) :
    ∀ (ss : List (List Nat)), s ∈ ss → extAt r s ≤ dimMaxAt r ss
  | [], hm => absurd hm (List.not_mem_nil s)
  | a :: l, hm => by
    show extAt r s ≤
      (if shActive r a then max (extAt r a) (dimMaxAt r l) else dimMaxAt r l)
    rcases List.mem_cons.mp hm with rfl | hm
    · rw [if_pos ha]
      exact Nat.le_max_left _ _
    · have := dimMaxAt_ge ha l hm
      by_cases hac : shActive r a = true
      · rw [if_pos hac]
        exact le_trans this (Nat.le_max_right _ _)
      · rw [if_neg hac]
        exact this

theorem dimMaxAt_le {r b : Nat} :
    ∀ (ss : List (List Nat)),
    (∀ s ∈ ss, shActive r s = true → extAt r s ≤ b) → dimMaxAt r ss ≤ b
  | [], _ => Nat.zero_le b
  | a :: l, h => by
    show (if shActive r a then max (extAt r a) (dimMaxAt r l) else dimMaxAt r l) ≤ b
    have hl := dimMaxAt_le l (fun s hs => h s (by simp [hs]))
    by_cases hac : shActive r a = true
    · rw [if_pos hac]
      exact max_le (h a (by simp) hac) hl
    · rw [if_neg hac]
      exact hl

theorem levelOk_iff_pairwise {r : Nat} {ss : List (List Nat)}
    (hpos : ∀ s ∈ ss, ∀ e ∈ s, 1 ≤ e) :
    levelOk r ss = true ↔ ∀ a ∈ ss, ∀ b ∈ ss, shActive r a = true →
      shActive r b = true →
      extAt r a = extAt r b ∨ extAt r a = 1 ∨ extAt r b = 1 := by
  unfold levelOk
  rw [List.all_eq_true]
  constructor
  · intro h a ha b hb hac hbc
    have h1 := h a ha
    have h2 := h b hb
    rw [hac] at h1
    rw [hbc] at h2
    simp only [Bool.not_true, Bool.false_or, Bool.or_eq_true, beq_iff_eq] at h1 h2
    rcases h1 with h1 | h1
    · rcases h2 with h2 | h2
      · left
        rw [h1, h2]
      · right; right
        exact h2
    · right; left
      exact h1
  · intro h s hs
    by_cases hac : shActive r s = true
    · rw [hac]
      simp only [Bool.not_true, Bool.false_or, Bool.or_eq_true, beq_iff_eq]
      by_cases h1 : extAt r s = 1
      · right
        exact h1
      · left
        refine Nat.le_antisymm (dimMaxAt_ge hac ss hs) (dimMaxAt_le ss ?_)
        intro t ht htc
        rcases h s hs t ht hac htc with he | he | he
        · omega
        · exact absurd he h1
        · have := hpos s hs (extAt r s) (extAt_mem hac)
          omega
    · simp only [Bool.not_eq_true] at hac
      rw [hac]
      simp

/-- Modelled from the spec (amended §3 invariant): pairwise broadcast
compatibility with dimensions aligned from the innermost — at every shared
trailing depth the two extents are equal or one of them is 1. -/
def trailingCompat (a b : List Nat) : Bool :=
  (List.range (min a.length b.length)).all (fun d =>
    extAt (d + 1) a == extAt (d + 1) b || extAt (d + 1) a == 1 ||
    extAt (d + 1) b == 1)

/-- Pairwise broadcast compatibility of a shape set. -/
def bcastCompat (ss : List (List Nat)) : Bool :=
  ss.all (fun a => ss.all (fun b => trailingCompat a b))

theorem shActive_iff {r : Nat} {s : List Nat} :
    shActive r s = true ↔ 1 ≤ r ∧ r ≤ s.length := by
  unfold shActive
  simp

theorem bcastCompat_iff_levels {ss : List (List Nat)} {R : Nat}
    (hpos : ∀ s ∈ ss, ∀ e ∈ s, 1 ≤ e) (hR : ∀ s ∈ ss, s.length ≤ R) :
    bcastCompat ss = true ↔ ∀ r, 1 ≤ r → r ≤ R → levelOk r ss = true := by
  unfold bcastCompat trailingCompat
  simp only [List.all_eq_true, List.mem_range]
  constructor
  · intro h r _ _
    rw [levelOk_iff_pairwise hpos]
    intro a ha b hb hac hbc
    rw [shActive_iff] at hac hbc
    have := h a ha b hb (r - 1) (by omega)
    simp only [Bool.or_eq_true, beq_iff_eq] at this
    have hr1 : r - 1 + 1 = r := by omega
    rw [hr1] at this
    tauto
  · intro h a ha b hb d hd
    have hr1 : 1 ≤ d + 1 := by omega
    have hr2 : d + 1 ≤ R := by
      have := hR a ha
      omega
    have := (levelOk_iff_pairwise hpos).mp (h (d + 1) hr1 hr2) a ha b hb
      (shActive_iff.mpr (by omega)) (shActive_iff.mpr (by omega))
    simp only [Bool.or_eq_true, beq_iff_eq]
    tauto

theorem mkExpr_isSome_iff_bcast {f : List Obj → Obj × List Obj}
    {hs : List Handle} (hw : ∀ h ∈ hs, h.val.wf = true)
    (hpr : ∀ h ∈ hs, h.pr = 0)
    (hpos : ∀ h ∈ hs, ∀ e ∈ h.val.shape, 1 ≤ e) :
    (mkExpr f hs).isSome = true ↔
      bcastCompat (hs.map (fun h => h.val.shape)) = true := by
  have hposs : ∀ s ∈ hs.map (fun h => h.val.shape), ∀ e ∈ s, 1 ≤ e := by
    intro s hsm
    simp only [List.mem_map] at hsm
    obtain ⟨h, hm, rfl⟩ := hsm
    exact hpos h hm
  have heffs : ∀ h ∈ hs, Handle.eff h = h.val.shape.length := by
    intro h hm
    rw [Handle.eff_of_wf (hw h hm), hpr h hm]
    omega
  have hR : ∀ s ∈ hs.map (fun h => h.val.shape),
      s.length ≤ (Expr.mk f hs).rank := by
    intro s hsm
    simp only [List.mem_map] at hsm
    obtain ⟨h, hm, rfl⟩ := hsm
    rw [← heffs h hm]
    exact Expr.eff_le_rank (E := Expr.mk f hs) hm
  have hmap : hs.map Handle.sh =
      (hs.map (fun h => h.val.shape)).map
        (fun s => (suff (Expr.mk f hs).rank s, 0)) := by
    rw [List.map_map]
    apply List.map_congr_left
    intro h hm
    show (h.val.shape, h.pr) = (suff (Expr.mk f hs).rank h.val.shape, 0)
    have hsuf : suff (Expr.mk f hs).rank h.val.shape = h.val.shape := by
      unfold suff
      have := hR h.val.shape (List.mem_map_of_mem _ hm)
      rw [Nat.sub_eq_zero_of_le this]
      exact List.drop_zero _
    rw [hsuf, hpr h hm]
  have hwall : hs.all (fun h => h.val.wf) = true := by
    rw [List.all_eq_true]
    exact fun h hm => hw h hm
  have hmk : (mkExpr f hs).isSome =
      (hs.all (fun h => h.val.wf) &&
        checkDims (Expr.mk f hs).rank (hs.map Handle.sh)) := by
    unfold mkExpr
    by_cases hc : (hs.all (fun h => h.val.wf) &&
        checkDims (Expr.mk f hs).rank (hs.map Handle.sh)) = true
    · rw [if_pos hc, hc]
      rfl
    · rw [if_neg hc]
      simp only [Bool.not_eq_true] at hc
      rw [hc]
      rfl
  rw [hmk, hwall, Bool.true_and, hmap,
    checkDims_suff (Expr.mk f hs).rank (hs.map (fun h => h.val.shape))]
  exact (bcastCompat_iff_levels hposs hR).symm

/-! ### The compile-time rank trait -/

/-- The compile-time type grammar over which the rank trait is defined
(the types exercised by the `obj_rank_v` assertions). -/
inductive CType where
  | void
  | int
  | ref : CType → CType
  | carray : CType → CType
  | vector : CType → CType
  | arrayN : CType → CType
  | setT : CType → CType
  | mapT : CType → CType → CType
  | uniquePtr : CType → CType
  | sharedPtr : CType → CType
  | expr : Nat → CType
deriving DecidableEq

/-- `obj_rank_v`, transcribed from the trait's pinned values: `void` is
`-1`, scalars and smart pointers are `0`, references are transparent,
array-likes add one per nesting level, associative maps are rank `1`, an
expression carries its computed rank. -/
def objRank : CType → Int
  | .void => -1
  | .int => 0
  | .ref t => objRank t
  | .carray t => 1 + objRank t
  | .vector t => 1 + objRank t
  | .arrayN t => 1 + objRank t
  | .setT t => 1 + objRank t
  | .mapT _ _ => 1
  | .uniquePtr _ => 0
  | .sharedPtr _ => 0
  | .expr r => (r : Int)

/-- The claim's rank law taken at its word: every scalar and every
non-array-like type — `void` included — has rank `0`. -/
def claimRank : CType → Int
  | .void => 0
  | .int => 0
  | .ref t => claimRank t
  | .carray t => 1 + claimRank t
  | .vector t => 1 + claimRank t
  | .arrayN t => 1 + claimRank t
  | .setT t => 1 + claimRank t
  | .mapT _ _ => 1
  | .uniquePtr _ => 0
  | .sharedPtr _ => 0
  | .expr r => (r : Int)

/-- Whether `void` occurs at a rank-relevant position of the type. -/
def noVoid : CType → Bool
  | .void => false
  | .int => true
  | .ref t => noVoid t
  | .carray t => noVoid t
  | .vector t => noVoid t
  | .arrayN t => noVoid t
  | .setT t => noVoid t
  | .mapT _ _ => true
  | .uniquePtr _ => true
  | .sharedPtr _ => true
  | .expr _ => true

theorem objRank_eq_claimRank : ∀ (t : CType), noVoid t = true →
    objRank t = claimRank t
  | .void, h => by cases h
  | .int, _ => rfl
  | .ref t, h => objRank_eq_claimRank t h
  | .carray t, h => by
    show 1 + objRank t = 1 + claimRank t
    rw [objRank_eq_claimRank t h]
  | .vector t, h => by
    show 1 + objRank t = 1 + claimRank t
    rw [objRank_eq_claimRank t h]
  | .arrayN t, h => by
    show 1 + objRank t = 1 + claimRank t
    rw [objRank_eq_claimRank t h]
  | .setT t, h => by
    show 1 + objRank t = 1 + claimRank t
    rw [objRank_eq_claimRank t h]
  | .mapT _ _, _ => rfl
  | .uniquePtr _, _ => rfl
  | .sharedPtr _, _ => rfl
  | .expr _, _ => rfl

/-! ### One level of expression nesting (composition) -/

/-- The integer payload of a scalar object. -/
def Obj.toInt : Obj → Int
  | .int v => v
  | .arr _ => 0

/-- A composite handle value: a plain array object or a nested
expression. -/
inductive CVal where
  | obj : Obj → CVal
  | sub : Expr → CVal

/-- Modelled from the spec (§4.2 composition): the nested expression
contributes its computed rank exactly as an array argument would. -/
def CVal.rank : CVal → Nat
  | .obj o => o.rank
  | .sub E => E.rank

def CVal.size : CVal → Nat
  | .obj o => o.size
  | .sub E => E.size

/-- Indexing a composite value: arrays by element, nested expressions by
their own `operator[]` (lazily). -/
def CVal.get : CVal → Nat → CVal
  | .obj o, i => .obj (o.get i)
  | .sub E, i => .sub (E.sub i)

/-- Dereferencing at a leaf: a nested expression is evaluated there
(terminal evaluation at the consumed coordinate prefix). -/
def CVal.deref : CVal → Obj
  | .obj o => o
  | .sub E => (E.evalLeaf).1

structure NHandle where
  val : CVal
  pr : Nat
  out : Bool

def NHandle.eff (h : NHandle) : Nat := h.val.rank - h.pr

def NHandle.consume (h : NHandle) (rrem : Nat) : Bool :=
  decide (rrem ≤ h.val.rank) && decide (h.pr < h.val.rank)

def NHandle.cidx (h : NHandle) (i : Nat) : Nat := if h.val.size = 1 then 0 else i

def NHandle.index (h : NHandle) (rrem i : Nat) : NHandle :=
  if h.consume rrem then { h with val := h.val.get (h.cidx i) } else h

/-- Write-back for composite handles: array elements are written in place;
a nested expression (not writable through the composite layer) keeps the
parent's handle. -/
def NHandle.unindex (h : NHandle) (rrem i : Nat) (s : NHandle) : NHandle :=
  if h.consume rrem then
    match h.val, s.val with
    | .obj o, .obj so => { h with val := .obj (o.setAt (h.cidx i) so) }
    | _, _ => h
  else s

structure CExpr where
  f : List Obj → Obj × List Obj
  hs : List NHandle

def CExpr.rank (E : CExpr) : Nat := E.hs.foldr (fun h m => max h.eff m) 0

def CExpr.sub (E : CExpr) (i : Nat) : CExpr :=
  { E with hs := E.hs.map (fun h => h.index E.rank i) }

def CExpr.size (E : CExpr) : Nat :=
  if E.rank = 0 then 0
  else E.hs.foldr (fun h m => if h.consume E.rank then max h.val.size m else m) 0

def CExpr.wb (E : CExpr) (i : Nat) (S : CExpr) : CExpr :=
  { E with hs := (E.hs.zip S.hs).map (fun p => p.1.unindex E.rank i p.2) }

def CExpr.evalLeaf (E : CExpr) : Obj × CExpr :=
  let r := E.f (E.hs.map (fun h => h.val.deref))
  let ws := (E.hs.zip r.2).map
    (fun p => if p.1.out then { p.1 with val := .obj p.2 } else p.1)
  (r.1, { E with hs := ws })

def CExpr.evalAux : Nat → CExpr → CExpr
  | 0, E => (E.evalLeaf).2
  | r + 1, E =>
    (List.range E.size).foldl
      (fun acc i => acc.wb i (CExpr.evalAux r (acc.sub i))) E

def CExpr.eval (E : CExpr) : CExpr := CExpr.evalAux E.rank E

def CExpr.dimsAux : Nat → CExpr → List Nat
  | 0, _ => []
  | r + 1, E => E.size :: CExpr.dimsAux r (E.sub 0)

def CExpr.dims (E : CExpr) : List Nat := CExpr.dimsAux E.rank E

/-! ### The nesting scenario: `(x[4][6] + y[6]) * 2 -> out[4][6]` -/

/-- A uniformly shaped all-zero array. -/
def zerosObj : List Nat → Obj
  | [] => .int 0
  | n :: s => .arr (List.replicate n (zerosObj s))

/-- The `add` callable of the scenario: sum of the two scalar arguments,
no writes. -/
def addF : List Obj → Obj × List Obj :=
  fun vs => (.int ((vs.getD 0 (.int 0)).toInt + (vs.getD 1 (.int 0)).toInt), vs)

/-- The `mul` callable of the scenario: product of the first two scalar
arguments, written through the third (output) argument. -/
def mulF : List Obj → Obj × List Obj :=
  fun vs =>
    let v : Int := (vs.getD 0 (.int 0)).toInt * (vs.getD 1 (.int 0)).toInt
    (.int v, [vs.getD 0 (.int 0), vs.getD 1 (.int 0), .int v])

/-- `x`, a `[4][6]` array with entries `xv i j`. -/
def xObj (xv : Nat → Nat → Int) : Obj :=
  .arr ((List.range 4).map (fun i =>
    .arr ((List.range 6).map (fun j => .int (xv i j)))))

/-- `y`, a `[6]` array with entries `yv j`. -/
def yObj (yv : Nat → Int) : Obj :=
  .arr ((List.range 6).map (fun j => .int (yv j)))

/-- `E1 = make_expression(add, x, y)`. -/
def nestedE1 (xv : Nat → Nat → Int) (yv : Nat → Int) : Expr :=
  Expr.mk addF [Handle.mk (xObj xv) 0 false, Handle.mk (yObj yv) 0 false]

/-- `E2 = make_expression(mul, E1, 2, out)` with `out` all zeros. -/
def nestedE2 (xv : Nat → Nat → Int) (yv : Nat → Int) : CExpr :=
  CExpr.mk mulF [NHandle.mk (.sub (nestedE1 xv yv)) 0 false,
    NHandle.mk (.obj (.int 2)) 0 false,
    NHandle.mk (.obj (zerosObj [4, 6])) 0 true]

/-- The expected final content of `out`. -/
def expectedOut (xv : Nat → Nat → Int) (yv : Nat → Int) : Obj :=
  .arr ((List.range 4).map (fun i =>
    .arr ((List.range 6).map (fun j => .int ((xv i j + yv j) * 2)))))

def rowOut (xv : Nat → Nat → Int) (yv : Nat → Int) (i : Nat) : Obj :=
  .arr ((List.range 6).map (fun j => .int ((xv i j + yv j) * 2)))

/-- `out` after the first `k` rows have been evaluated. -/
def stageOut (xv : Nat → Nat → Int) (yv : Nat → Int) (k : Nat) : Obj :=
  .arr ((List.range 4).map (fun i => if i < k then rowOut xv yv i else zerosObj [6]))

/-- The evaluation state after the first `k` outer iterations. -/
def stage (xv : Nat → Nat → Int) (yv : Nat → Int) (k : Nat) : CExpr :=
  CExpr.mk mulF [NHandle.mk (.sub (nestedE1 xv yv)) 0 false,
    NHandle.mk (.obj (.int 2)) 0 false,
    NHandle.mk (.obj (stageOut xv yv k)) 0 true]

def xRow (xv : Nat → Nat → Int) (i : Nat) : Obj :=
  .arr ((List.range 6).map (fun j => .int (xv i j)))

/-- The nested expression indexed at outer coordinate `i`. -/
def rowE1 (xv : Nat → Nat → Int) (yv : Nat → Int) (i : Nat) : Expr :=
  Expr.mk addF [Handle.mk (xRow xv i) 0 false, Handle.mk (yObj yv) 0 false]

/-- Row `i` of `out` with its first `k` entries evaluated. -/
def rowMix (xv : Nat → Nat → Int) (yv : Nat → Int) (i k : Nat) : Obj :=
  .arr ((List.range 6).map
    (fun j => if j < k then Obj.int ((xv i j + yv j) * 2) else Obj.int 0))

/-- The inner (row-level) evaluation state of outer iteration `i` after `k`
leaves. -/
def innerState (xv : Nat → Nat → Int) (yv : Nat → Int) (i k : Nat) : CExpr :=
  CExpr.mk mulF [NHandle.mk (.sub (rowE1 xv yv i)) 0 false,
    NHandle.mk (.obj (.int 2)) 0 false,
    NHandle.mk (.obj (rowMix xv yv i k)) 0 true]

theorem stage_init (xv : Nat → Nat → Int) (yv : Nat → Int) :
    nestedE2 xv yv = stage xv yv 0 := rfl

theorem nestedE2_rank (xv : Nat → Nat → Int) (yv : Nat → Int) :
    (nestedE2 xv yv).rank = 2 := rfl

theorem nestedE2_size (xv : Nat → Nat → Int) (yv : Nat → Int) :
    (nestedE2 xv yv).size = 4 := rfl

theorem innerState_size_0 (xv : Nat → Nat → Int) (yv : Nat → Int) :
    (innerState xv yv 0 0).size = 6 := rfl

theorem nested_sub_0 (xv : Nat → Nat → Int) (yv : Nat → Int) :
    (stage xv yv 0).sub 0 = innerState xv yv 0 0 := rfl

theorem nested_leaf_0_0 (xv : Nat → Nat → Int) (yv : Nat → Int) :
    (innerState xv yv 0 0).wb 0
      (CExpr.evalAux 0 ((innerState xv yv 0 0).sub 0)) =
    innerState xv yv 0 1 := rfl

theorem nested_leaf_0_1 (xv : Nat → Nat → Int) (yv : Nat → Int) :
    (innerState xv yv 0 1).wb 1
      (CExpr.evalAux 0 ((innerState xv yv 0 1).sub 1)) =
    innerState xv yv 0 2 := rfl

theorem nested_leaf_0_2 (xv : Nat → Nat → Int) (yv : Nat → Int) :
    (innerState xv yv 0 2).wb 2
      (CExpr.evalAux 0 ((innerState xv yv 0 2).sub 2)) =
    innerState xv yv 0 3 := rfl

theorem nested_leaf_0_3 (xv : Nat → Nat → Int) (yv : Nat → Int) :
    (innerState xv yv 0 3).wb 3
      (CExpr.evalAux 0 ((innerState xv yv 0 3).sub 3)) =
    innerState xv yv 0 4 := rfl

theorem nested_leaf_0_4 (xv : Nat → Nat → Int) (yv : Nat → Int) :
    (innerState xv yv 0 4).wb 4
      (CExpr.evalAux 0 ((innerState xv yv 0 4).sub 4)) =
    innerState xv yv 0 5 := rfl

theorem nested_leaf_0_5 (xv : Nat → Nat → Int) (yv : Nat → Int) :
    (innerState xv yv 0 5).wb 5
      (CExpr.evalAux 0 ((innerState xv yv 0 5).sub 5)) =
    innerState xv yv 0 6 := rfl

theorem nested_row_0 (xv : Nat → Nat → Int) (yv : Nat → Int) :
    CExpr.evalAux 1 (innerState xv yv 0 0) = innerState xv yv 0 6 := by
  show (List.range (innerState xv yv 0 0).size).foldl
    (fun acc j => acc.wb j (CExpr.evalAux 0 (acc.sub j)))
    (innerState xv yv 0 0) = innerState xv yv 0 6
  rw [innerState_size_0]
  rw [show List.range 6 = [0, 1, 2, 3, 4, 5] from rfl]
  simp only [List.foldl_cons, List.foldl_nil]
  rw [nested_leaf_0_0, nested_leaf_0_1, nested_leaf_0_2, nested_leaf_0_3, nested_leaf_0_4, nested_leaf_0_5]

theorem nested_wbback_0 (xv : Nat → Nat → Int) (yv : Nat → Int) :
    (stage xv yv 0).wb 0 (innerState xv yv 0 6) = stage xv yv 1 := rfl

theorem nested_step_0 (xv : Nat → Nat → Int) (yv : Nat → Int) :
    (stage xv yv 0).wb 0 (CExpr.evalAux 1 ((stage xv yv 0).sub 0)) =
    stage xv yv 1 := by
  rw [nested_sub_0, nested_row_0]
  exact nested_wbback_0 xv yv

theorem innerState_size_1 (xv : Nat → Nat → Int) (yv : Nat → Int) :
    (innerState xv yv 1 0).size = 6 := rfl

theorem nested_sub_1 (xv : Nat → Nat → Int) (yv : Nat → Int) :
    (stage xv yv 1).sub 1 = innerState xv yv 1 0 := rfl

theorem nested_leaf_1_0 (xv : Nat → Nat → Int) (yv : Nat → Int) :
    (innerState xv yv 1 0).wb 0
      (CExpr.evalAux 0 ((innerState xv yv 1 0).sub 0)) =
    innerState xv yv 1 1 := rfl

theorem nested_leaf_1_1 (xv : Nat → Nat → Int) (yv : Nat → Int) :
    (innerState xv yv 1 1).wb 1
      (CExpr.evalAux 0 ((innerState xv yv 1 1).sub 1)) =
    innerState xv yv 1 2 := rfl

theorem nested_leaf_1_2 (xv : Nat → Nat → Int) (yv : Nat → Int) :
    (innerState xv yv 1 2).wb 2
      (CExpr.evalAux 0 ((innerState xv yv 1 2).sub 2)) =
    innerState xv yv 1 3 := rfl

theorem nested_leaf_1_3 (xv : Nat → Nat → Int) (yv : Nat → Int) :
    (innerState xv yv 1 3).wb 3
      (CExpr.evalAux 0 ((innerState xv yv 1 3).sub 3)) =
    innerState xv yv 1 4 := rfl

theorem nested_leaf_1_4 (xv : Nat → Nat → Int) (yv : Nat → Int) :
    (innerState xv yv 1 4).wb 4
      (CExpr.evalAux 0 ((innerState xv yv 1 4).sub 4)) =
    innerState xv yv 1 5 := rfl

theorem nested_leaf_1_5 (xv : Nat → Nat → Int) (yv : Nat → Int) :
    (innerState xv yv 1 5).wb 5
      (CExpr.evalAux 0 ((innerState xv yv 1 5).sub 5)) =
    innerState xv yv 1 6 := rfl

theorem nested_row_1 (xv : Nat → Nat → Int) (yv : Nat → Int) :
    CExpr.evalAux 1 (innerState xv yv 1 0) = innerState xv yv 1 6 := by
  show (List.range (innerState xv yv 1 0).size).foldl
    (fun acc j => acc.wb j (CExpr.evalAux 0 (acc.sub j)))
    (innerState xv yv 1 0) = innerState xv yv 1 6
  rw [innerState_size_1]
  rw [show List.range 6 = [0, 1, 2, 3, 4, 5] from rfl]
  simp only [List.foldl_cons, List.foldl_nil]
  rw [nested_leaf_1_0, nested_leaf_1_1, nested_leaf_1_2, nested_leaf_1_3, nested_leaf_1_4, nested_leaf_1_5]

theorem nested_wbback_1 (xv : Nat → Nat → Int) (yv : Nat → Int) :
    (stage xv yv 1).wb 1 (innerState xv yv 1 6) = stage xv yv 2 := rfl

theorem nested_step_1 (xv : Nat → Nat → Int) (yv : Nat → Int) :
    (stage xv yv 1).wb 1 (CExpr.evalAux 1 ((stage xv yv 1).sub 1)) =
    stage xv yv 2 := by
  rw [nested_sub_1, nested_row_1]
  exact nested_wbback_1 xv yv

theorem innerState_size_2 (xv : Nat → Nat → Int) (yv : Nat → Int) :
    (innerState xv yv 2 0).size = 6 := rfl

theorem nested_sub_2 (xv : Nat → Nat → Int) (yv : Nat → Int) :
    (stage xv yv 2).sub 2 = innerState xv yv 2 0 := rfl

theorem nested_leaf_2_0 (xv : Nat → Nat → Int) (yv : Nat → Int) :
    (innerState xv yv 2 0).wb 0
      (CExpr.evalAux 0 ((innerState xv yv 2 0).sub 0)) =
    innerState xv yv 2 1 := rfl

theorem nested_leaf_2_1 (xv : Nat → Nat → Int) (yv : Nat → Int) :
    (innerState xv yv 2 1).wb 1
      (CExpr.evalAux 0 ((innerState xv yv 2 1).sub 1)) =
    innerState xv yv 2 2 := rfl

theorem nested_leaf_2_2 (xv : Nat → Nat → Int) (yv : Nat → Int) :
    (innerState xv yv 2 2).wb 2
      (CExpr.evalAux 0 ((innerState xv yv 2 2).sub 2)) =
    innerState xv yv 2 3 := rfl

theorem nested_leaf_2_3 (xv : Nat → Nat → Int) (yv : Nat → Int) :
    (innerState xv yv 2 3).wb 3
      (CExpr.evalAux 0 ((innerState xv yv 2 3).sub 3)) =
    innerState xv yv 2 4 := rfl

theorem nested_leaf_2_4 (xv : Nat → Nat → Int) (yv : Nat → Int) :
    (innerState xv yv 2 4).wb 4
      (CExpr.evalAux 0 ((innerState xv yv 2 4).sub 4)) =
    innerState xv yv 2 5 := rfl

theorem nested_leaf_2_5 (xv : Nat → Nat → Int) (yv : Nat → Int) :
    (innerState xv yv 2 5).wb 5
      (CExpr.evalAux 0 ((innerState xv yv 2 5).sub 5)) =
    innerState xv yv 2 6 := rfl

theorem nested_row_2 (xv : Nat → Nat → Int) (yv : Nat → Int) :
    CExpr.evalAux 1 (innerState xv yv 2 0) = innerState xv yv 2 6 := by
  show (List.range (innerState xv yv 2 0).size).foldl
    (fun acc j => acc.wb j (CExpr.evalAux 0 (acc.sub j)))
    (innerState xv yv 2 0) = innerState xv yv 2 6
  rw [innerState_size_2]
  rw [show List.range 6 = [0, 1, 2, 3, 4, 5] from rfl]
  simp only [List.foldl_cons, List.foldl_nil]
  rw [nested_leaf_2_0, nested_leaf_2_1, nested_leaf_2_2, nested_leaf_2_3, nested_leaf_2_4, nested_leaf_2_5]

theorem nested_wbback_2 (xv : Nat → Nat → Int) (yv : Nat → Int) :
    (stage xv yv 2).wb 2 (innerState xv yv 2 6) = stage xv yv 3 := rfl

theorem nested_step_2 (xv : Nat → Nat → Int) (yv : Nat → Int) :
    (stage xv yv 2).wb 2 (CExpr.evalAux 1 ((stage xv yv 2).sub 2)) =
    stage xv yv 3 := by
  rw [nested_sub_2, nested_row_2]
  exact nested_wbback_2 xv yv

theorem innerState_size_3 (xv : Nat → Nat → Int) (yv : Nat → Int) :
    (innerState xv yv 3 0).size = 6 := rfl

theorem nested_sub_3 (xv : Nat → Nat → Int) (yv : Nat → Int) :
    (stage xv yv 3).sub 3 = innerState xv yv 3 0 := rfl

theorem nested_leaf_3_0 (xv : Nat → Nat → Int) (yv : Nat → Int) :
    (innerState xv yv 3 0).wb 0
      (CExpr.evalAux 0 ((innerState xv yv 3 0).sub 0)) =
    innerState xv yv 3 1 := rfl

theorem nested_leaf_3_1 (xv : Nat → Nat → Int) (yv : Nat → Int) :
    (innerState xv yv 3 1).wb 1
      (CExpr.evalAux 0 ((innerState xv yv 3 1).sub 1)) =
    innerState xv yv 3 2 := rfl

theorem nested_leaf_3_2 (xv : Nat → Nat → Int) (yv : Nat → Int) :
    (innerState xv yv 3 2).wb 2
      (CExpr.evalAux 0 ((innerState xv yv 3 2).sub 2)) =
    innerState xv yv 3 3 := rfl

theorem nested_leaf_3_3 (xv : Nat → Nat → Int) (yv : Nat → Int) :
    (innerState xv yv 3 3).wb 3
      (CExpr.evalAux 0 ((innerState xv yv 3 3).sub 3)) =
    innerState xv yv 3 4 := rfl

theorem nested_leaf_3_4 (xv : Nat → Nat → Int) (yv : Nat → Int) :
    (innerState xv yv 3 4).wb 4
      (CExpr.evalAux 0 ((innerState xv yv 3 4).sub 4)) =
    innerState xv yv 3 5 := rfl

theorem nested_leaf_3_5 (xv : Nat → Nat → Int) (yv : Nat → Int) :
    (innerState xv yv 3 5).wb 5
      (CExpr.evalAux 0 ((innerState xv yv 3 5).sub 5)) =
    innerState xv yv 3 6 := rfl

theorem nested_row_3 (xv : Nat → Nat → Int) (yv : Nat → Int) :
    CExpr.evalAux 1 (innerState xv yv 3 0) = innerState xv yv 3 6 := by
  show (List.range (innerState xv yv 3 0).size).foldl
    (fun acc j => acc.wb j (CExpr.evalAux 0 (acc.sub j)))
    (innerState xv yv 3 0) = innerState xv yv 3 6
  rw [innerState_size_3]
  rw [show List.range 6 = [0, 1, 2, 3, 4, 5] from rfl]
  simp only [List.foldl_cons, List.foldl_nil]
  rw [nested_leaf_3_0, nested_leaf_3_1, nested_leaf_3_2, nested_leaf_3_3, nested_leaf_3_4, nested_leaf_3_5]

theorem nested_wbback_3 (xv : Nat → Nat → Int) (yv : Nat → Int) :
    (stage xv yv 3).wb 3 (innerState xv yv 3 6) = stage xv yv 4 := rfl

theorem nested_step_3 (xv : Nat → Nat → Int) (yv : Nat → Int) :
    (stage xv yv 3).wb 3 (CExpr.evalAux 1 ((stage xv yv 3).sub 3)) =
    stage xv yv 4 := by
  rw [nested_sub_3, nested_row_3]
  exact nested_wbback_3 xv yv

theorem nestedE2_eval (xv : Nat → Nat → Int) (yv : Nat → Int) :
    CExpr.eval (nestedE2 xv yv) = stage xv yv 4 := by
  show CExpr.evalAux (nestedE2 xv yv).rank (nestedE2 xv yv) = stage xv yv 4
  rw [nestedE2_rank]
  show (List.range (nestedE2 xv yv).size).foldl
    (fun acc i => acc.wb i (CExpr.evalAux 1 (acc.sub i))) (nestedE2 xv yv) =
    stage xv yv 4
  rw [nestedE2_size]
  rw [show List.range 4 = [0, 1, 2, 3] from rfl]
  rw [stage_init]
  simp only [List.foldl_cons, List.foldl_nil]
  rw [nested_step_0, nested_step_1, nested_step_2, nested_step_3]

theorem stage4_out (xv : Nat → Nat → Int) (yv : Nat → Int) :
    ((stage xv yv 4).hs.getD 2 (NHandle.mk (.obj (.int 0)) 0 false)).val =
    .obj (expectedOut xv yv) := rfl

theorem nestedE2_dims (xv : Nat → Nat → Int) (yv : Nat → Int) :
    (nestedE2 xv yv).dims = [4, 6] := by
  show CExpr.dimsAux (nestedE2 xv yv).rank (nestedE2 xv yv) = [4, 6]
  rw [nestedE2_rank]
  show [(nestedE2 xv yv).size, ((nestedE2 xv yv).sub 0).size] = [4, 6]
  rw [nestedE2_size, stage_init, nested_sub_0, innerState_size_0]

/-! ### Concrete instances -/

/-- A callable that returns its arguments unchanged and writes nothing. -/
def idF : List Obj → Obj × List Obj := fun vs => (.int 0, vs)

/-- A callable copying its first (input) argument into its second
(output) argument. -/
def wF : List Obj → Obj × List Obj :=
  fun vs => (.int 0, [vs.getD 0 (.int 0), vs.getD 0 (.int 0)])

/-- `make_expression(copy, in[2], out[2])`. -/
def exW : Expr :=
  Expr.mk wF [Handle.mk (.arr [.int 1, .int 2]) 0 false,
    Handle.mk (.arr [.int 7, .int 8]) 0 true]

theorem exW_good : exW.GOOD [[], []] := by
  refine ⟨⟨by unfold Expr.hwf; decide, by decide⟩, by decide, by decide, ?_⟩
  intro vs hsh hwf
  rcases vs with _ | ⟨a, _ | ⟨b, _ | ⟨c, vs3⟩⟩⟩
  · exact absurd hsh (by simp)
  · exact absurd hsh (by simp)
  · simp only [List.map_cons, List.map_nil, List.cons.injEq, and_true] at hsh
    refine ⟨?_, ?_⟩
    · show [a.shape, a.shape] = [[], []]
      rw [hsh.1]
    · intro v hv
      rcases List.mem_cons.mp hv with h | hv2
      · rw [h]
        exact hwf a (by simp)
      · rcases List.mem_cons.mp hv2 with h | hv3
        · rw [h]
          exact hwf a (by simp)
        · cases hv3
  · exact absurd hsh (by simp)

theorem exW_reads : exW.readsOnlyIns := by
  intro vs vs' h1 h2 hag
  have h0 : vs[0]? = vs'[0]? :=
    hag 0 (Handle.mk (.arr [.int 1, .int 2]) 0 false) rfl rfl
  show (Obj.int 0, [vs.getD 0 (.int 0), vs.getD 0 (.int 0)]) =
    (Obj.int 0, [vs'.getD 0 (.int 0), vs'.getD 0 (.int 0)])
  rw [List.getD_eq_getElem?_getD, h0, ← List.getD_eq_getElem?_getD]

/-- The callable of the strided-broadcast instance: writes (first argument
+ 1) through its second (output) argument. -/
def c2F : List Obj → Obj × List Obj :=
  fun vs => (.int 0, [vs.getD 0 (.int 0), .int ((vs.getD 0 (.int 0)).toInt + 1)])

/-- `make_expression(plus1, y[2], z[1])` with a singleton-broadcast
output. -/
def cexE2 : Expr :=
  Expr.mk c2F [Handle.mk (.arr [.int 10, .int 20]) 0 false,
    Handle.mk (.arr [.int 5]) 0 true]

theorem cexE2_good : cexE2.GOOD [[], []] := by
  refine ⟨⟨by unfold Expr.hwf; decide, by decide⟩, by decide, by decide, ?_⟩
  intro vs hsh hwf
  rcases vs with _ | ⟨a, _ | ⟨b, _ | ⟨c, vs3⟩⟩⟩
  · exact absurd hsh (by simp)
  · exact absurd hsh (by simp)
  · simp only [List.map_cons, List.map_nil, List.cons.injEq, and_true] at hsh
    refine ⟨?_, ?_⟩
    · show [a.shape, Obj.shape (.int ((Obj.toInt a) + 1))] = [[], []]
      rw [hsh.1]
      rfl
    · intro v hv
      rcases List.mem_cons.mp hv with h | hv2
      · rw [h]
        exact hwf a (by simp)
      · rcases List.mem_cons.mp hv2 with h | hv3
        · rw [h]
          rfl
        · cases hv3
  · exact absurd hsh (by simp)

/-- The two-handle instance whose outermost extents differ across ranks:
shapes `[3][5]` and `[5]`. -/
def cexE7 : Expr :=
  Expr.mk idF [Handle.mk (zerosObj [3, 5]) 0 false,
    Handle.mk (zerosObj [5]) 0 false]

theorem cexE7_good : cexE7.GOOD [[], []] := by
  refine ⟨⟨by unfold Expr.hwf; decide, by decide⟩, by decide, by decide, ?_⟩
  intro vs hsh hwf
  exact ⟨hsh, hwf⟩

/-- The partial-unwrap callable: passes its rank-1 first argument through
and writes a scalar derived from it. -/
def puF : List Obj → Obj × List Obj :=
  fun vs => (.int 0, [vs.getD 0 (.int 0), .int ((vs.getD 0 (.int 0)).toInt)])

/-- `make_expression(f(vector<int>, int&), x[2][3], out[2])`: the first
parameter keeps rank 1, so only one dimension of `x` is consumed. -/
def exPU : Expr :=
  Expr.mk puF [Handle.mk (.arr [.arr [.int 1, .int 2, .int 3],
    .arr [.int 4, .int 5, .int 6]]) 1 false,
    Handle.mk (zerosObj [2]) 0 true]

theorem exPU_good : exPU.GOOD [[3], []] := by
  refine ⟨⟨by unfold Expr.hwf; decide, by decide⟩, by decide, by decide, ?_⟩
  intro vs hsh hwf
  rcases vs with _ | ⟨a, _ | ⟨b, _ | ⟨c, vs3⟩⟩⟩
  · exact absurd hsh (by simp)
  · exact absurd hsh (by simp)
  · simp only [List.map_cons, List.map_nil, List.cons.injEq, and_true] at hsh
    refine ⟨?_, ?_⟩
    · show [a.shape, Obj.shape (.int (Obj.toInt a))] = [[3], []]
      rw [hsh.1]
      rfl
    · intro v hv
      rcases List.mem_cons.mp hv with h | hv2
      · rw [h]
        exact hwf a (by simp)
      · rcases List.mem_cons.mp hv2 with h | hv3
        · rw [h]
          rfl
        · cases hv3
  · exact absurd hsh (by simp)

/-- The broadcasting test's handle set: shapes `[8][6][4][2]` and
`[6][1][2]`. -/
def bcastHs : List Handle :=
  [Handle.mk (zerosObj [8, 6, 4, 2]) 0 false,
    Handle.mk (zerosObj [6, 1, 2]) 0 false]

/-- The claim's stated pairwise relation, leading-aligned: for ranks
`|a| <= |b|`, at every dimension `d < |a|` (counted from the outermost) the
extents match or the lower-rank argument's extent is 1. -/
def leadingCompat (a b : List Nat) : Bool :=
  (List.range a.length).all (fun d => a.getD d 1 == b.getD d 1 || a.getD d 1 == 1)

/-- The claim's compatibility predicate over a shape set. -/
def claimCompat (ss : List (List Nat)) : Bool :=
  ss.all (fun a => ss.all (fun b =>
    !(decide (a.length ≤ b.length)) || leadingCompat a b))

/-- The claim's reading of `size()`: the maximum outermost extent among
bound arguments of rank at least 1. -/
def claimSize (E : Expr) : Nat :=
  E.hs.foldr (fun h m => if 1 ≤ h.val.rank then max h.val.size m else m) 0

/-! ### The claims -/

/-- C1 (amended): construction-time broadcast validation holds exactly when
the bound shapes are pairwise compatible with dimensions aligned from the
innermost: at every shared trailing depth the two extents are equal or one
of them is 1.  (The claim's leading-aligned reading is refuted by
`claim_C1_cex`.)  Construction is a pure function of the arguments: it
either yields an expression or fails as a whole, never partially. -/
theorem claim_C1 {f : List Obj → Obj × List Obj} {hs : List Handle}
    (hw : ∀ h ∈ hs, h.val.wf = true) (hpr : ∀ h ∈ hs, h.pr = 0)
    (hpos : ∀ h ∈ hs, ∀ e ∈ h.val.shape, 1 ≤ e) :
    (mkExpr f hs).isSome = true ↔
      bcastCompat (hs.map (fun h => h.val.shape)) = true :=
  mkExpr_isSome_iff_bcast hw hpr hpos

/-- C1 witness: the characterization applied to the broadcasting test's
shapes `[8][6][4][2]` and `[6][1][2]`. -/
theorem claim_C1_witness :
    (mkExpr idF bcastHs).isSome = true ↔
      bcastCompat (bcastHs.map (fun h => h.val.shape)) = true :=
  claim_C1 (by decide) (by decide) (by decide)

/-- C1 counterexample: the shapes `[8][6][4][2]` and `[6][1][2]` violate
the claim's leading-aligned pairwise condition (at dimension 0 the extents
are 8 and 6, neither equal nor 1), yet construction succeeds — exactly the
configuration the broadcasting test constructs and evaluates. -/
theorem claim_C1_cex :
    claimCompat (bcastHs.map (fun h => h.val.shape)) = false ∧
    (mkExpr idF bcastHs).isSome = true :=
  ⟨by decide, by decide⟩

/-- C2 (amended): when the innermost extent is divisible by `N`, strided
evaluation visits exactly the coordinates whose innermost index is a
multiple of `N`; non-output handles are untouched, and an output handle's
value is unchanged at every leaf location distinct from all visited
locations.  (The claim's per-leaf reading fails for singleton-broadcast
outputs, where an unvisited leaf aliases a visited one: `claim_C2_cex`.) -/
theorem claim_C2 {E : Expr} {Lf : List (List Nat)} {N : Nat} (G : E.GOOD Lf)
    (hdvd : E.innermost % N = 0) :
    E.evalN N = some (E.foldAt (E.stridedCoords N)) ∧
    (∀ (k : Nat) (h : Handle), E.hs[k]? = some h → h.out = false →
      (E.foldAt (E.stridedCoords N)).hs[k]? = some h) ∧
    (∀ (k : Nat) (h g : Handle), E.hs[k]? = some h →
      (E.foldAt (E.stridedCoords N)).hs[k]? = some g →
      ∀ q : List Nat, pathOk h.val.shape q = true → q.length = h.eff →
      (∀ c ∈ E.stridedCoords N, Handle.path E.rank c h ≠ q) →
      g.val.getPath q = h.val.getPath q) := by
  have hb : ∀ c ∈ E.stridedCoords N, inBounds c E.dims = true :=
    coordsOf_inBounds (stridedLists N E.dims) E.dims (stridedLists_bounds N E.dims)
  refine ⟨Expr.evalN_eq_foldAt G hdvd, ?_, ?_⟩
  · intro k h hk ho
    have hne : ¬ (h.out = true) := by simp [ho]
    have hthis := (Expr.foldAt_ops (E.stridedCoords N) E Lf k h G hb hk).1
    rwa [if_neg hne] at hthis
  · intro k h g hk hg q hok hlen hne
    have hops := Expr.foldAt_ops (E.stridedCoords N) E Lf k h G hb hk
    rw [hops.1] at hg
    simp only [Option.some.injEq] at hg
    by_cases ho : h.out = true
    · rw [if_pos ho] at hg
      rw [← hg]
      show (applyOps h.val (Expr.opsAt E (E.stridedCoords N) k)).getPath q =
        h.val.getPath q
      have hwf : h.val.wf = true := G.wfc.hw h (List.getElem?_mem hk)
      refine applyOps_frame (Obj.wf_hasShape hwf) hops.2.2 hok hlen ?_
      intro op hop
      have hmem : op.1 ∈ (Expr.opsAt E (E.stridedCoords N) k).map Prod.fst :=
        List.mem_map_of_mem _ hop
      rw [hops.2.1] at hmem
      simp only [List.mem_map] at hmem
      obtain ⟨c, hc, hcq⟩ := hmem
      rw [← hcq]
      exact hne c hc
    · rw [if_neg ho] at hg
      rw [← hg]

/-- C2 witness: the amended statement applied to the singleton-broadcast
instance with stride 2. -/
theorem claim_C2_witness :
    cexE2.evalN 2 = some (cexE2.foldAt (cexE2.stridedCoords 2)) ∧
    (∀ (k : Nat) (h : Handle), cexE2.hs[k]? = some h → h.out = false →
      (cexE2.foldAt (cexE2.stridedCoords 2)).hs[k]? = some h) ∧
    (∀ (k : Nat) (h g : Handle), cexE2.hs[k]? = some h →
      (cexE2.foldAt (cexE2.stridedCoords 2)).hs[k]? = some g →
      ∀ q : List Nat, pathOk h.val.shape q = true → q.length = h.eff →
      (∀ c ∈ cexE2.stridedCoords 2, Handle.path cexE2.rank c h ≠ q) →
      g.val.getPath q = h.val.getPath q) :=
  claim_C2 cexE2_good (by decide)

/-- C2 counterexample: with `y[2]`, a singleton output `z[1]` and stride 2,
the leaf at innermost coordinate 1 is not visited (1 is no multiple of 2),
yet its output location — `z[0]`, shared with the visited leaf by the
singleton broadcast — changes from 5 to 11. -/
theorem claim_C2_cex :
    ¬ ((1 : Nat) % 2 = 0) ∧
    Handle.path cexE2.rank [1] (cexE2.hs.getD 1 (Handle.mk (.int 0) 0 false)) =
      [0] ∧
    (cexE2.evalN 2).map
      (fun F => (F.hs.getD 1 (Handle.mk (.int 0) 0 false)).val.getPath [0]) =
      some (.int 11) ∧
    (cexE2.hs.getD 1 (Handle.mk (.int 0) 0 false)).val.getPath [0] = .int 5 ∧
    Obj.int 11 ≠ Obj.int 5 := by
  refine ⟨by decide, by decide, rfl, rfl, by simp⟩

/-- C3: full evaluation and the cumulative per-coordinate `eval_at`
iteration over every valid coordinate tuple (row-major) succeed and produce
the same final expression state — the same callable invocations with the
same per-coordinate writes. -/
theorem claim_C3 {E : Expr} {Lf : List (List Nat)} (G : E.GOOD Lf) :
    E.foldEvalAt E.allCoords = some E.eval := by
  rw [Expr.foldEvalAt_eq E.allCoords E Lf G (Expr.allCoords_inBounds E),
    Expr.eval_eq_foldAt G]

/-- C3 witness: the equivalence at the concrete copy expression. -/
theorem claim_C3_witness : exW.foldEvalAt exW.allCoords = some exW.eval :=
  claim_C3 exW_good

/-- C4: the nesting scenario — `E1 = make_expression(add, x[4][6], y[6])`
composed into `E2 = make_expression(mul, E1, 2, out[4][6])`; `E2.eval()`
leaves `out[i][j] = (x[i][j] + y[j]) * 2` for all valid `i, j`, for every
choice of integer contents; the nested expression contributes rank 2 and
shape `[4, 6]` like an array argument, and is evaluated at the consumed
coordinate prefix. -/
theorem claim_C4 (xv : Nat → Nat → Int) (yv : Nat → Int) :
    ((CExpr.eval (nestedE2 xv yv)).hs.getD 2
      (NHandle.mk (.obj (.int 0)) 0 false)).val = .obj (expectedOut xv yv) ∧
    (∀ i j, i < 4 → j < 6 →
      (expectedOut xv yv).getPath [i, j] = .int ((xv i j + yv j) * 2)) ∧
    (nestedE2 xv yv).rank = 2 ∧ (nestedE2 xv yv).dims = [4, 6] := by
  refine ⟨?_, ?_, nestedE2_rank xv yv, nestedE2_dims xv yv⟩
  · rw [nestedE2_eval]
    exact stage4_out xv yv
  · intro i j hi hj
    interval_cases i <;> interval_cases j <;> rfl

/-- C5: applying `operator[]` once per dimension of an in-bounds coordinate
tuple evaluates exactly at that coordinate: every application above rank 1
returns the lazy sub-expression and invokes no callable, and the final
(rank-1) application invokes the callable with each handle dereferenced at
the consumed coordinate, returning its value together with its writes. -/
theorem claim_C5 {E : Expr} {Lf : List (List Nat)} {c : List Nat}
    (G : E.GOOD Lf) (hrk : E.rank = c.length) (hne : c ≠ [])
    (hb : inBounds c E.dims = true) :
    E.indexChain c = some (Expr.evalAtAux c E) ∧
    ∀ i, 1 < E.rank → E.indexOp i = .inl (E.sub i) := by
  refine ⟨Expr.indexChain_eq c E Lf G hrk hne hb, ?_⟩
  intro i h
  unfold Expr.indexOp
  rw [if_pos h]

/-- C5 witness: the chain at coordinate `[1]` of the copy expression. -/
theorem claim_C5_witness :
    exW.indexChain [1] = some (Expr.evalAtAux [1] exW) ∧
    ∀ i, 1 < exW.rank → exW.indexOp i = .inl (exW.sub i) :=
  claim_C5 exW_good (by decide) (by decide) (by decide)

/-- C6: strided evaluation fails (returning nothing and touching no state)
exactly when the innermost extent is not a multiple of the stride. -/
theorem claim_C6 {E : Expr} {N : Nat} :
    E.evalN N = none ↔ ¬ (E.innermost % N = 0) := by
  unfold Expr.evalN
  by_cases h : E.innermost % N = 0
  · rw [if_pos h]
    simp [h]
  · rw [if_neg h]
    simp [h]

/-- C7 (amended): `size()` is 0 for a rank-0 expression, and otherwise the
maximum outermost extent among the handles that cover the outermost
dimension — not among all handles of rank at least 1 (refuted by
`claim_C7_cex`); an indexed sub-expression's dimensions are the parent's
with the outermost removed, so its `size()` is the next remaining
dimension's extent. -/
theorem claim_C7 {E : Expr} {Lf : List (List Nat)} (G : E.GOOD Lf) :
    (E.rank = 0 → E.size = 0) ∧
    (E.rank ≠ 0 → E.size = dimMax E.rank (E.hs.map Handle.sh)) ∧
    (∀ i, E.rank ≠ 0 → i < E.size → (E.sub i).dims = E.dims.tail) := by
  refine ⟨?_, ?_, ?_⟩
  · intro h
    unfold Expr.size
    rw [if_pos h]
  · intro h
    exact Expr.size_eq_dimMax G.wfc.hw h
  · intro i h hi
    exact Expr.dims_sub G.wfc h hi G.pos

/-- C7 witness: the amended statement at the `[3][5]`/`[5]` instance. -/
theorem claim_C7_witness :
    (cexE7.rank = 0 → cexE7.size = 0) ∧
    (cexE7.rank ≠ 0 → cexE7.size = dimMax cexE7.rank (cexE7.hs.map Handle.sh)) ∧
    (∀ i, cexE7.rank ≠ 0 → i < cexE7.size → (cexE7.sub i).dims = cexE7.dims.tail) :=
  claim_C7 cexE7_good

/-- C7 counterexample: with shapes `[3][5]` and `[5]`, the claim's "maximum
outermost extent among arguments of rank >= 1" is 5, but the expression's
outermost extent — and `size()` — is 3: the rank-1 argument is broadcast
along the innermost dimension and does not cover the outermost one. -/
theorem claim_C7_cex :
    cexE7.rank ≠ 0 ∧ claimSize cexE7 = 5 ∧ cexE7.size = 3 ∧ (5 : Nat) ≠ 3 :=
  ⟨by decide, rfl, rfl, by decide⟩

/-- C8 (amended): the rank trait follows the claim's law — 0 for scalars
and non-array-like types, 1 plus the element rank for array-likes, 1 for
associative containers, the computed rank for expressions — on every type
in which `void` does not occur; `void` itself has rank `-1`, not 0
(refuted by `claim_C8_cex`). -/
theorem claim_C8 {t : CType} (h : noVoid t = true) : objRank t = claimRank t :=
  objRank_eq_claimRank t h

/-- C8 witness: the law at `std::vector<int>`. -/
theorem claim_C8_witness :
    noVoid (.vector .int) = true ∧
    objRank (.vector .int) = claimRank (.vector .int) :=
  ⟨rfl, claim_C8 rfl⟩

/-- C8 counterexample: `obj_rank_v<void>` is pinned to `-1`, but the claim
makes every non-array-like type — `void` included — rank 0. -/
theorem claim_C8_cex :
    objRank .void = -1 ∧ claimRank .void = 0 ∧ objRank .void ≠ claimRank .void :=
  ⟨rfl, rfl, by decide⟩

/-- C9: evaluation is idempotent — with the callable reading only its
non-output arguments, evaluating an already-evaluated expression reproduces
the same state — and a structural copy evaluates to the same outputs as the
original. -/
theorem claim_C9 {E : Expr} {Lf : List (List Nat)} (G : E.GOOD Lf)
    (hro : E.readsOnlyIns) :
    E.eval.eval = E.eval ∧ E.copy.eval = E.eval := by
  refine ⟨Expr.eval_idem G hro, ?_⟩
  rw [Expr.copy_eq]

/-- C9 witness: idempotence and copy-equivalence at the copy expression. -/
theorem claim_C9_witness :
    exW.eval.eval = exW.eval ∧ exW.copy.eval = exW.eval :=
  claim_C9 exW_good exW_reads

/-- C10: with a callable parameter of rank `p` against an argument of rank
`r >= p`, evaluation descends exactly `r - p` dimensions for that argument
— the expression's rank is the maximum of `r - p` over the arguments, the
per-argument descent path has length `r - p`, and the value handed to the
callable at a leaf is the remaining rank-`p` sub-array, passed whole. -/
theorem claim_C10 {E : Expr} {Lf : List (List Nat)} {c : List Nat}
    (G : E.GOOD Lf) (hb : inBounds c E.dims = true) :
    E.rank = E.hs.foldr (fun h m => max (h.val.rank - h.pr) m) 0 ∧
    ∀ (k : Nat) (h : Handle), E.hs[k]? = some h →
      (Handle.path E.rank c h).length = h.val.rank - h.pr ∧
      ∃ v, (E.vsAt c)[k]? = some v ∧
        v.hasShape (h.val.shape.drop (h.val.rank - h.pr)) = true ∧
        (h.pr ≤ h.val.rank → v.rank = h.pr) := by
  refine ⟨rfl, ?_⟩
  intro k h hk
  have hm : h ∈ E.hs := List.getElem?_mem hk
  obtain ⟨hok, hlen⟩ := Expr.path_ok c E Lf G hb h hm
  have hwf : h.val.wf = true := G.wfc.hw h hm
  have hv : (E.vsAt c)[k]? = some (h.val.getPath (Handle.path E.rank c h)) := by
    unfold Expr.vsAt
    rw [List.getElem?_map, hk]
    rfl
  have hsh := Obj.getPath_shape (Obj.wf_hasShape hwf) hok
  rw [hlen] at hsh
  refine ⟨hlen, h.val.getPath (Handle.path E.rank c h), hv, hsh, ?_⟩
  intro hple
  have hr := Obj.hasShape_rank hsh
  rw [hr]
  have hls : h.val.shape.length = h.val.rank := (Obj.wf_rank_shape hwf).symm
  simp only [List.length_drop]
  rw [hls]
  show h.val.rank - h.eff = h.pr
  unfold Handle.eff
  omega

/-- C10 witness: the partial-unwrap instance `x[2][3]` against a rank-1
parameter with output `out[2]`, at coordinate `[0]`. -/
theorem claim_C10_witness :
    exPU.rank = exPU.hs.foldr (fun h m => max (h.val.rank - h.pr) m) 0 ∧
    ∀ (k : Nat) (h : Handle), exPU.hs[k]? = some h →
      (Handle.path exPU.rank [0] h).length = h.val.rank - h.pr ∧
      ∃ v, (exPU.vsAt [0])[k]? = some v ∧
        v.hasShape (h.val.shape.drop (h.val.rank - h.pr)) = true ∧
        (h.pr ≤ h.val.rank → v.rank = h.pr) :=
  claim_C10 exPU_good (by decide)
